import Mathlib

/-!
# Verification of the fishtail mermaid parser and graph analysis routines

This file embeds the parsing and graph-analysis core of the fishtail
repository (src/mermaid-parser.ts, src/models.ts, src/generate-html.ts,
src/viewer/index.ts) as executable Lean definitions over `List Char`
strings, and proves properties of the embedded code.

JS strings are modelled as `List Char`; JS `Record`/`Map` objects as
association lists with insertion-order-preserving update; thrown
exceptions as `Except` errors.  Whitespace predicates are restricted to
the ASCII whitespace characters, which is what the inputs of interest
contain.
-/

namespace Fishtail

/-- JS strings modelled as lists of characters. -/
abbrev Str := List Char

/-- Converts a Lean string literal to the `Str` model. -/
def ofStr (s : String) : Str := s.data

/-- ASCII whitespace, as matched by JS `\s` / `String.prototype.trim`. -/
def isSpaceJs (c : Char) : Bool :=
  c = ' ' || c = '\t' || c = '\n' || c = '\r' || c = '\x0b' || c = '\x0c'

/-- Space or tab, as matched by the character class `[ \t]`. -/
def isSpTab (c : Char) : Bool := c = ' ' || c = '\t'

/-- JS `\w` word characters: ASCII letters, digits and underscore. -/
def isWordChar (c : Char) : Bool := c.isAlphanum || c = '_'

/-- JS `String.prototype.trim`, left part. -/
def jsTrimLeft (s : Str) : Str := s.dropWhile isSpaceJs

/-- JS `String.prototype.trim`, right part. -/
def jsTrimRight (s : Str) : Str := (s.reverse.dropWhile isSpaceJs).reverse

/-- JS `String.prototype.trim`. -/
def jsTrim (s : Str) : Str := jsTrimRight (jsTrimLeft s)

/-- JS `text.split("\n")`: always returns at least one (possibly empty) segment. -/
def splitNl : Str → List Str
  | [] => [[]]
  | c :: rest =>
    if c = '\n' then [] :: splitNl rest
    else
      match splitNl rest with
      | [] => [[c]]
      | h :: t => (c :: h) :: t

/-- ASCII lower-casing of a string (JS `toLowerCase` on ASCII input). -/
def lowerStr (s : Str) : Str := s.map Char.toLower

/-- ASCII upper-casing of a string (JS `toUpperCase` on ASCII input). -/
def upperStr (s : Str) : Str := s.map Char.toUpper

/-- `isPre p s` holds when `p` is a leading segment of `s`
(JS `String.prototype.startsWith`). -/
def isPre : Str → Str → Bool
  | [], _ => true
  | _ :: _, [] => false
  | a :: as, b :: bs => a = b && isPre as bs

/-- JS `Array.prototype.includes`-guarded push: append only when absent. -/
def addIfAbsent (ns : List Str) (x : Str) : List Str :=
  if x ∈ ns then ns else ns ++ [x]

/-- First-seen-order deduplication (JS `Set` insertion semantics). -/
def dedupFS (l : List Str) : List Str := l.foldl addIfAbsent []

/-- Lookup in an association list (JS `Map.prototype.get` / object index). -/
def getK {α : Type} : List (Str × α) → Str → Option α
  | [], _ => none
  | (k, v) :: rest, q => if k = q then some v else getK rest q

/-- Insertion-order-preserving update of an association list
(JS `Map.prototype.set` / object property assignment). -/
def setK {α : Type} : List (Str × α) → Str → α → List (Str × α)
  | [], q, v => [(q, v)]
  | (k, w) :: rest, q, v => if k = q then (q, v) :: rest else (k, w) :: setK rest q v

/-- Lookup in a `Nat`-keyed association list. -/
def getN {α : Type} : List (Nat × α) → Nat → Option α
  | [], _ => none
  | (k, v) :: rest, q => if k = q then some v else getN rest q

/-- Insertion-order-preserving update of a `Nat`-keyed association list. -/
def setN {α : Type} : List (Nat × α) → Nat → α → List (Nat × α)
  | [], q, v => [(q, v)]
  | (k, w) :: rest, q, v => if k = q then (q, v) :: rest else (k, w) :: setN rest q v

/-- In-place update of the `i`-th element of a list. -/
def modifyNth {α : Type} (f : α → α) : Nat → List α → List α
  | _, [] => []
  | 0, a :: as => f a :: as
  | n + 1, a :: as => a :: modifyNth f n as

/-! ## Data model (src/models.ts) -/

/-- An edge of the parsed graph (src/models.ts `Edge`). -/
structure Edge where
  source : Str
  target : Str
  label : Option Str := none
deriving Repr, DecidableEq

/-- A named subgraph (src/models.ts `SubGraph`). -/
structure SubGraph where
  name : Str
  nodes : List Str
deriving Repr, DecidableEq

/-- A node-label map (`Record<string, string>`), as an association list. -/
abbrev LabelMap := List (Str × Str)

/-- The parsed graph (src/models.ts `MermaidGraph`). -/
structure MermaidGraph where
  direction : Str
  subgraphs : List SubGraph
  edges : List Edge
  labels : LabelMap
deriving Repr, DecidableEq

/-! ## Mermaid parser (src/mermaid-parser.ts) -/

/-- The twelve unsupported dialect keywords (`UNSUPPORTED_TYPES`), in
iteration order of the source `Set`. -/
def unsupportedTypes : List Str :=
  [ofStr "sequenceDiagram", ofStr "gantt", ofStr "classDiagram",
   ofStr "stateDiagram", ofStr "stateDiagram-v2", ofStr "pie",
   ofStr "erDiagram", ofStr "journey", ofStr "gitGraph",
   ofStr "mindmap", ofStr "timeline", ofStr "quadrantChart"]

/-- The reserved keywords (`MERMAID_KEYWORDS`). -/
def mermaidKeywords : List Str :=
  [ofStr "end", ofStr "subgraph", ofStr "graph", ofStr "flowchart",
   ofStr "style", ofStr "classDef", ofStr "class", ofStr "direction",
   ofStr "click", ofStr "linkStyle"]

/-- A node token: identifier, optional shape label, characters consumed
(src/mermaid-parser.ts `NodeToken`). -/
structure NodeToken where
  id : Str
  label : Option Str
  consumed : Nat
deriving Repr, DecidableEq

/-- One shape pattern `open (capture-until stop) close`.  Each of the
source's `SHAPE_PATTERNS` regexes `/^O([^S]*)C/` is of this form: the
greedy `[^S]*` capture stops exactly at the first occurrence of `S`, and
the literal close delimiters must follow. -/
structure ShapePat where
  openD : Str
  stopC : Char
  closeD : Str

/-- `SHAPE_PATTERNS`, in the exact source order (quoted variant before
unquoted, longest first).  Quoted variants fold the quote characters into
the delimiters. -/
def shapePatterns : List ShapePat :=
  [ ⟨['[', '(', '"'], '"', ['"', ')', ']']⟩,       -- [("quoted")] cylinder
    ⟨['[', '('], ')', [')', ']']⟩,                 -- [(text)] cylinder
    ⟨['(', '(', '"'], '"', ['"', ')', ')']⟩,       -- (("quoted")) circle
    ⟨['(', '('], ')', [')', ')']⟩,                 -- ((text)) circle
    ⟨['[', '[', '"'], '"', ['"', ']', ']']⟩,       -- [["quoted"]] subroutine
    ⟨['[', '['], ']', [']', ']']⟩,                 -- [[text]] subroutine
    ⟨['\x7b', '\x7b', '"'], '"', ['"', '\x7d', '\x7d']⟩, -- hexagon, quoted
    ⟨['\x7b', '\x7b'], '\x7d', ['\x7d', '\x7d']⟩,  -- hexagon
    ⟨['[', '/'], '/', ['/', ']']⟩,                 -- [/text/] parallelogram
    ⟨['[', '\\'], '\\', ['\\', ']']⟩,              -- [\text\] alt parallelogram
    ⟨['[', '"'], '"', ['"', ']']⟩,                 -- ["quoted"] rectangle
    ⟨['['], ']', [']']⟩,                           -- [text] rectangle
    ⟨['(', '"'], '"', ['"', ')']⟩,                 -- ("quoted") rounded
    ⟨['('], ')', [')']⟩,                           -- (text) rounded
    ⟨['\x7b', '"'], '"', ['"', '\x7d']⟩,           -- diamond, quoted
    ⟨['\x7b'], '\x7d', ['\x7d']⟩,                  -- diamond
    ⟨['>', '"'], '"', ['"', ']']⟩,                 -- >"quoted"] asymmetric
    ⟨['>'], ']', [']']⟩ ]                          -- >text] asymmetric

/-- Tries one shape pattern at the start of `s`; returns the raw capture
and the total match length. -/
def matchShape (p : ShapePat) (s : Str) : Option (Str × Nat) :=
  if isPre p.openD s then
    let rest := s.drop p.openD.length
    let cap := rest.takeWhile (fun c => c ≠ p.stopC)
    if isPre p.closeD (rest.drop cap.length) then
      some (cap, p.openD.length + cap.length + p.closeD.length)
    else none
  else none

/-- Tries the shape patterns in order; first match wins. -/
def findShape : List ShapePat → Str → Option (Str × Nat)
  | [], _ => none
  | p :: ps, s =>
    match matchShape p s with
    | some r => some r
    | none => findShape ps s

/-- `rawLabel.replace(/^"|"$/g, "")`: strips one leading and one
trailing double quote. -/
def stripQuotes (s : Str) : Str :=
  let s1 := if s.head? = some '"' then s.drop 1 else s
  if s1.getLast? = some '"' then s1.dropLast else s1

/-- `parseNodeToken`: a `\w+` identifier plus an optional shape-delimited
label (src/mermaid-parser.ts). -/
def parseNodeToken (text : Str) : Option NodeToken :=
  let id := text.takeWhile isWordChar
  if id = [] then none
  else
    match findShape shapePatterns (text.drop id.length) with
    | some (raw, len) => some ⟨id, some (stripQuotes raw), id.length + len⟩
    | none => some ⟨id, none, id.length⟩

/-- Result of `parseArrow`: characters consumed and optional edge label. -/
structure ArrowMatch where
  consumed : Nat
  label : Option Str
deriving Repr, DecidableEq

/-- The `ARROWS` lexemes, in source order. -/
def arrowLexemes : List Str :=
  [ofStr "-.->", ofStr "-..->", ofStr "==>", ofStr "-->",
   ofStr "---", ofStr "--", ofStr "-..-", ofStr "-.-"]

/-- The optional edge label `/^[ \t]*\|([^|]*)\|/` immediately after an
arrow; returns the raw capture and the match length. -/
def edgeLabelMatch (s : Str) : Option (Str × Nat) :=
  let ws := s.takeWhile isSpTab
  match s.drop ws.length with
  | c :: rest =>
    if c = '|' then
      let cap := rest.takeWhile (fun x => x ≠ '|')
      if (rest.drop cap.length).head? = some '|' then
        some (cap, ws.length + 1 + cap.length + 1)
      else none
    else none
  | [] => none

/-- The arrow-lexeme loop inside `parseArrow`: `continue` on a lexeme
whose remainder is neither empty nor whitespace-led. -/
def arrowGo (trimmed : Str) (leading : Nat) : List Str → Option ArrowMatch
  | [] => none
  | a :: rest =>
    if isPre a trimmed then
      let pl := match edgeLabelMatch (trimmed.drop a.length) with
        | some (cap, mlen) => (some (jsTrim cap), a.length + mlen)
        | none => (none, a.length)
      match trimmed.drop pl.2 with
      | [] => some ⟨leading + pl.2, pl.1⟩
      | c :: _ =>
        if isSpTab c then some ⟨leading + pl.2, pl.1⟩
        else arrowGo trimmed leading rest
    else arrowGo trimmed leading rest

/-- `parseArrow` (src/mermaid-parser.ts): match an arrow at the current
position, with optional `|label|` and a trailing-whitespace guard. -/
def parseArrow (text : Str) : Option ArrowMatch :=
  let trimmed := text.dropWhile isSpTab
  arrowGo trimmed (text.length - trimmed.length) arrowLexemes

theorem arrowGo_consumed_pos {trimmed : Str} {leading : Nat} {as : List Str}
    {m : ArrowMatch} (hall : ∀ a ∈ as, a ≠ ([] : Str))
    (h : arrowGo trimmed leading as = some m) : 1 ≤ m.consumed := by
  induction as with
  | nil => simp [arrowGo] at h
  | cons a rest ih =>
    have ha : a ≠ ([] : Str) := hall a (by simp)
    have hrest : ∀ x ∈ rest, x ≠ ([] : Str) := fun x hx => hall x (by simp [hx])
    unfold arrowGo at h
    by_cases hp : isPre a trimmed = true
    · simp only [hp, if_true] at h
      have halen : 1 ≤ a.length := by
        cases a with
        | nil => exact absurd rfl ha
        | cons c cs => simp
      set pl := (match edgeLabelMatch (trimmed.drop a.length) with
        | some (cap, mlen) => (some (jsTrim cap), a.length + mlen)
        | none => (none, a.length)) with hpl
      have hpl2 : a.length ≤ pl.2 := by
        rw [hpl]
        cases edgeLabelMatch (trimmed.drop a.length) with
        | none => simp
        | some v => cases v with | mk cap mlen => simp
      revert h
      cases hdrop : trimmed.drop pl.2 with
      | nil =>
        intro h
        cases h
        simpa using le_trans halen (le_trans hpl2 (Nat.le_add_left _ _))
      | cons c cs =>
        intro h
        by_cases hsp : isSpTab c = true
        · simp only [hsp, if_true] at h
          cases h
          simpa using le_trans halen (le_trans hpl2 (Nat.le_add_left _ _))
        · simp only [hsp] at h
          exact ih hrest h
    · simp only [Bool.not_eq_true] at hp
      simp only [hp] at h
      exact ih hrest h

theorem parseArrow_consumed_pos {text : Str} {m : ArrowMatch}
    (h : parseArrow text = some m) : 1 ≤ m.consumed := by
  unfold parseArrow at h
  exact arrowGo_consumed_pos (by decide) h

theorem length_dropWhile_le' {p : Char → Bool} (l : Str) :
    (l.dropWhile p).length ≤ l.length :=
  List.Sublist.length_le (List.dropWhile_sublist p)

/-- The edge-chain loop of `parseEdgeLine`: repeatedly match an arrow,
skip `[ \t]`, parse the target token, record its label and the edge, and
continue with the target as the new source.  `rest` is the unparsed
remainder of the trimmed line. -/
def edgeLoop (rest : Str) (sourceId : Str) (labels : LabelMap) :
    List Edge × LabelMap :=
  if hrest : rest = [] then ([], labels)
  else
    match ha : parseArrow rest with
    | none => ([], labels)
    | some arrow =>
      let rest2 := (rest.drop arrow.consumed).dropWhile isSpTab
      match parseNodeToken rest2 with
      | none => ([], labels)
      | some target =>
        let labels2 := match target.label with
          | some l => setK labels target.id l
          | none => labels
        let lbl := match arrow.label with
          | some l => if l = [] then none else some l
          | none => none
        let r := edgeLoop (rest2.drop target.consumed) target.id labels2
        (⟨sourceId, target.id, lbl⟩ :: r.1, r.2)
termination_by rest.length
decreasing_by
  have h1 : 1 ≤ arrow.consumed := parseArrow_consumed_pos ha
  have hlen : 1 ≤ rest.length := by
    cases rest with
    | nil => exact absurd rfl hrest
    | cons a as => simp
  have h2 : ((rest.drop arrow.consumed).dropWhile isSpTab).length
      ≤ rest.length - arrow.consumed := by
    calc ((rest.drop arrow.consumed).dropWhile isSpTab).length
        ≤ (rest.drop arrow.consumed).length := length_dropWhile_le' _
      _ = rest.length - arrow.consumed := by simp
  have h3 : (((rest.drop arrow.consumed).dropWhile isSpTab).drop target.consumed).length
      ≤ ((rest.drop arrow.consumed).dropWhile isSpTab).length := by
    simp only [List.length_drop]
    omega
  omega

/-- `parseEdgeLine` (src/mermaid-parser.ts): parse all edges from one
line; the first token's label is written before any arrow is sought. -/
def parseEdgeLine (line : Str) (labels : LabelMap) :
    List Edge × LabelMap :=
  let trimmed := jsTrim line
  match parseNodeToken trimmed with
  | none => ([], labels)
  | some firstNode =>
    let labels1 := match firstNode.label with
      | some l => setK labels firstNode.id l
      | none => labels
    edgeLoop (trimmed.drop firstNode.consumed) firstNode.id labels1

/-- `parseNodeDeclaration` (src/mermaid-parser.ts): a standalone node
declaration must consume the whole trimmed line and must not be a
reserved keyword; only then is its label written. -/
def parseNodeDeclaration (line : Str) (labels : LabelMap) :
    Option Str × LabelMap :=
  let trimmed := jsTrim line
  match parseNodeToken trimmed with
  | none => (none, labels)
  | some node =>
    if node.consumed ≠ trimmed.length then (none, labels)
    else if node.id ∈ mermaidKeywords then (none, labels)
    else
      let labels1 := match node.label with
        | some l => setK labels node.id l
        | none => labels
      (some node.id, labels1)

/-- `COMMENT` regex `/^\s*%%/`. -/
def isCommentLine (line : Str) : Bool :=
  isPre (ofStr "%%") (line.dropWhile isSpaceJs)

/-- `DIRECTION` regex `/^\s*direction\s+/`. -/
def isDirectionLine (line : Str) : Bool :=
  let rest := line.dropWhile isSpaceJs
  isPre (ofStr "direction") rest &&
    match (rest.drop 9).head? with
    | some c => isSpaceJs c
    | none => false

/-- `SUBGRAPH_END` regex `/^\s*end\s*$/`. -/
def isEndLine (line : Str) : Bool :=
  let rest := line.dropWhile isSpaceJs
  isPre (ofStr "end") rest && (rest.drop 3).all isSpaceJs

/-- `SUBGRAPH_START` regex `/^\s*subgraph\s+(?:"([^"]*)"|([\w-]+))/`:
returns the captured name (quoted alternative tried first). -/
def subgraphStartMatch (line : Str) : Option Str :=
  let rest := line.dropWhile isSpaceJs
  if isPre (ofStr "subgraph") rest then
    let rest2 := rest.drop 8
    let ws := rest2.takeWhile isSpaceJs
    if ws = [] then none
    else
      let rest3 := rest2.drop ws.length
      match rest3 with
      | c :: body =>
        if c = '"' then
          let cap := body.takeWhile (fun x => x ≠ '"')
          if (body.drop cap.length).head? = some '"' then some cap else none
        else
          let bare := (c :: body).takeWhile (fun x => isWordChar x || x = '-')
          if bare = [] then none else some bare
      | [] => none
  else none

/-- The mutable per-parse state of the line loop: accumulated subgraphs,
edges, label map, and the current subgraph as an index (the source keeps
a live reference into the `subgraphs` array). -/
structure PState where
  subgraphs : List SubGraph
  edges : List Edge
  labels : LabelMap
  current : Option Nat
deriving Repr, DecidableEq

/-- Adds the endpoints of parsed edges to a subgraph member list,
source before target, skipping endpoints already present. -/
def addEndpoints (ns : List Str) : List Edge → List Str
  | [] => ns
  | e :: es => addEndpoints (addIfAbsent (addIfAbsent ns e.source) e.target) es

/-- One iteration of the per-line loop in `parse`
(src/mermaid-parser.ts lines 226-268). -/
def stepLine (st : PState) (line : Str) : PState :=
  if isCommentLine line then st
  else if isDirectionLine line then st
  else
    match subgraphStartMatch line with
    | some name =>
      { st with subgraphs := st.subgraphs ++ [⟨name, []⟩],
                current := some st.subgraphs.length }
    | none =>
      if isEndLine line then { st with current := none }
      else
        let pe := parseEdgeLine line st.labels
        if pe.1 ≠ [] then
          let subgraphs1 := match st.current with
            | some i =>
              modifyNth (fun sg => ⟨sg.name, addEndpoints sg.nodes pe.1⟩)
                i st.subgraphs
            | none => st.subgraphs
          { st with edges := st.edges ++ pe.1, labels := pe.2,
                    subgraphs := subgraphs1 }
        else
          match st.current with
          | some i =>
            let pd := parseNodeDeclaration line pe.2
            match pd.1 with
            | some id =>
              { st with labels := pd.2,
                        subgraphs :=
                          modifyNth (fun sg => ⟨sg.name, sg.nodes ++ [id]⟩)
                            i st.subgraphs }
            | none => { st with labels := pd.2 }
          | none => { st with labels := pe.2 }

/-- The initial parse state. -/
def initState : PState := ⟨[], [], [], none⟩

/-- The body loop of `parse` over the lines after the first. -/
def parseLines (body : List Str) : PState := body.foldl stepLine initState

/-- The message of the `UnsupportedDiagramError` thrown for a recognized
unsupported dialect keyword. -/
def unsuppMsg (u : Str) : Str :=
  ofStr "Diagram type '" ++ u ++
    ofStr "' is not supported yet. Only graph/flowchart diagrams are supported."

/-- The message of the `UnsupportedDiagramError` thrown for an
unrecognized header. -/
def badHeaderMsg (h : Str) : Str :=
  ofStr "Unsupported diagram type. Only graph/flowchart diagrams are supported. Got: '"
    ++ h ++ ofStr "'"

/-- The header line: the first line that is non-blank after trimming and
not a `%%` comment, itself trimmed; `""` when there is none. -/
def headerOf (lines : List Str) : Str :=
  ((lines.find? fun l => !(jsTrim l).isEmpty && !isCommentLine l).map jsTrim).getD []

/-- The `SUPPORTED` regex `/^(?:graph|flowchart)\s+([A-Z]+)/i`: returns
the captured direction token. -/
def supportedMatch (s : Str) : Option Str :=
  let afterKw :=
    if isPre (ofStr "graph") (lowerStr s) then some (s.drop 5)
    else if isPre (ofStr "flowchart") (lowerStr s) then some (s.drop 9)
    else none
  match afterKw with
  | none => none
  | some rest =>
    let ws := rest.takeWhile isSpaceJs
    if ws = [] then none
    else
      let dir := (rest.drop ws.length).takeWhile Char.isAlpha
      if dir = [] then none else some dir

/-- `parse` (src/mermaid-parser.ts): classify the header, then run the
line loop; a thrown `UnsupportedDiagramError` is an `Except.error`. -/
def parse (text : Str) : Except Str MermaidGraph :=
  let lines := splitNl (jsTrim text)
  let headerLine := headerOf lines
  match unsupportedTypes.find? (fun u => isPre (lowerStr u) (lowerStr headerLine)) with
  | some u => .error (unsuppMsg u)
  | none =>
    match supportedMatch headerLine with
    | none => .error (badHeaderMsg headerLine)
    | some dir =>
      let st := parseLines (lines.drop 1)
      .ok ⟨upperStr dir, st.subgraphs, st.edges, st.labels⟩

/-! ## Graph queries (src/models.ts) -/

/-- Strict lexicographic comparison of strings by character code, the
order induced by the JS default `Array.prototype.sort` comparator on
strings. -/
def strLtB : Str → Str → Bool
  | [], [] => false
  | [], _ :: _ => true
  | _ :: _, [] => false
  | a :: as, b :: bs => if a < b then true else if b < a then false else strLtB as bs

/-- Non-strict version of `strLtB`. -/
def strLeB (a b : Str) : Bool := !strLtB b a

/-- `allNodeNames` (src/models.ts): the sorted, duplicate-free union of
every subgraph member and every edge endpoint. -/
def allNodeNames (g : MermaidGraph) : List Str :=
  (dedupFS ((g.subgraphs.map SubGraph.nodes).flatten ++
    (g.edges.map fun e => [e.source, e.target]).flatten)).mergeSort strLeB

/-- `nodeSubgraph` (src/models.ts): the first subgraph containing the
name as a member. -/
def nodeSubgraph (g : MermaidGraph) (name : Str) : Option Str :=
  (g.subgraphs.find? fun sg => decide (name ∈ sg.nodes)).map SubGraph.name

/-! ## Transitive reachability (src/viewer/index.ts `reachable`) -/

/-- Per-source adjacency: the targets of all edges out of `v`, in edge
order. -/
def succsOf (es : List Edge) (v : Str) : List Str :=
  es.filterMap fun e => if e.source = v then some e.target else none

/-- Per-target adjacency: the sources of all edges into `v`, in edge
order. -/
def predsOf (es : List Edge) (v : Str) : List Str :=
  es.filterMap fun e => if e.target = v then some e.source else none

/-- One round of closure expansion: add all adjacent nodes of the
accumulated set. -/
def adjStep (adj : Str → List Str) (acc : List Str) : List Str :=
  ((acc.map adj).flatten).foldl addIfAbsent acc

/-- Fuelled closure: iterate `adjStep` `n` times. -/
def saturate (adj : Str → List Str) : Nat → List Str → List Str
  | 0, acc => acc
  | n + 1, acc => saturate adj n (adjStep adj acc)

/-- All nodes reachable from `v` along edges (including `v`). -/
def descendantsOf (es : List Edge) (v : Str) : List Str :=
  saturate (succsOf es) (v :: es.map Edge.target).length [v]

/-- All nodes that reach `v` along edges (including `v`). -/
def ancestorsOf (es : List Edge) (v : Str) : List Str :=
  saturate (predsOf es) (v :: es.map Edge.source).length [v]

/-- Modelled from the spec: the node set of `reachable(node)` in
src/viewer/index.ts, which delegates to the cytoscape collection
operations `successors`, `predecessors` and `union` (library code not in
this repository): the node itself, plus every node reachable by
following outgoing edges recursively, plus every node reaching it by
following incoming edges in reverse recursively. -/
def reachableNodes (g : MermaidGraph) (v : Str) : List Str :=
  dedupFS (v :: (descendantsOf g.edges v ++ ancestorsOf g.edges v))

/-- Modelled from the spec: the edge set of `reachable(node)`
(cytoscape `edgesWith`, library code not in this repository): every edge
whose two endpoints both lie in `reachableNodes`. -/
def reachableEdges (g : MermaidGraph) (v : Str) : List Edge :=
  g.edges.filter fun e =>
    decide (e.source ∈ reachableNodes g v) && decide (e.target ∈ reachableNodes g v)

/-- The single-step successor relation of an edge list. -/
def stepRel (es : List Edge) (a b : Str) : Prop :=
  ∃ e ∈ es, e.source = a ∧ e.target = b

/-- Reachability along edges: reflexive-transitive closure of `stepRel`. -/
def reachesRel (es : List Edge) : Str → Str → Prop :=
  Relation.ReflTransGen (stepRel es)

deriving instance DecidableEq for Except

/-- A list of edges forms a chain starting at `s`: each edge's source is
the previous edge's target. -/
def chainFrom : Str → List Edge → Prop
  | _, [] => True
  | s, e :: es => e.source = s ∧ chainFrom e.target es

/-- `needle` occurs as a contiguous substring of `hay`. -/
def containsSub (needle hay : Str) : Prop :=
  ∃ p q, hay = p ++ needle ++ q

/-- The reserved keywords whose `k --> b` lines reach the edge branch
(all of `MERMAID_KEYWORDS` except `subgraph`, whose line opens a
subgraph, and `direction`, whose line is skipped as a direction hint). -/
def keywordEdgeSources : List Str :=
  [ofStr "end", ofStr "graph", ofStr "flowchart", ofStr "style",
   ofStr "classDef", ofStr "class", ofStr "click", ofStr "linkStyle"]

/-! ## Tarjan SCC (src/generate-html.ts `findCyclicEdgeIds` and
src/viewer/index.ts `findSimpleCycles` share this preamble verbatim) -/

/-- `allNodes`: the node set of an edge list in first-insertion order
(for each edge its source, then its target). -/
def nodesOf (es : List Edge) : List Str :=
  dedupFS ((es.map fun e => [e.source, e.target]).flatten)

/-- The mutable state of `strongconnect`: the `index` and `lowlink` maps,
the `onStack` membership set, the stack (head = top), the `sccId` map,
the per-id member lists in pop order (`sccNodes` of the viewer;
`sccSizes.get(id)` of generate-html.ts is the length of the id's member
list, both being incremented once per popped node), and the two
counters. -/
structure TJ where
  indexM : List (Str × Nat)
  lowlinkM : List (Str × Nat)
  onStack : List Str
  stack : List Str
  sccIdM : List (Str × Nat)
  sccNodes : List (Nat × List Str)
  counter : Nat
  sccCount : Nat
deriving Repr, DecidableEq

/-- The initial Tarjan state: all maps and the stack empty, counters 0. -/
def tjInit : TJ := ⟨[], [], [], [], [], [], 0, 0⟩

/-- The `do … while (w !== v)` pop loop: split the stack into the popped
segment (down to and including the first `v`, in pop order) and the
remaining stack. -/
def popUntil (v : Str) : List Str → List Str × List Str
  | [] => ([], [])
  | w :: rest =>
    if w = v then ([w], rest)
    else
      let pr := popUntil v rest
      (w :: pr.1, pr.2)

/-- The root branch of `strongconnect`: pop the stack down to `v`,
deleting the popped nodes from `onStack` and recording them under the
fresh SCC id `sccCount`. -/
def popRoot (v : Str) (st : TJ) : TJ :=
  let pr := popUntil v st.stack
  { st with
    stack := pr.2,
    onStack := st.onStack.filter fun x => !decide (x ∈ pr.1),
    sccIdM := pr.1.foldl (fun m w => setK m w st.sccCount) st.sccIdM,
    sccNodes := setN st.sccNodes st.sccCount pr.1,
    sccCount := st.sccCount + 1 }

/-- Visited nodes (keys of `index`) of `st` are also visited in `st'`. -/
def tjMono (st st' : TJ) : Prop :=
  ∀ x, (getK st.indexM x).isSome = true → (getK st'.indexM x).isSome = true

/-- The number of not-yet-visited nodes, the primary termination
measure of `strongconnect`. -/
def unvisitedCount (allNs : List Str) (st : TJ) : Nat :=
  allNs.countP fun v => (getK st.indexM v).isNone

theorem tjMono_refl (st : TJ) : tjMono st st := fun _ h => h

theorem tjMono_trans {a b c : TJ} (h1 : tjMono a b) (h2 : tjMono b c) :
    tjMono a c :=
  fun x h => h2 x (h1 x h)

theorem getK_setK {α : Type} (m : List (Str × α)) (k q : Str) (v : α) :
    getK (setK m k v) q = if k = q then some v else getK m q := by
  induction m with
  | nil =>
    by_cases hq : k = q <;> simp [setK, getK, hq]
  | cons hd tl ih =>
    obtain ⟨k0, v0⟩ := hd
    by_cases h0 : k0 = k
    · subst h0
      by_cases hq : k0 = q <;> simp [setK, getK, hq]
    · by_cases hq : k0 = q
      · have hkq : ¬k = q := by
          rw [← hq]; exact fun h => h0 h.symm
        have hqk : ¬q = k := fun h => hkq h.symm
        simp [setK, getK, h0, hq, hkq, hqk]
      · simp [setK, getK, h0, hq, ih]

theorem countP_le_of_imp {p q : Str → Bool} :
    ∀ l : List Str, (∀ x ∈ l, q x = true → p x = true) →
      l.countP q ≤ l.countP p := by
  intro l
  induction l with
  | nil => intro _; simp
  | cons a l ih =>
    intro h
    have ha := h a (by simp)
    have hl := ih fun x hx => h x (by simp [hx])
    rw [List.countP_cons, List.countP_cons]
    by_cases hq : q a = true
    · simp [hq, ha hq]; omega
    · simp only [Bool.not_eq_true] at hq
      simp [hq]
      split <;> omega

theorem countP_lt_of_imp {p q : Str → Bool} {a : Str} :
    ∀ l : List Str, a ∈ l → p a = true → q a = false →
      (∀ x ∈ l, q x = true → p x = true) → l.countP q < l.countP p := by
  intro l
  induction l with
  | nil => intro h; cases h
  | cons b l ih =>
    intro hmem hp hq himp
    rw [List.countP_cons, List.countP_cons]
    rcases List.mem_cons.mp hmem with hba | hal
    · subst hba
      have hle := countP_le_of_imp l fun x hx => himp x (by simp [hx])
      simp [hp, hq]; omega
    · have := ih hal hp hq fun x hx => himp x (by simp [hx])
      have hx : (if q b = true then 1 else 0) ≤ if p b = true then 1 else 0 := by
        by_cases hqb : q b = true
        · simp [hqb, himp b (by simp) hqb]
        · simp [hqb]
      omega

theorem unvisitedCount_le_of_mono {allNs : List Str} {st st' : TJ}
    (h : tjMono st st') :
    unvisitedCount allNs st' ≤ unvisitedCount allNs st := by
  refine countP_le_of_imp allNs fun x _ hq => ?_
  by_cases hs : (getK st.indexM x).isSome = true
  · have := h x hs
    rw [Option.isNone_iff_eq_none] at hq
    rw [hq] at this
    simp at this
  · simp [Option.isNone_iff_eq_none, Option.not_isSome_iff_eq_none.mp hs]

theorem unvisitedCount_lt_set {allNs : List Str} {m : List (Str × Nat)}
    {v : Str} {c : Nat} (hv : v ∈ allNs) (hunv : getK m v = none) :
    (allNs.countP fun x => (getK (setK m v c) x).isNone) <
      allNs.countP fun x => (getK m x).isNone := by
  refine countP_lt_of_imp allNs hv (by simp [hunv]) ?_ ?_
  · simp [getK_setK]
  · intro x _ hq
    rw [getK_setK] at hq
    by_cases hvx : v = x
    · simp [hvx] at hq
    · simpa [hvx] using hq

theorem tjMono_of_setK {st : TJ} {v : Str} {c : Nat} {st' : TJ}
    (h : st'.indexM = setK st.indexM v c) : tjMono st st' := by
  intro x hx
  rw [h, getK_setK]
  by_cases hvix : v = x <;> simp [hvix, hx]

/-- `x ∈ l → x ∈ dedupFS l` (first-seen dedup keeps every member). -/
theorem mem_dedupFS_of {l : List Str} {x : Str} (hx : x ∈ l) :
    x ∈ dedupFS l := by
  have aux : ∀ (l' : List Str) (acc : List Str),
      x ∈ acc ∨ x ∈ l' → x ∈ l'.foldl addIfAbsent acc := by
    intro l'
    induction l' with
    | nil => intro acc h; simpa using h
    | cons a t ih =>
      intro acc h
      refine ih (addIfAbsent acc a) ?_
      rcases h with h | h
      · left
        unfold addIfAbsent
        split <;> simp [h]
      · rcases List.mem_cons.mp h with h | h
        · left
          unfold addIfAbsent
          split
          · subst h; assumption
          · simp [h]
        · right; exact h
  exact aux l [] (Or.inr hx)

/-- Successors are members of `nodesOf`. -/
theorem succsOf_mem_nodesOf {es : List Edge} {u w : Str}
    (hw : w ∈ succsOf es u) : w ∈ nodesOf es := by
  unfold succsOf at hw
  rw [List.mem_filterMap] at hw
  obtain ⟨e, he, hmap⟩ := hw
  refine mem_dedupFS_of ?_
  rw [List.mem_flatten]
  refine ⟨[e.source, e.target], by simpa using ⟨e, he, rfl, rfl⟩, ?_⟩
  by_cases hs : e.source = u
  · simp [hs] at hmap
    simp [hmap]
  · simp [hs] at hmap

/-- The `lowlink.set(v, Math.min(lowlink.get(v)!, lowlink.get(w)!))`
update after a recursive visit of `w`. -/
def tjLowMinLow (v w : Str) (st : TJ) : TJ :=
  { st with
    lowlinkM := setK st.lowlinkM v
      (min ((getK st.lowlinkM v).getD 0) ((getK st.lowlinkM w).getD 0)) }

/-- The `lowlink.set(v, Math.min(lowlink.get(v)!, index.get(w)!))`
update for an on-stack successor `w`. -/
def tjLowMinIdx (v w : Str) (st : TJ) : TJ :=
  { st with
    lowlinkM := setK st.lowlinkM v
      (min ((getK st.lowlinkM v).getD 0) ((getK st.indexM w).getD 0)) }

/-- The entry bookkeeping of `strongconnect(v)`: set index and lowlink
to `counter`, increment it, push `v` on the stack and into `onStack`. -/
def tjMark (v : Str) (st : TJ) : TJ :=
  { st with
    indexM := setK st.indexM v st.counter,
    lowlinkM := setK st.lowlinkM v st.counter,
    counter := st.counter + 1,
    stack := v :: st.stack,
    onStack := v :: st.onStack }

mutual
/-- `strongconnect(v)` for an unvisited `v` (src/generate-html.ts and,
verbatim, src/viewer/index.ts): assign the next index and lowlink, push
`v`, process every successor in edge order, then pop an SCC when `v` is
a root.  The `hall`, `hv` and `hunv` arguments are proof-only (erased):
the subtype result records that visited nodes stay visited, which drives
termination. -/
def tjVisit (es : List Edge) (allNs : List Str)
    (hall : ∀ u w, w ∈ succsOf es u → w ∈ allNs)
    (v : Str) (st : TJ) (hv : v ∈ allNs)
    (hunv : getK st.indexM v = none) :
    { st' : TJ // tjMono st st' } :=
  let st1 : TJ := tjMark v st
  let r2 := tjNbrs es allNs hall v (succsOf es v) st1 fun w hw => hall v w hw
  if getK r2.1.lowlinkM v = getK r2.1.indexM v then
    ⟨popRoot v r2.1, by
      have h1 : tjMono st st1 := tjMono_of_setK rfl
      have h2 : tjMono st r2.1 := tjMono_trans h1 r2.2
      exact tjMono_trans h2 fun x hx => hx⟩
  else
    ⟨r2.1, tjMono_trans (tjMono_of_setK rfl) r2.2⟩
termination_by (unvisitedCount allNs st, 0)
decreasing_by
· apply Prod.Lex.left
  exact unvisitedCount_lt_set hv hunv

/-- The `for (const w of adj.get(v) ?? [])` loop body of
`strongconnect`, processing the remaining successor list `ws` of `v`:
unvisited successors are visited recursively and `lowlink(v)` is lowered
to `lowlink(w)`; on-stack visited successors lower `lowlink(v)` to
`index(w)`; other successors are skipped. -/
def tjNbrs (es : List Edge) (allNs : List Str)
    (hall : ∀ u w, w ∈ succsOf es u → w ∈ allNs)
    (v : Str) (ws : List Str) (st : TJ)
    (hws : ∀ w ∈ ws, w ∈ allNs) :
    { st' : TJ // tjMono st st' } :=
  match ws with
  | [] => ⟨st, tjMono_refl st⟩
  | w :: rest =>
    if hw : getK st.indexM w = none then
      let r1 := tjVisit es allNs hall w st (hws w (by simp)) hw
      let stB : TJ := tjLowMinLow v w r1.1
      let r2 := tjNbrs es allNs hall v rest stB fun x hx => hws x (by simp [hx])
      ⟨r2.1, tjMono_trans (tjMono_trans r1.2 (fun _ h => h)) r2.2⟩
    else if w ∈ st.onStack then
      let stB : TJ := tjLowMinIdx v w st
      let r2 := tjNbrs es allNs hall v rest stB fun x hx => hws x (by simp [hx])
      ⟨r2.1, r2.2⟩
    else
      tjNbrs es allNs hall v rest st fun x hx => hws x (by simp [hx])
termination_by (unvisitedCount allNs st, ws.length + 1)
decreasing_by
· apply Prod.Lex.right
  simp only [List.length_cons]
  omega
· have hle : unvisitedCount allNs stB ≤ unvisitedCount allNs st :=
    unvisitedCount_le_of_mono r1.2
  rcases Nat.lt_or_ge (unvisitedCount allNs stB) (unvisitedCount allNs st) with hlt | hge
  · exact Prod.Lex.left _ _ hlt
  · have heq : unvisitedCount allNs stB = unvisitedCount allNs st :=
      Nat.le_antisymm hle hge
    rw [heq]
    apply Prod.Lex.right
    simp only [List.length_cons]
    omega
· apply Prod.Lex.right
  simp only [List.length_cons]
  omega
· apply Prod.Lex.right
  simp only [List.length_cons]
  omega
end

/-- One iteration of the driver loop:
`if (!index.has(node)) strongconnect(node)`. -/
def tjStep (es : List Edge) (st : TJ) (vh : { x // x ∈ nodesOf es }) : TJ :=
  if h : getK st.indexM vh.1 = none then
    (tjVisit es (nodesOf es) (fun _ _ hw => succsOf_mem_nodesOf hw)
      vh.1 st vh.2 h).1
  else st

/-- The driver loop: visit every not-yet-visited node of `allNodes` in
insertion order (`for (const node of allNodes) if (!index.has(node))
strongconnect(node)`). -/
def tarjanSCC (es : List Edge) : TJ :=
  (nodesOf es).attach.foldl (tjStep es) tjInit

/-- The edge id string `` `${source}__${target}` ``. -/
def mkEdgeId (u v : Str) : Str := u ++ ofStr "__" ++ v

/-- The per-edge test of `findCyclicEdgeIds`: `selfLoop || inCycle`,
where `inCycle` is `id !== undefined && sccId.get(target) === id &&
sccSizes.get(id)! > 1` (`sccSizes.get(id)` being the length of the id's
member list). -/
def cyclicTest (st : TJ) (e : Edge) : Bool :=
  decide (e.source = e.target) ||
    (match getK st.sccIdM e.source with
     | none => false
     | some i =>
       decide (getK st.sccIdM e.target = some i) &&
         decide (1 < ((getN st.sccNodes i).getD []).length))

/-- src/generate-html.ts `findCyclicEdgeIds`: run Tarjan, then collect
the ids of the edges that are self-loops or join two nodes of one SCC of
size greater than 1. -/
def findCyclicEdgeIds (es : List Edge) : List Str :=
  let st := tarjanSCC es
  es.foldl
    (fun ids e =>
      if cyclicTest st e = true then
        addIfAbsent ids (mkEdgeId e.source e.target)
      else ids)
    []

/-! ## Simple-cycle enumeration (src/viewer/index.ts `findSimpleCycles`) -/

/-- The canonicalization loop of `findSimpleCycles`: the index of the
lexicographically smallest node of `path` (first occurrence wins,
starting from `minIdx = 0` and scanning `i = 1 …`). -/
def minIdxOf (path : List Str) : Nat :=
  ((List.range path.length).drop 1).foldl
    (fun m i => if strLtB (path.getD i []) (path.getD m []) then i else m) 0

/-- `[...path.slice(minIdx), ...path.slice(0, minIdx)]`: rotate so the
lexicographically smallest node comes first. -/
def rotateMin (path : List Str) : List Str :=
  path.drop (minIdxOf path) ++ path.take (minIdxOf path)

/-- JS `array.join(",")` on a list of node names. -/
def joinComma (l : List Str) : Str := List.intercalate [','] l

/-- The sort comparator of `findSimpleCycles`
(`a.length !== b.length ? a.length - b.length : a.join(",") < b.join(",")
? -1 : 1`), as the predicate `comparator(a, b) ≤ 0`; the final JS
`Array.sort` is modelled as a merge sort with this predicate, which
agrees with JS whenever the comparator is consistent (in particular
whenever the joined keys are pairwise distinct). -/
def cycleLeB (a b : List Str) : Bool :=
  if a.length = b.length then strLtB (joinComma a) (joinComma b)
  else decide (a.length < b.length)

/-- The reflexive-total closure of the sort comparator: length first,
then the comma-joined string allowing ties (used to state in which
order the returned list is sorted). -/
def cycleLeW (a b : List Str) : Bool :=
  if a.length = b.length then !strLtB (joinComma b) (joinComma a)
  else decide (a.length < b.length)

/-- Lexicographic order on node sequences (the sort order named by the
specification). -/
def seqLexLtB : List Str → List Str → Bool
  | [], [] => false
  | [], _ :: _ => true
  | _ :: _, [] => false
  | a :: as, b :: bs => strLtB a b || (decide (a = b) && seqLexLtB as bs)

/-- A simple cycle of the edge list: a nonempty duplicate-free node
sequence, consecutive nodes joined by edges, and an edge from the last
node back to the first. -/
def isSimpleCycle (es : List Edge) (c : List Str) : Prop :=
  c ≠ [] ∧ c.Nodup ∧ List.Chain' (stepRel es) c ∧
    stepRel es (c.getLastD []) (c.headD [])

/-- The per-SCC adjacency `sccAdj` (`?? []` for non-members): successors
restricted to the SCC's member set. -/
def sccAdjOf (es : List Edge) (members : List Str) (u : Str) : List Str :=
  if u ∈ members then (succsOf es u).filter (fun n => decide (n ∈ members))
  else []

theorem sccAdjOf_mem {es : List Edge} {members : List Str} {u w : Str}
    (h : w ∈ sccAdjOf es members u) : w ∈ members := by
  unfold sccAdjOf at h
  split at h
  · exact (by simpa using (List.mem_filter.mp h).2)
  · exact absurd h (List.not_mem_nil w)

theorem unvisMem_lt {members visited : List Str} {n : Str}
    (hmem : n ∈ members) (hnvis : n ∉ visited) :
    members.countP (fun x => !decide (x ∈ n :: visited))
      < members.countP (fun x => !decide (x ∈ visited)) := by
  refine countP_lt_of_imp members hmem (by simp [hnvis]) (by simp) ?_
  intro x _ hq
  simp only [Bool.not_eq_true', decide_eq_false_iff_not, List.mem_cons,
    not_or] at hq
  simp [hq.2]

mutual
/-- The recursive `dfs(current)` of `findSimpleCycles`: iterate over the
restricted successors of `current`.  `path` and `visited` are the
caller-local backtracking state (JS pushes before the recursive call and
pops after it, so each call receives its own extended copy); only
`seen`/`cycles` flow back.  `seen` holds the canonical lists themselves
(JS keys them by `JSON.stringify`, which is injective on string
arrays). -/
def dfsC (members : List Str) (sccAdj : Str → List Str)
    (hadj : ∀ u w, w ∈ sccAdj u → w ∈ members) (start current : Str)
    (path visited : List Str) (seen cycles : List (List Str)) :
    List (List Str) × List (List Str) :=
  dfsNbrs members sccAdj hadj start (sccAdj current)
    (fun x hx => hadj current x hx) path visited seen cycles
termination_by
  (members.countP (fun x => !decide (x ∈ visited)),
    (sccAdj current).length + 2)
decreasing_by
· apply Prod.Lex.right
  omega

/-- The `for (const neighbor of sccAdj.get(current) ?? [])` loop of
`dfs`: close a cycle back to `start`, or recurse into an unvisited
neighbor, or skip. -/
def dfsNbrs (members : List Str) (sccAdj : Str → List Str)
    (hadj : ∀ u w, w ∈ sccAdj u → w ∈ members) (start : Str) :
    (ns : List Str) → (hns : ∀ x ∈ ns, x ∈ members) →
    (path visited : List Str) → (seen cycles : List (List Str)) →
    List (List Str) × List (List Str)
  | [], _, _, _, seen, cycles => (seen, cycles)
  | n :: rest, hns, path, visited, seen, cycles =>
    if n = start ∧ 1 < path.length then
      let canonical := rotateMin path
      let p :=
        if canonical ∈ seen then (seen, cycles)
        else (seen ++ [canonical], cycles ++ [canonical])
      dfsNbrs members sccAdj hadj start rest
        (fun x hx => hns x (List.mem_cons_of_mem _ hx)) path visited p.1 p.2
    else if hn : n ∈ visited then
      dfsNbrs members sccAdj hadj start rest
        (fun x hx => hns x (List.mem_cons_of_mem _ hx)) path visited
        seen cycles
    else
      let p := dfsC members sccAdj hadj start n (path ++ [n]) (n :: visited)
        seen cycles
      dfsNbrs members sccAdj hadj start rest
        (fun x hx => hns x (List.mem_cons_of_mem _ hx)) path visited p.1 p.2
termination_by ns _ path visited =>
  (members.countP (fun x => !decide (x ∈ visited)), ns.length + 1)
decreasing_by
· apply Prod.Lex.right
  simp only [List.length_cons]
  omega
· apply Prod.Lex.right
  simp only [List.length_cons]
  omega
· apply Prod.Lex.left
  exact unvisMem_lt (hns n (List.mem_cons_self _ _)) hn
· apply Prod.Lex.right
  simp only [List.length_cons]
  omega
end

/-- The self-loop pass of `findSimpleCycles`: emit `[source]` once per
self-looping node. -/
def selfLoopStep (p : List (List Str) × List (List Str)) (e : Edge) :
    List (List Str) × List (List Str) :=
  if e.source = e.target then
    if [e.source] ∈ p.1 then p
    else (p.1 ++ [[e.source]], p.2 ++ [[e.source]])
  else p

/-- One SCC entry of the multi-node pass: skip singleton components,
otherwise run the cycle walk from every member. -/
def sccEntryStep (es : List Edge) (p : List (List Str) × List (List Str))
    (entry : Nat × List Str) : List (List Str) × List (List Str) :=
  if entry.2.length ≤ 1 then p
  else
    entry.2.foldl
      (fun p start =>
        dfsC entry.2 (sccAdjOf es entry.2)
          (fun _ _ hw => sccAdjOf_mem hw) start start
          [start] [start] p.1 p.2)
      p

/-- src/viewer/index.ts `findSimpleCycles`: self-loops, then per-SCC
simple-cycle walks with canonicalization and dedup, then the final
sort. -/
def findSimpleCycles (es : List Edge) : List (List Str) :=
  let st := tarjanSCC es
  let p0 := es.foldl selfLoopStep ([], [])
  let p1 := st.sccNodes.foldl (sccEntryStep es) p0
  List.mergeSort p1.2 cycleLeB

/-! ### Verification predicates for the Tarjan state -/

/-- `index.has(x)`: node `x` has been visited. -/
def tjVisited (st : TJ) (x : Str) : Prop := (getK st.indexM x).isSome = true

/-- `sccId.has(x)`: node `x` has been assigned to an SCC. -/
def tjAssigned (st : TJ) (x : Str) : Prop := (getK st.sccIdM x).isSome = true

/-- The index of `x` (0 when unvisited). -/
def idxOf (st : TJ) (x : Str) : Nat := (getK st.indexM x).getD 0

/-- The lowlink of `x` (0 when absent). -/
def lowOf (st : TJ) (x : Str) : Nat := (getK st.lowlinkM x).getD 0

/-- All stack nodes strictly above `v` (larger index) are completed:
their lowlink is strictly below their index, and at least `v`'s
lowlink. -/
def strictAbove (st : TJ) (v : Str) : Prop :=
  ∀ x ∈ st.stack, idxOf st v < idxOf st x →
    lowOf st x < idxOf st x ∧ lowOf st v ≤ lowOf st x

/-- The global invariant of the Tarjan state, relative to the edge
list: bookkeeping of the maps, the stack ordered by strictly decreasing
index, the reachability chain along the stack, lowlink witnesses, and
correctness of the SCCs assigned so far. -/
structure TInv (es : List Edge) (st : TJ) : Prop where
  stack_visited : ∀ x ∈ st.stack, tjVisited st x
  visited_cases : ∀ x, tjVisited st x → x ∈ st.stack ∨ tjAssigned st x
  stack_unassigned : ∀ x ∈ st.stack, ¬tjAssigned st x
  stack_nodup : st.stack.Nodup
  onstack_iff : ∀ x, x ∈ st.onStack ↔ x ∈ st.stack
  stack_sorted : st.stack.Pairwise fun a b => idxOf st b < idxOf st a
  idx_lt_counter : ∀ x, tjVisited st x → idxOf st x < st.counter
  low_keys : ∀ x, (getK st.lowlinkM x).isSome = (getK st.indexM x).isSome
  idx_inj : ∀ x y, tjVisited st x → tjVisited st y →
    idxOf st x = idxOf st y → x = y
  chain : ∀ x ∈ st.stack, ∀ y ∈ st.stack,
    idxOf st x ≤ idxOf st y → reachesRel es x y
  low_le_idx : ∀ x ∈ st.stack, lowOf st x ≤ idxOf st x
  low_wit : ∀ x ∈ st.stack, ∃ z ∈ st.stack,
    idxOf st z = lowOf st x ∧ reachesRel es x z
  asg_visited : ∀ x, tjAssigned st x → tjVisited st x
  asg_mutual : ∀ x y, tjAssigned st x → tjAssigned st y →
    (getK st.sccIdM x = getK st.sccIdM y ↔
      (reachesRel es x y ∧ reachesRel es y x))
  asg_closed : ∀ x y, tjAssigned st x → stepRel es x y → tjAssigned st y
  asg_id_lt : ∀ x i, getK st.sccIdM x = some i → i < st.sccCount
  scc_nodes_spec : ∀ i mems, getN st.sccNodes i = some mems →
    mems.Nodup ∧ ∀ w, w ∈ mems ↔ getK st.sccIdM w = some i
  scc_nodes_keys : ∀ i, (getN st.sccNodes i).isSome = true ↔ i < st.sccCount

/-- The backtracking-state invariant of the cycle walk: `path` is a
nonempty duplicate-free walk starting at `start` whose steps follow the
restricted adjacency, and `visited` holds exactly the path members. -/
structure DfsPre (sccAdj : Str → List Str) (start : Str)
    (path visited : List Str) : Prop where
  nonempty : path ≠ []
  head : path.headD [] = start
  nodup : path.Nodup
  vis_iff : ∀ x, x ∈ visited ↔ x ∈ path
  chain : List.Chain' (fun a b => b ∈ sccAdj a) path

/-- Postcondition of the cycle walk on its `(seen, cycles)` result:
`seen` grows, stays in lockstep with `cycles` and duplicate-free, and
every new entry is a canonical simple cycle. -/
structure DfsPost (es : List Edge) (seen cycles : List (List Str))
    (r : List (List Str) × List (List Str)) : Prop where
  seen_mono : ∀ k ∈ seen, k ∈ r.1
  lock : seen = cycles → r.1 = r.2
  nodup : seen.Nodup → r.1.Nodup
  sound : ∀ c ∈ r.1, c ∈ seen ∨ (isSimpleCycle es c ∧ rotateMin c = c)

/-- Precondition of `strongconnect(v)`: the invariant, `v` unvisited,
and every stack node reaches `v`. -/
structure VisitPre (es : List Edge) (v : Str) (st : TJ) : Prop where
  inv : TInv es st
  unvisited : ¬tjVisited st v
  stack_reach : ∀ x ∈ st.stack, reachesRel es x v

/-- Postcondition of `strongconnect(v)` relating entry state `st` and
exit state `st'`. -/
structure VisitPost (es : List Edge) (v : Str) (st st' : TJ) : Prop where
  inv : TInv es st'
  frame_idx : ∀ x, tjVisited st x → getK st'.indexM x = getK st.indexM x
  frame_low : ∀ x, tjVisited st x → getK st'.lowlinkM x = getK st.lowlinkM x
  frame_asg : ∀ x, tjVisited st x → getK st'.sccIdM x = getK st.sccIdM x
  visited_mono : ∀ x, tjVisited st x → tjVisited st' x
  visited_v : tjVisited st' v
  idx_v : idxOf st' v = st.counter
  new_reach : ∀ x, ¬tjVisited st x → tjVisited st' x → reachesRel es v x
  succ_done : ∀ x, ¬tjVisited st x → tjVisited st' x →
    ∀ y, stepRel es x y → tjVisited st' y
  d2_new : ∀ x, ¬tjVisited st x → tjVisited st' x → ∀ y, stepRel es x y →
    lowOf st' x ≤ idxOf st' y ∨ tjAssigned st' y
  low_le_idx_v : lowOf st' v ≤ idxOf st' v
  pop_iff : tjAssigned st' v ↔ lowOf st' v = idxOf st' v
  stack_cases :
    (tjAssigned st' v ∧ st'.stack = st.stack) ∨
    (¬tjAssigned st' v ∧ ∃ NP, st'.stack = NP ++ st.stack ∧ v ∈ NP ∧
      ∀ x ∈ NP, ¬tjVisited st x)
  resid_strict : ∀ x, ¬tjVisited st x → x ∈ st'.stack →
    lowOf st' x < idxOf st' x ∧ lowOf st' v ≤ lowOf st' x
  counter_mono : st.counter < st'.counter
  idx_new_ge : ∀ x, ¬tjVisited st x → tjVisited st' x → st.counter ≤ idxOf st' x

/-- Precondition of the successor loop of `strongconnect(v)` with the
remaining successor list `ws`. -/
structure NbrsPre (es : List Edge) (v : Str) (ws : List Str) (st : TJ) : Prop where
  inv : TInv es st
  v_stack : v ∈ st.stack
  ws_succ : ∀ w ∈ ws, stepRel es v w
  strict : strictAbove st v

/-- Postcondition of the successor loop of `strongconnect(v)`. -/
structure NbrsPost (es : List Edge) (v : Str) (ws : List Str) (st st' : TJ) : Prop where
  inv : TInv es st'
  frame_idx : ∀ x, tjVisited st x → getK st'.indexM x = getK st.indexM x
  frame_low : ∀ x, tjVisited st x → x ≠ v →
    getK st'.lowlinkM x = getK st.lowlinkM x
  frame_asg : ∀ x, tjVisited st x → getK st'.sccIdM x = getK st.sccIdM x
  visited_mono : ∀ x, tjVisited st x → tjVisited st' x
  stack_app : ∃ NP, st'.stack = NP ++ st.stack ∧ ∀ x ∈ NP, ¬tjVisited st x
  low_v_mono : lowOf st' v ≤ lowOf st v
  new_reach : ∀ x, ¬tjVisited st x → tjVisited st' x → reachesRel es v x
  succ_done : ∀ x, ¬tjVisited st x → tjVisited st' x →
    ∀ y, stepRel es x y → tjVisited st' y
  ws_done : ∀ w ∈ ws, tjVisited st' w
  d2_new : ∀ x, ¬tjVisited st x → tjVisited st' x → ∀ y, stepRel es x y →
    lowOf st' x ≤ idxOf st' y ∨ tjAssigned st' y
  d2_v : ∀ w ∈ ws, lowOf st' v ≤ idxOf st' w ∨ tjAssigned st' w
  strict_above : strictAbove st' v
  counter_mono : st.counter ≤ st'.counter
  idx_new_ge : ∀ x, ¬tjVisited st x → tjVisited st' x → st.counter ≤ idxOf st' x

/-! # Theorems -/

theorem chainFrom_edgeLoop_aux :
    ∀ (n : Nat) (rest : Str) (src : Str) (labels : LabelMap),
      rest.length ≤ n → chainFrom src (edgeLoop rest src labels).1 := by
  intro n
  induction n with
  | zero =>
    intro rest src labels hn
    have : rest = [] := by
      cases rest with
      | nil => rfl
      | cons a as => simp at hn
    subst this
    rw [edgeLoop.eq_def]
    simp [chainFrom]
  | succ n ih =>
  intro rest src labels hn
  rw [edgeLoop.eq_def]
  by_cases hrest : rest = []
  · simp [hrest, chainFrom]
  · simp only [dif_neg hrest]
    split
    · exact trivial
    · rename_i arrow ha
      split
      · exact trivial
      · rename_i target hnode
        refine ⟨rfl, ?_⟩
        refine ih _ _ _ ?_
        have h1 : 1 ≤ arrow.consumed := parseArrow_consumed_pos ha
        have hlen : 1 ≤ rest.length := by
          cases rest with
          | nil => exact absurd rfl hrest
          | cons a as => simp
        have h2 : ((rest.drop arrow.consumed).dropWhile isSpTab).length
            ≤ rest.length - arrow.consumed := by
          calc ((rest.drop arrow.consumed).dropWhile isSpTab).length
              ≤ (rest.drop arrow.consumed).length := length_dropWhile_le' _
            _ = rest.length - arrow.consumed := by simp
        have h3 : ((((rest.drop arrow.consumed).dropWhile isSpTab)).drop
            target.consumed).length
            ≤ ((rest.drop arrow.consumed).dropWhile isSpTab).length := by
          simp only [List.length_drop]
          omega
        omega

theorem chainFrom_edgeLoop (rest : Str) (src : Str) (labels : LabelMap) :
    chainFrom src (edgeLoop rest src labels).1 :=
  chainFrom_edgeLoop_aux rest.length rest src labels le_rfl

theorem chainFrom_middle :
    ∀ (pre : List Edge) (s : Str) (l : List Edge) (e₁ e₂ : Edge)
      (post : List Edge), chainFrom s l → l = pre ++ e₁ :: e₂ :: post →
      e₂.source = e₁.target := by
  intro pre
  induction pre with
  | nil =>
    intro s l e₁ e₂ post hc hl
    subst hl
    exact hc.2.1
  | cons a as ih =>
    intro s l e₁ e₂ post hc hl
    subst hl
    exact ih a.target _ e₁ e₂ post hc.2 rfl

unseal edgeLoop

/-- **C2.** For every line parsed as an edge chain, `parseEdgeLine` pairs
each node token with the next, consuming each intermediate token once and
reusing it as the next source: any two consecutive emitted edges satisfy
`e₂.source = e₁.target`; `A --> B --> C` yields exactly `(A,B)` then
`(B,C)`; and a chain that stops where no arrow matches still returns the
edges recognized so far (`A --> B C` yields just `(A,B)`). -/
theorem parseEdgeLine_chain_and_examples :
    (∀ (line : Str) (labels : LabelMap) (pre post : List Edge) (e₁ e₂ : Edge),
        (parseEdgeLine line labels).1 = pre ++ e₁ :: e₂ :: post →
        e₂.source = e₁.target) ∧
    parseEdgeLine (ofStr "A --> B --> C") [] =
      ([⟨ofStr "A", ofStr "B", none⟩, ⟨ofStr "B", ofStr "C", none⟩], []) ∧
    parseEdgeLine (ofStr "A --> B C") [] = ([⟨ofStr "A", ofStr "B", none⟩], []) := by
  refine ⟨?_, by decide, by decide⟩
  intro line labels pre post e₁ e₂ hl
  simp only [parseEdgeLine] at hl
  revert hl
  cases hn : parseNodeToken (jsTrim line) with
  | none =>
    intro hl
    exact absurd hl (by simp)
  | some firstNode =>
    intro hl
    simp only at hl
    have hc := chainFrom_edgeLoop
      ((jsTrim line).drop firstNode.consumed) firstNode.id
      (match firstNode.label with
        | some l => setK labels firstNode.id l
        | none => labels)
    rw [hl] at hc
    exact chainFrom_middle pre _ _ e₁ e₂ post hc rfl

/-- Witness for C2 at a concrete chain. -/
theorem parseEdgeLine_chain_witness :
    (⟨ofStr "B", ofStr "C", none⟩ : Edge).source =
      (⟨ofStr "A", ofStr "B", none⟩ : Edge).target :=
  parseEdgeLine_chain_and_examples.1 (ofStr "A --> B --> C") [] []
    [] ⟨ofStr "A", ofStr "B", none⟩ ⟨ofStr "B", ofStr "C", none⟩ (by decide)

theorem addIfAbsent_nodup {ns : List Str} {x : Str} (h : ns.Nodup) :
    (addIfAbsent ns x).Nodup := by
  unfold addIfAbsent
  split
  · exact h
  · rename_i hx
    simp [List.nodup_append, h, hx]

theorem mem_addIfAbsent {ns : List Str} {x y : Str} :
    y ∈ addIfAbsent ns x ↔ y ∈ ns ∨ y = x := by
  unfold addIfAbsent
  split
  · rename_i hx
    constructor
    · exact Or.inl
    · rintro (h | rfl)
      · exact h
      · exact hx
  · simp

theorem addIfAbsent_isPrefix {ns : List Str} {x : Str} :
    ns <+: addIfAbsent ns x := by
  unfold addIfAbsent
  split
  · exact List.prefix_refl ns
  · exact List.prefix_append ns [x]

theorem addEndpoints_nodup :
    ∀ (es : List Edge) (ns : List Str), ns.Nodup → (addEndpoints ns es).Nodup := by
  intro es
  induction es with
  | nil => intro ns h; exact h
  | cons e es ih =>
    intro ns h
    exact ih _ (addIfAbsent_nodup (addIfAbsent_nodup h))

theorem addEndpoints_isPrefix :
    ∀ (es : List Edge) (ns : List Str), ns <+: addEndpoints ns es := by
  intro es
  induction es with
  | nil => intro ns; exact List.prefix_refl ns
  | cons e es ih =>
    intro ns
    exact List.IsPrefix.trans
      (List.IsPrefix.trans addIfAbsent_isPrefix addIfAbsent_isPrefix) (ih _)

theorem mem_addEndpoints :
    ∀ (es : List Edge) (ns : List Str) (x : Str), x ∈ addEndpoints ns es →
      x ∈ ns ∨ ∃ e ∈ es, x = e.source ∨ x = e.target := by
  intro es
  induction es with
  | nil =>
    intro ns x h
    exact Or.inl h
  | cons e es ih =>
    intro ns x h
    rcases ih _ _ h with h1 | ⟨e', he', hx⟩
    · rcases mem_addIfAbsent.mp h1 with h2 | rfl
      · rcases mem_addIfAbsent.mp h2 with h3 | rfl
        · exact Or.inl h3
        · exact Or.inr ⟨e, by simp, Or.inl rfl⟩
      · exact Or.inr ⟨e, by simp, Or.inr rfl⟩
    · exact Or.inr ⟨e', by simp [he'], hx⟩

/-- **C5 counterexample.** The claim fails on the code: a node declared
standalone more than once inside a subgraph is appended each time without
a duplicate check, so the member list of `g` in
`graph TD / subgraph g / a / a / end` is `[a, a]`. -/
theorem subgraph_duplicate_counterexample :
    parse (ofStr "graph TD\nsubgraph g\na\na\nend") =
      .ok ⟨ofStr "TD", [⟨ofStr "g", [ofStr "a", ofStr "a"]⟩], [], []⟩ := by
  decide

/-- **C5 amended.** Subgraph members added as endpoints of edges parsed
inside the subgraph are duplicate-free and extend the list in first-seen
order (an endpoint already present is never re-added, and every addition
is an endpoint of one of the line's edges); a standalone node
declaration, by contrast, is appended unconditionally, so it may
duplicate an existing member. -/
theorem subgraph_member_addition_amended :
    (∀ (es : List Edge) (ns : List Str), ns.Nodup →
      (addEndpoints ns es).Nodup ∧ ns <+: addEndpoints ns es ∧
      ∀ x ∈ addEndpoints ns es,
        x ∈ ns ∨ ∃ e ∈ es, x = e.source ∨ x = e.target) ∧
    (∀ (st : PState) (line : Str) (i : Nat) (id : Str),
      st.current = some i →
      subgraphStartMatch line = none →
      ¬ isCommentLine line → ¬ isDirectionLine line → ¬ isEndLine line →
      (parseEdgeLine line st.labels).1 = [] →
      (parseNodeDeclaration line (parseEdgeLine line st.labels).2).1 = some id →
      (stepLine st line).subgraphs =
        modifyNth (fun sg => ⟨sg.name, sg.nodes ++ [id]⟩) i st.subgraphs) := by
  constructor
  · intro es ns h
    exact ⟨addEndpoints_nodup es ns h, addEndpoints_isPrefix es ns,
      mem_addEndpoints es ns⟩
  · intro st line i id hcur hsg hcom hdir hend hpe hpd
    unfold stepLine
    rw [if_neg hcom, if_neg hdir, hsg, if_neg hend, hcur]
    simp only [hpe, hpd]
    simp

/-- Witness for C5's amended theorem at concrete inputs. -/
theorem subgraph_member_addition_witness :
    ((addEndpoints [] [⟨ofStr "a", ofStr "b", none⟩]).Nodup ∧
      [] <+: addEndpoints [] [⟨ofStr "a", ofStr "b", none⟩] ∧
      ∀ x ∈ addEndpoints [] [⟨ofStr "a", ofStr "b", none⟩],
        x ∈ ([] : List Str) ∨
          ∃ e ∈ [(⟨ofStr "a", ofStr "b", none⟩ : Edge)],
            x = e.source ∨ x = e.target) ∧
    (stepLine ⟨[⟨ofStr "g", []⟩], [], [], some 0⟩ (ofStr "a")).subgraphs =
      modifyNth (fun sg => ⟨sg.name, sg.nodes ++ [ofStr "a"]⟩) 0
        [⟨ofStr "g", []⟩] :=
  ⟨subgraph_member_addition_amended.1 [⟨ofStr "a", ofStr "b", none⟩] []
      (by decide),
    subgraph_member_addition_amended.2 ⟨[⟨ofStr "g", []⟩], [], [], some 0⟩
      (ofStr "a") 0 (ofStr "a") rfl (by decide) (by decide) (by decide)
      (by decide) (by decide) (by decide)⟩

theorem edgeLoop_labels_of_nil {rest src : Str} {labels : LabelMap}
    (h : (edgeLoop rest src labels).1 = []) :
    (edgeLoop rest src labels).2 = labels := by
  rw [edgeLoop.eq_def] at h ⊢
  by_cases hrest : rest = []
  · simp [hrest]
  · simp only [dif_neg hrest] at h ⊢
    split at h
    · rfl
    · split at h
      · rfl
      · simp at h

/-- When `parseEdgeLine` yields no edges, the only label-map effect is
the write for the leading node token (if it parsed with a shape label). -/
theorem parseEdgeLine_labels_of_nil {line : Str} {labels : LabelMap}
    (h : (parseEdgeLine line labels).1 = []) :
    (parseEdgeLine line labels).2 =
      (match parseNodeToken (jsTrim line) with
        | some t =>
          match t.label with
          | some l => setK labels t.id l
          | none => labels
        | none => labels) := by
  simp only [parseEdgeLine] at h ⊢
  revert h
  cases hn : parseNodeToken (jsTrim line) with
  | none => intro h; rfl
  | some t =>
    intro h
    simp only
    exact edgeLoop_labels_of_nil h

theorem parseNodeDeclaration_labels_of_none {line : Str} {labels : LabelMap}
    (h : (parseNodeDeclaration line labels).1 = none) :
    (parseNodeDeclaration line labels).2 = labels := by
  simp only [parseNodeDeclaration] at h ⊢
  split at h
  · rfl
  · split at h
    · rename_i hc
      rw [if_pos hc]
    · rename_i hc
      split at h
      · rename_i hk
        rw [if_neg hc, if_pos hk]
      · simp at h

/-- **C9 counterexample.** The claim fails on the code: the line
`A[Client]` after the header yields no edge, opens or closes no subgraph
and is outside any subgraph — an "unrecognized" line per the claim — yet
parsing records the label entry `A ↦ Client`, because `parseEdgeLine`
writes the leading token's shape label before looking for an arrow. -/
theorem unrecognized_line_label_counterexample :
    parse (ofStr "graph TD\n  A[Client]") =
      .ok ⟨ofStr "TD", [], [], [(ofStr "A", ofStr "Client")]⟩ := by
  decide

/-- **C9 amended.** A line after the header that matches none of the
recognized forms (not a comment, not a direction hint, not a subgraph
open or close, yielding no edge, and not a successful standalone node
declaration) leaves the subgraphs, the edge list and the current
subgraph unchanged; the labels map is also unchanged, except that if the
line's leading node token parses with a shape label, exactly that one
entry is written. -/
theorem unrecognized_line_frame_amended :
    ∀ (st : PState) (line : Str),
      subgraphStartMatch line = none → ¬ isEndLine line →
      (parseEdgeLine line st.labels).1 = [] →
      (∀ i, st.current = some i →
        (parseNodeDeclaration line (parseEdgeLine line st.labels).2).1 = none) →
      (stepLine st line).subgraphs = st.subgraphs ∧
      (stepLine st line).edges = st.edges ∧
      (stepLine st line).current = st.current ∧
      (stepLine st line).labels =
        (if isCommentLine line ∨ isDirectionLine line then st.labels else
          match parseNodeToken (jsTrim line) with
          | some t =>
            match t.label with
            | some l => setK st.labels t.id l
            | none => st.labels
          | none => st.labels) := by
  intro st line hsg hend hpe hpd
  unfold stepLine
  by_cases hcom : isCommentLine line
  · rw [if_pos hcom]
    refine ⟨rfl, rfl, rfl, ?_⟩
    rw [if_pos (Or.inl hcom)]
  · rw [if_neg hcom]
    by_cases hdir : isDirectionLine line
    · rw [if_pos hdir]
      refine ⟨rfl, rfl, rfl, ?_⟩
      rw [if_pos (Or.inr hdir)]
    · rw [if_neg hdir, hsg, if_neg hend]
      have hlab := parseEdgeLine_labels_of_nil hpe
      cases hcur : st.current with
      | none =>
        simp only [hpe, hcur]
        simp only [ne_eq, not_true_eq_false, if_false]
        refine ⟨by simp, by simp, by simp, ?_⟩
        rw [if_neg (by simp [hcom, hdir])]
        exact hlab
      | some i =>
        have hpdi := hpd i hcur
        have hlab2 := parseNodeDeclaration_labels_of_none hpdi
        simp only [hpe, hcur, hpdi]
        simp only [ne_eq, not_true_eq_false, if_false]
        refine ⟨by simp, by simp, by simp, ?_⟩
        rw [if_neg (by simp [hcom, hdir])]
        rw [hlab2, hlab]

/-- Witness for C9's amended theorem at a concrete unrecognized line. -/
theorem unrecognized_line_frame_witness :
    (stepLine ⟨[], [], [], none⟩ (ofStr "  A[Client]")).subgraphs = [] ∧
    (stepLine ⟨[], [], [], none⟩ (ofStr "  A[Client]")).edges = [] ∧
    (stepLine ⟨[], [], [], none⟩ (ofStr "  A[Client]")).current = none ∧
    (stepLine ⟨[], [], [], none⟩ (ofStr "  A[Client]")).labels =
      (if isCommentLine (ofStr "  A[Client]") ∨ isDirectionLine (ofStr "  A[Client]")
        then [] else
        match parseNodeToken (jsTrim (ofStr "  A[Client]")) with
        | some t =>
          match t.label with
          | some l => setK [] t.id l
          | none => []
        | none => []) :=
  unrecognized_line_frame_amended ⟨[], [], [], none⟩ (ofStr "  A[Client]")
    (by decide) (by decide) (by decide)
    (fun i h => absurd h (by simp))

theorem isWordChar_not_spaceJs {c : Char} (h : isWordChar c = true) :
    isSpaceJs c = false := by
  by_contra hs
  rw [Bool.not_eq_false] at hs
  have : c = ' ' ∨ c = '\t' ∨ c = '\n' ∨ c = '\r' ∨ c = '\x0b' ∨ c = '\x0c' := by
    simpa [isSpaceJs, or_assoc] using hs
  rcases this with rfl | rfl | rfl | rfl | rfl | rfl <;> exact absurd h (by decide)

theorem isWordChar_not_spTab {c : Char} (h : isWordChar c = true) :
    isSpTab c = false := by
  by_contra hs
  rw [Bool.not_eq_false] at hs
  have : c = ' ' ∨ c = '\t' := by simpa [isSpTab] using hs
  rcases this with rfl | rfl <;> exact absurd h (by decide)

theorem isWordChar_ne_of {c d : Char} (h : isWordChar c = true)
    (hd : isWordChar d = false) : c ≠ d := by
  intro he
  rw [he] at h
  rw [h] at hd
  exact absurd hd (by simp)

theorem takeWhile_append_all {p : Char → Bool} :
    ∀ (k t : Str), (∀ c ∈ k, p c = true) →
      (k ++ t).takeWhile p = k ++ t.takeWhile p := by
  intro k
  induction k with
  | nil => intro t _; rfl
  | cons c cs ih =>
    intro t hk
    have hc : p c = true := hk c (by simp)
    simp only [List.cons_append, List.takeWhile_cons, hc, if_true]
    rw [ih t fun c hcm => hk c (by simp [hcm])]

theorem takeWhile_all {p : Char → Bool} :
    ∀ (l : Str), (∀ c ∈ l, p c = true) → l.takeWhile p = l := by
  intro l h
  have := takeWhile_append_all l [] h
  simpa using this

theorem takeWhile_cons_false {p : Char → Bool} {c : Char} (t : Str)
    (h : p c = false) : (c :: t).takeWhile p = [] := by
  simp [List.takeWhile_cons, h]

theorem dropWhile_cons_false {p : Char → Bool} {c : Char} (t : Str)
    (h : p c = false) : (c :: t).dropWhile p = c :: t := by
  simp [List.dropWhile_cons, h]

theorem splitNl_ne_nil : ∀ (s : Str), splitNl s ≠ [] := by
  intro s
  induction s with
  | nil => simp [splitNl]
  | cons c rest ih =>
    unfold splitNl
    split
    · simp
    · split
      · simp
      · simp

theorem splitNl_no_nl : ∀ (s : Str), (∀ c ∈ s, c ≠ '\n') → splitNl s = [s] := by
  intro s
  induction s with
  | nil => intro _; rfl
  | cons c rest ih =>
    intro h
    have hc : c ≠ '\n' := h c (by simp)
    unfold splitNl
    rw [if_neg hc, ih fun d hd => h d (by simp [hd])]

theorem splitNl_append_line :
    ∀ (a rest : Str), (∀ c ∈ a, c ≠ '\n') →
      splitNl (a ++ '\n' :: rest) = a :: splitNl rest := by
  intro a
  induction a with
  | nil =>
    intro rest _
    simp [splitNl]
  | cons c cs ih =>
    intro rest h
    have hc : c ≠ '\n' := h c (by simp)
    simp only [List.cons_append]
    conv_lhs => rw [splitNl]
    rw [if_neg hc, ih rest fun d hd => h d (by simp [hd])]

theorem jsTrim_eq_self {s : Str} {c d : Char} (hh : s.head? = some c)
    (hc : isSpaceJs c = false) (hl : s.getLast? = some d)
    (hd : isSpaceJs d = false) : jsTrim s = s := by
  cases s with
  | nil => simp at hh
  | cons a t =>
    have ha : a = c := by simpa using hh
    subst ha
    unfold jsTrim jsTrimLeft
    rw [dropWhile_cons_false _ hc]
    unfold jsTrimRight
    cases hrev : (a :: t).reverse with
    | nil => simp at hrev
    | cons r rs =>
      have : (a :: t).getLast? = some r := by
        rw [← List.head?_reverse, hrev]
        rfl
      have hr : r = d := by
        rw [this] at hl
        simpa using hl
      subst hr
      rw [dropWhile_cons_false _ hd, ← hrev, List.reverse_reverse]

theorem getLast?_word_not_space {b : Str} (hb : b ≠ [])
    (hw : ∀ c ∈ b, isWordChar c = true) :
    ∃ d, b.getLast? = some d ∧ isSpaceJs d = false := by
  have : ∃ d, b.getLast? = some d := by
    cases b with
    | nil => exact absurd rfl hb
    | cons a t => exact ⟨(a :: t).getLast (by simp), List.getLast?_eq_getLast _ _⟩
  obtain ⟨d, hd⟩ := this
  obtain ⟨hne, heq⟩ := List.mem_getLast?_eq_getLast
    (show d ∈ b.getLast? from by rw [hd]; rfl)
  have hdm : d ∈ b := heq ▸ List.getLast_mem hne
  exact ⟨d, hd, isWordChar_not_spaceJs (hw d hdm)⟩

theorem ofStr_arrowMid : ofStr " --> " = [' ', '-', '-', '>', ' '] := rfl

theorem findShape_space (t : Str) :
    findShape shapePatterns (' ' :: t) = none := by
  simp +decide [shapePatterns, findShape, matchShape, isPre]

theorem findShape_nil : findShape shapePatterns [] = none := by decide

theorem parseNodeToken_word_space {k : Str} (t : Str) (hk : k ≠ [])
    (hw : ∀ c ∈ k, isWordChar c = true) :
    parseNodeToken (k ++ ' ' :: t) = some ⟨k, none, k.length⟩ := by
  simp only [parseNodeToken]
  rw [takeWhile_append_all k (' ' :: t) hw, takeWhile_cons_false _ (by decide),
    List.append_nil, if_neg hk, List.drop_left, findShape_space]

theorem parseNodeToken_word {b : Str} (hb : b ≠ [])
    (hw : ∀ c ∈ b, isWordChar c = true) :
    parseNodeToken b = some ⟨b, none, b.length⟩ := by
  simp only [parseNodeToken]
  rw [takeWhile_all b hw, if_neg hb, List.drop_length, findShape_nil]

theorem arrowLexemes_eq :
    arrowLexemes = [['-', '.', '-', '>'], ['-', '.', '.', '-', '>'],
      ['=', '=', '>'], ['-', '-', '>'], ['-', '-', '-'], ['-', '-'],
      ['-', '.', '.', '-'], ['-', '.', '-']] := rfl

theorem parseArrow_sp_arrow {b : Str} {c0 : Char} {bs : Str} (hb : b = c0 :: bs)
    (hw : ∀ c ∈ b, isWordChar c = true) :
    parseArrow (' ' :: '-' :: '-' :: '>' :: ' ' :: b) = some ⟨4, none⟩ := by
  have hc0 : isWordChar c0 = true := hw c0 (by simp [hb])
  subst hb
  have hlbl : edgeLabelMatch (' ' :: c0 :: bs) = none := by
    have h1 : List.takeWhile isSpTab (' ' :: c0 :: bs) = [' '] := by
      rw [List.takeWhile_cons_of_pos (by decide)]
      rw [takeWhile_cons_false _ (isWordChar_not_spTab hc0)]
    simp only [edgeLabelMatch, h1, List.length_cons, List.length_nil,
      Nat.zero_add, List.drop_succ_cons, List.drop_zero]
    rw [if_neg (isWordChar_ne_of hc0 (by decide))]
  simp only [parseArrow]
  rw [show List.dropWhile isSpTab (' ' :: '-' :: '-' :: '>' :: ' ' :: c0 :: bs)
      = '-' :: '-' :: '>' :: ' ' :: c0 :: bs by
    rw [List.dropWhile_cons_of_pos (by decide)]
    exact dropWhile_cons_false _ (by decide)]
  have hlead : (' ' :: '-' :: '-' :: '>' :: ' ' :: c0 :: bs).length -
      ('-' :: '-' :: '>' :: ' ' :: c0 :: bs).length = 1 := by
    simp
  rw [hlead, arrowLexemes_eq]
  simp +decide [arrowGo, isPre, hlbl]

theorem parseEdgeLine_kw {k b : Str} (labels : LabelMap) (hk : k ≠ [])
    (hkw : ∀ c ∈ k, isWordChar c = true) (hb : b ≠ [])
    (hw : ∀ c ∈ b, isWordChar c = true) :
    parseEdgeLine (k ++ (ofStr " --> " ++ b)) labels =
      ([⟨k, b, none⟩], labels) := by
  obtain ⟨c0, bs, rfl⟩ : ∃ c0 bs, b = c0 :: bs := by
    cases b with
    | nil => exact absurd rfl hb
    | cons x xs => exact ⟨x, xs, rfl⟩
  obtain ⟨k0, ks, hksplit⟩ : ∃ k0 ks, k = k0 :: ks := by
    cases k with
    | nil => exact absurd rfl hk
    | cons x xs => exact ⟨x, xs, rfl⟩
  have hk0 : isWordChar k0 = true := hkw k0 (by simp [hksplit])
  have htrim : jsTrim (k ++ (ofStr " --> " ++ (c0 :: bs)))
      = k ++ (ofStr " --> " ++ (c0 :: bs)) := by
    refine jsTrim_eq_self (c := k0) (d := ?_) ?_ ?_ ?_ ?_
    case refine_1 =>
      exact (c0 :: bs).getLast (by simp)
    · rw [hksplit]
      rfl
    · exact isWordChar_not_spaceJs hk0
    · rw [List.getLast?_append_of_ne_nil, List.getLast?_append_of_ne_nil,
        List.getLast?_eq_getLast]
      · simp
      · simp
    · apply isWordChar_not_spaceJs
      apply hw
      exact List.getLast_mem _
  simp only [parseEdgeLine]
  rw [htrim]
  rw [show k ++ (ofStr " --> " ++ (c0 :: bs))
      = k ++ (' ' :: ('-' :: '-' :: '>' :: ' ' :: (c0 :: bs))) from rfl]
  rw [parseNodeToken_word_space _ hk hkw]
  simp only
  rw [List.drop_left]
  rw [edgeLoop.eq_def]
  rw [dif_neg (by simp)]
  rw [parseArrow_sp_arrow rfl hw]
  simp only
  rw [show (' ' :: '-' :: '-' :: '>' :: ' ' :: c0 :: bs).drop
      (ArrowMatch.consumed ⟨4, none⟩) = ' ' :: c0 :: bs from rfl]
  rw [show List.dropWhile isSpTab (' ' :: c0 :: bs) = c0 :: bs by
    rw [List.dropWhile_cons_of_pos (by decide)]
    exact dropWhile_cons_false _ (isWordChar_not_spTab (hw c0 (by simp)))]
  rw [parseNodeToken_word (by simp) hw]
  simp only [List.drop_length]
  rw [edgeLoop.eq_def]
  simp

theorem isCommentLine_word_head {k t : Str} (hk : k ≠ [])
    (hw : ∀ c ∈ k, isWordChar c = true) :
    isCommentLine (k ++ t) = false := by
  obtain ⟨k0, ks, rfl⟩ : ∃ k0 ks, k = k0 :: ks := by
    cases k with
    | nil => exact absurd rfl hk
    | cons x xs => exact ⟨x, xs, rfl⟩
  have hk0 : isWordChar k0 = true := hw k0 (by simp)
  unfold isCommentLine
  rw [List.cons_append, dropWhile_cons_false _ (isWordChar_not_spaceJs hk0)]
  rw [show ofStr "%%" = ['%', '%'] from rfl]
  have hne : k0 ≠ '%' := isWordChar_ne_of (d := '%') hk0 (by decide)
  simp only [isPre, List.cons_append, Bool.and_eq_true, decide_eq_true_eq,
    Bool.and_eq_false_iff]
  exact Or.inl (decide_eq_false fun h => hne h.symm)

theorem stepLine_edge {st : PState} {line : Str} {e : Edge}
    (hcom : isCommentLine line = false) (hdir : isDirectionLine line = false)
    (hsg : subgraphStartMatch line = none) (hend : isEndLine line = false)
    (hpe : parseEdgeLine line st.labels = ([e], st.labels)) :
    stepLine st line =
      { st with
          edges := st.edges ++ [e],
          subgraphs :=
            match st.current with
            | some i =>
              modifyNth (fun sg => ⟨sg.name, addEndpoints sg.nodes [e]⟩)
                i st.subgraphs
            | none => st.subgraphs } := by
  unfold stepLine
  rw [if_neg (by simp [hcom]), if_neg (by simp [hdir]), hsg,
    if_neg (by simp [hend])]
  simp only [hpe]
  simp

theorem stepLine_end_any (st : PState) :
    stepLine st (ofStr "end") = { st with current := none } := by
  unfold stepLine
  rw [if_neg (by decide), if_neg (by decide),
    show subgraphStartMatch (ofStr "end") = none from by decide,
    if_pos (by decide)]

theorem parse_graphTD (line : Str) (hnl : ∀ c ∈ line, c ≠ '\n')
    (hlast : ∃ d, line.getLast? = some d ∧ isSpaceJs d = false) :
    parse (ofStr "graph TD\n" ++ line) =
      .ok ⟨ofStr "TD", (parseLines [line]).subgraphs,
        (parseLines [line]).edges, (parseLines [line]).labels⟩ := by
  obtain ⟨d, hdl, hds⟩ := hlast
  have hne : line ≠ [] := by
    intro h
    rw [h] at hdl
    simp at hdl
  have htext : ofStr "graph TD\n" ++ line = ofStr "graph TD" ++ '\n' :: line := rfl
  have htrim : jsTrim (ofStr "graph TD\n" ++ line) = ofStr "graph TD\n" ++ line := by
    refine jsTrim_eq_self (c := 'g') (d := d) rfl (by decide) ?_ hds
    rw [htext, List.getLast?_append_of_ne_nil _ (by simp),
      show ('\n' :: line) = ['\n'] ++ line from rfl,
      List.getLast?_append_of_ne_nil _ hne]
    exact hdl
  simp only [parse]
  rw [htrim, htext, splitNl_append_line _ _ (by decide), splitNl_no_nl _ hnl]
  rw [show headerOf [ofStr "graph TD", line] = ofStr "graph TD" by
    unfold headerOf
    rw [List.find?_cons_of_pos _ (by decide)]
    decide]
  rw [show unsupportedTypes.find?
      (fun u => isPre (lowerStr u) (lowerStr (ofStr "graph TD"))) = none from
    by decide]
  rw [show supportedMatch (ofStr "graph TD") = some (ofStr "TD") from by decide]
  rfl

theorem parse_graphTD_sub (line : Str) (hnl : ∀ c ∈ line, c ≠ '\n') :
    parse (ofStr "graph TD\nsubgraph s\n" ++ (line ++ ofStr "\nend")) =
      .ok ⟨ofStr "TD",
        (parseLines [ofStr "subgraph s", line, ofStr "end"]).subgraphs,
        (parseLines [ofStr "subgraph s", line, ofStr "end"]).edges,
        (parseLines [ofStr "subgraph s", line, ofStr "end"]).labels⟩ := by
  have htext : ofStr "graph TD\nsubgraph s\n" ++ (line ++ ofStr "\nend")
      = ofStr "graph TD" ++ '\n' ::
        (ofStr "subgraph s" ++ '\n' :: (line ++ '\n' :: ofStr "end")) := by
    simp [ofStr]
  have hBne : ofStr "\nend" ≠ [] := by decide
  have htrim : jsTrim (ofStr "graph TD\nsubgraph s\n" ++ (line ++ ofStr "\nend"))
      = ofStr "graph TD\nsubgraph s\n" ++ (line ++ ofStr "\nend") := by
    refine jsTrim_eq_self (c := 'g') (d := 'd') rfl (by decide) ?_ (by decide)
    rw [List.getLast?_append_of_ne_nil _ (by simp [hBne]),
      List.getLast?_append_of_ne_nil _ hBne]
    decide
  simp only [parse]
  rw [htrim, htext, splitNl_append_line _ _ (by decide),
    splitNl_append_line _ _ (by decide), splitNl_append_line _ _ hnl,
    splitNl_no_nl _ (by decide)]
  rw [show headerOf [ofStr "graph TD", ofStr "subgraph s", line, ofStr "end"]
      = ofStr "graph TD" by
    unfold headerOf
    rw [List.find?_cons_of_pos _ (by decide)]
    decide]
  rw [show unsupportedTypes.find?
      (fun u => isPre (lowerStr u) (lowerStr (ofStr "graph TD"))) = none from
    by decide]
  rw [show supportedMatch (ofStr "graph TD") = some (ofStr "TD") from by decide]
  rfl

theorem isPre_of_ne_head {p s : Str} {p0 s0 : Char} {ps ss : Str}
    (hp : p = p0 :: ps) (hs : s = s0 :: ss) (h : p0 ≠ s0) :
    isPre p s = false := by
  subst hp
  subst hs
  simp [isPre, h]

theorem isPre_of_ne_head2 {p s : Str} {p0 p1 s1 : Char} {ps ss : Str}
    (hp : p = p0 :: p1 :: ps) (hs : s = p0 :: s1 :: ss) (h : p1 ≠ s1) :
    isPre p s = false := by
  subst hp
  subst hs
  simp [isPre, h]

theorem isDirectionLine_word_head {k t : Str} (hk : k ≠ [])
    (hw : ∀ c ∈ k, isWordChar c = true) (hd : k.head? ≠ some 'd') :
    isDirectionLine (k ++ t) = false := by
  obtain ⟨k0, ks, rfl⟩ : ∃ k0 ks, k = k0 :: ks := by
    cases k with
    | nil => exact absurd rfl hk
    | cons x xs => exact ⟨x, xs, rfl⟩
  have hk0 : isWordChar k0 = true := hw k0 (by simp)
  have hk0d : k0 ≠ 'd' := by
    intro h
    rw [h] at hd
    exact hd rfl
  simp only [isDirectionLine, List.cons_append,
    dropWhile_cons_false _ (isWordChar_not_spaceJs hk0)]
  rw [show ofStr "direction" = ['d', 'i', 'r', 'e', 'c', 't', 'i', 'o', 'n'] from rfl]
  rw [@isPre_of_ne_head _ _ 'd' k0 _ _ rfl rfl fun h => hk0d h.symm]
  simp

theorem isEndLine_word_head {k t : Str} (hk : k ≠ [])
    (hw : ∀ c ∈ k, isWordChar c = true) (hd : k.head? ≠ some 'e') :
    isEndLine (k ++ t) = false := by
  obtain ⟨k0, ks, rfl⟩ : ∃ k0 ks, k = k0 :: ks := by
    cases k with
    | nil => exact absurd rfl hk
    | cons x xs => exact ⟨x, xs, rfl⟩
  have hk0 : isWordChar k0 = true := hw k0 (by simp)
  have hk0d : k0 ≠ 'e' := by
    intro h
    rw [h] at hd
    exact hd rfl
  simp only [isEndLine, List.cons_append,
    dropWhile_cons_false _ (isWordChar_not_spaceJs hk0)]
  rw [show ofStr "end" = ['e', 'n', 'd'] from rfl]
  rw [@isPre_of_ne_head _ _ 'e' k0 _ _ rfl rfl fun h => hk0d h.symm]
  simp

theorem subgraphStartMatch_of_not_pre {k t : Str} (hk : k ≠ [])
    (hw : ∀ c ∈ k, isWordChar c = true)
    (hpre : isPre (ofStr "subgraph") (k ++ t) = false) :
    subgraphStartMatch (k ++ t) = none := by
  obtain ⟨k0, ks, rfl⟩ : ∃ k0 ks, k = k0 :: ks := by
    cases k with
    | nil => exact absurd rfl hk
    | cons x xs => exact ⟨x, xs, rfl⟩
  have hk0 : isWordChar k0 = true := hw k0 (by simp)
  simp only [subgraphStartMatch, List.cons_append,
    dropWhile_cons_false _ (isWordChar_not_spaceJs hk0)]
  rw [← List.cons_append, hpre]
  simp

theorem line_kw_no_nl {k b : Str} (hkw : ∀ c ∈ k, isWordChar c = true)
    (hw : ∀ c ∈ b, isWordChar c = true) :
    ∀ c ∈ k ++ (ofStr " --> " ++ b), c ≠ '\n' := by
  intro c hc
  rcases List.mem_append.mp hc with h | h
  · exact isWordChar_ne_of (hkw c h) (by decide)
  · rcases List.mem_append.mp h with h2 | h2
    · fin_cases h2 <;> decide
    · exact isWordChar_ne_of (hw c h2) (by decide)

theorem line_kw_last {k b : Str} (hb : b ≠ [])
    (hw : ∀ c ∈ b, isWordChar c = true) :
    ∃ d, (k ++ (ofStr " --> " ++ b)).getLast? = some d ∧ isSpaceJs d = false := by
  obtain ⟨d, hd, hds⟩ := getLast?_word_not_space hb hw
  refine ⟨d, ?_, hds⟩
  rw [List.getLast?_append_of_ne_nil _ (by simp [hb]),
    List.getLast?_append_of_ne_nil _ hb]
  exact hd

theorem c10_case {k b : Str} (hkne : k ≠ []) (hkw : ∀ c ∈ k, isWordChar c = true)
    (hb : b ≠ []) (hw : ∀ c ∈ b, isWordChar c = true) (hbk : b ≠ k)
    (hdir : isDirectionLine (k ++ (ofStr " --> " ++ b)) = false)
    (hsg : subgraphStartMatch (k ++ (ofStr " --> " ++ b)) = none)
    (hend : isEndLine (k ++ (ofStr " --> " ++ b)) = false) :
    parse (ofStr "graph TD\n" ++ (k ++ (ofStr " --> " ++ b))) =
      .ok ⟨ofStr "TD", [], [⟨k, b, none⟩], []⟩ ∧
    parse (ofStr "graph TD\nsubgraph s\n" ++
        ((k ++ (ofStr " --> " ++ b)) ++ ofStr "\nend")) =
      .ok ⟨ofStr "TD", [⟨ofStr "s", [k, b]⟩], [⟨k, b, none⟩], []⟩ := by
  have hcom : isCommentLine (k ++ (ofStr " --> " ++ b)) = false :=
    isCommentLine_word_head hkne hkw
  have hnl := line_kw_no_nl hkw hw
  have hlast := line_kw_last (k := k) hb hw
  have hpe : ∀ L : LabelMap,
      parseEdgeLine (k ++ (ofStr " --> " ++ b)) L = ([⟨k, b, none⟩], L) :=
    fun L => parseEdgeLine_kw L hkne hkw hb hw
  constructor
  · rw [parse_graphTD _ hnl hlast]
    have h1 : parseLines [k ++ (ofStr " --> " ++ b)]
        = ⟨[], [⟨k, b, none⟩], [], none⟩ := by
      unfold parseLines
      simp only [List.foldl]
      rw [stepLine_edge hcom hdir hsg hend (hpe [])]
      rfl
    rw [h1]
  · rw [parse_graphTD_sub _ hnl]
    have hst1 : stepLine initState (ofStr "subgraph s")
        = ⟨[⟨ofStr "s", []⟩], [], [], some 0⟩ := by decide
    have hadd : addEndpoints [] [⟨k, b, none⟩] = [k, b] := by
      simp [addEndpoints, addIfAbsent, hbk]
    have h2 : parseLines [ofStr "subgraph s", k ++ (ofStr " --> " ++ b), ofStr "end"]
        = ⟨[⟨ofStr "s", [k, b]⟩], [⟨k, b, none⟩], [], none⟩ := by
      unfold parseLines
      simp only [List.foldl]
      rw [hst1, stepLine_edge hcom hdir hsg hend (hpe []), stepLine_end_any]
      simp [modifyNth, hadd]
    rw [h2]

/-- **C10 counterexample.** The claim fails on the code: the line
`direction --> b` has the reserved keyword `direction` followed by an
arrow and a node token, yet `parse` records no edge at all, because the
line matches the direction-hint pattern `/^\s*direction\s+/` and is
skipped before edge parsing. -/
theorem keyword_edge_counterexample :
    parse (ofStr "graph TD\ndirection --> b") =
      .ok ⟨ofStr "TD", [], [], []⟩ := by
  decide

/-- **C10 amended.** The reserved-keyword rejection applies only to
standalone node declarations, not to edge endpoints — except that lines
led by `direction` or `subgraph` are captured by the direction-hint and
subgraph-open patterns before edge parsing.  For every other reserved
keyword `k` (`end`, `graph`, `flowchart`, `style`, `classDef`, `class`,
`click`, `linkStyle`) and word-character node token `b`, the line
`k --> b` produces the edge `(k, b)` — in particular `end --> b` does
not match the end-alone close pattern — and inside a subgraph both `k`
and `b` are added to the subgraph's member list. -/
theorem keyword_edge_amended :
    ∀ (k b : Str), k ∈ keywordEdgeSources → b ≠ [] →
      (∀ c ∈ b, isWordChar c = true) → b ≠ k →
      parse (ofStr "graph TD\n" ++ (k ++ (ofStr " --> " ++ b))) =
        .ok ⟨ofStr "TD", [], [⟨k, b, none⟩], []⟩ ∧
      parse (ofStr "graph TD\nsubgraph s\n" ++
          ((k ++ (ofStr " --> " ++ b)) ++ ofStr "\nend")) =
        .ok ⟨ofStr "TD", [⟨ofStr "s", [k, b]⟩], [⟨k, b, none⟩], []⟩ := by
  intro k b hk hb hw hbk
  fin_cases hk <;>
  refine c10_case (by decide) (by decide) hb hw hbk
    (isDirectionLine_word_head (by decide) (by decide) (by decide))
    (subgraphStartMatch_of_not_pre (by decide) (by decide)
      (by first
        | exact @isPre_of_ne_head _ _ 's' _ _ _ rfl rfl (by decide)
        | exact @isPre_of_ne_head2 _ _ 's' _ _ _ _ rfl rfl (by decide)))
    (by first
      | exact isEndLine_word_head (by decide) (by decide) (by decide)
      | (rw [show (ofStr "end" ++ (ofStr " --> " ++ b) : Str)
            = 'e' :: 'n' :: 'd' :: ' ' :: '-' :: '-' :: '>' :: ' ' :: b from rfl]
         simp only [isEndLine]
         rw [dropWhile_cons_false _ (by decide : isSpaceJs 'e' = false)]
         have hall : (' ' :: '-' :: '-' :: '>' :: ' ' :: b).all isSpaceJs
             = false := by
           simp only [List.all_cons, show isSpaceJs '-' = false from by decide,
             Bool.false_and, Bool.and_false]
         rw [show List.drop 3 ('e' :: 'n' :: 'd' :: ' ' :: '-' :: '-' :: '>' ::
             ' ' :: b) = ' ' :: '-' :: '-' :: '>' :: ' ' :: b from rfl]
         rw [hall, Bool.and_false]))

/-- Witness for C10's amended theorem at `end --> b`. -/
theorem keyword_edge_witness :
    parse (ofStr "graph TD\n" ++ (ofStr "end" ++ (ofStr " --> " ++ ofStr "b"))) =
      .ok ⟨ofStr "TD", [], [⟨ofStr "end", ofStr "b", none⟩], []⟩ ∧
    parse (ofStr "graph TD\nsubgraph s\n" ++
        ((ofStr "end" ++ (ofStr " --> " ++ ofStr "b")) ++ ofStr "\nend")) =
      .ok ⟨ofStr "TD", [⟨ofStr "s", [ofStr "end", ofStr "b"]⟩],
        [⟨ofStr "end", ofStr "b", none⟩], []⟩ :=
  keyword_edge_amended (ofStr "end") (ofStr "b") (by decide) (by decide)
    (by decide) (by decide)

theorem strLtB_irrefl : ∀ (a : Str), strLtB a a = false := by
  intro a
  induction a with
  | nil => rfl
  | cons x xs ih => simp [strLtB, lt_irrefl, ih]

theorem strLtB_trans :
    ∀ (a b c : Str), strLtB a b = true → strLtB b c = true →
      strLtB a c = true := by
  intro a
  induction a with
  | nil =>
    intro b c hab hbc
    cases b with
    | nil => simp [strLtB] at hab
    | cons y ys =>
      cases c with
      | nil => simp [strLtB] at hbc
      | cons z zs => simp [strLtB]
  | cons x xs ih =>
    intro b c hab hbc
    cases b with
    | nil => simp [strLtB] at hab
    | cons y ys =>
      cases c with
      | nil => simp [strLtB] at hbc
      | cons z zs =>
        simp only [strLtB] at hab hbc ⊢
        rcases lt_trichotomy x y with h1 | h1 | h1
        · rcases lt_trichotomy y z with h2 | h2 | h2
          · rw [if_pos (lt_trans h1 h2)]
          · subst h2
            rw [if_pos h1]
          · rw [if_neg (lt_asymm h2), if_pos h2] at hbc
            exact absurd hbc (by simp)
        · subst h1
          rw [if_neg (lt_irrefl x), if_neg (lt_irrefl x)] at hab
          rcases lt_trichotomy x z with h2 | h2 | h2
          · rw [if_pos h2]
          · subst h2
            rw [if_neg (lt_irrefl x), if_neg (lt_irrefl x)] at hbc
            rw [if_neg (lt_irrefl x), if_neg (lt_irrefl x)]
            exact ih ys zs hab hbc
          · rw [if_neg (lt_asymm h2), if_pos h2] at hbc
            exact absurd hbc (by simp)
        · rw [if_neg (lt_asymm h1), if_pos h1] at hab
          exact absurd hab (by simp)

theorem strLtB_connex :
    ∀ (a b : Str), a ≠ b → strLtB a b = true ∨ strLtB b a = true := by
  intro a
  induction a with
  | nil =>
    intro b h
    cases b with
    | nil => exact absurd rfl h
    | cons y ys =>
      left
      simp [strLtB]
  | cons x xs ih =>
    intro b h
    cases b with
    | nil =>
      right
      simp [strLtB]
    | cons y ys =>
      rcases lt_trichotomy x y with h1 | h1 | h1
      · left
        simp only [strLtB]
        rw [if_pos h1]
      · subst h1
        have hne : xs ≠ ys := fun he => h (by rw [he])
        rcases ih ys hne with h2 | h2
        · left
          simp only [strLtB]
          rw [if_neg (lt_irrefl x), if_neg (lt_irrefl x)]
          exact h2
        · right
          simp only [strLtB]
          rw [if_neg (lt_irrefl x), if_neg (lt_irrefl x)]
          exact h2
      · right
        simp only [strLtB]
        rw [if_pos h1]

theorem strLeB_trans :
    ∀ (a b c : Str), strLeB a b = true → strLeB b c = true →
      strLeB a c = true := by
  intro a b c hab hbc
  simp only [strLeB, Bool.not_eq_true'] at hab hbc ⊢
  by_contra h
  rw [Bool.not_eq_false] at h
  by_cases hcb : c = b
  · subst hcb
    rw [h] at hab
    exact absurd hab (by simp)
  · rcases strLtB_connex c b hcb with h2 | h2
    · rw [h2] at hbc
      exact absurd hbc (by simp)
    · have h3 := strLtB_trans b c a h2 h
      rw [h3] at hab
      exact absurd hab (by simp)

theorem strLeB_total : ∀ (a b : Str), strLeB a b || strLeB b a := by
  intro a b
  simp only [strLeB, Bool.or_eq_true, Bool.not_eq_true']
  by_contra h
  push_neg at h
  obtain ⟨h1, h2⟩ := h
  simp only [ne_eq, Bool.not_eq_false] at h1 h2
  have := strLtB_trans a b a h2 h1
  rw [strLtB_irrefl] at this
  exact absurd this (by simp)

theorem foldl_addIfAbsent_nodup :
    ∀ (l acc : List Str), acc.Nodup → (l.foldl addIfAbsent acc).Nodup := by
  intro l
  induction l with
  | nil => intro acc h; exact h
  | cons a as ih =>
    intro acc h
    exact ih _ (addIfAbsent_nodup h)

theorem mem_foldl_addIfAbsent :
    ∀ (l acc : List Str) (x : Str),
      x ∈ l.foldl addIfAbsent acc ↔ x ∈ acc ∨ x ∈ l := by
  intro l
  induction l with
  | nil => intro acc x; simp
  | cons a as ih =>
    intro acc x
    rw [List.foldl_cons, ih]
    rw [mem_addIfAbsent]
    constructor
    · rintro ((h | rfl) | h)
      · exact Or.inl h
      · exact Or.inr (by simp)
      · exact Or.inr (by simp [h])
    · rintro (h | h)
      · exact Or.inl (Or.inl h)
      · rcases List.mem_cons.mp h with rfl | h2
        · exact Or.inl (Or.inr rfl)
        · exact Or.inr h2

theorem dedupFS_nodup (l : List Str) : (dedupFS l).Nodup :=
  foldl_addIfAbsent_nodup l [] (by simp)

theorem mem_dedupFS {l : List Str} {x : Str} : x ∈ dedupFS l ↔ x ∈ l := by
  unfold dedupFS
  rw [mem_foldl_addIfAbsent]
  simp

unseal List.merge List.mergeSort

/-- **C8.** `allNodeNames` returns the duplicate-free union of every
subgraph member and every edge endpoint, sorted strictly ascending in
the total, case-sensitive lexicographic character order; for a graph
with subgraph `g` containing `a` and the single edge `b -> c` it returns
exactly `["a", "b", "c"]`. -/
theorem allNodeNames_spec :
    (∀ (g : MermaidGraph),
      (allNodeNames g).Pairwise (fun a b => strLtB a b = true) ∧
      ∀ x, (x ∈ allNodeNames g ↔
        (∃ sg ∈ g.subgraphs, x ∈ sg.nodes) ∨
        ∃ e ∈ g.edges, x = e.source ∨ x = e.target)) ∧
    allNodeNames ⟨ofStr "LR", [⟨ofStr "g", [ofStr "a"]⟩],
      [⟨ofStr "b", ofStr "c", none⟩], []⟩
      = [ofStr "a", ofStr "b", ofStr "c"] := by
  constructor
  · intro g
    have hsorted := @List.sorted_mergeSort _ strLeB
      (fun a b c => strLeB_trans a b c) strLeB_total
      (dedupFS ((g.subgraphs.map SubGraph.nodes).flatten ++
        (g.edges.map fun e => [e.source, e.target]).flatten))
    have hperm := List.mergeSort_perm
      (dedupFS ((g.subgraphs.map SubGraph.nodes).flatten ++
        (g.edges.map fun e => [e.source, e.target]).flatten)) strLeB
    have hnodup : (allNodeNames g).Nodup := by
      unfold allNodeNames
      exact (hperm.nodup_iff).mpr (dedupFS_nodup _)
    constructor
    · have hand := List.Pairwise.and hsorted hnodup
      exact hand.imp fun {a b} h => by
        obtain ⟨h1, h2⟩ := h
        rcases strLtB_connex a b h2 with h3 | h3
        · exact h3
        · simp only [strLeB, h3] at h1
          exact absurd h1 (by simp)
    · intro x
      unfold allNodeNames
      rw [List.mem_mergeSort, mem_dedupFS, List.mem_append]
      simp only [List.mem_flatten, List.mem_map]
      constructor
      · rintro (⟨ns, ⟨sg, hsg, rfl⟩, hx⟩ | ⟨p, ⟨e, he, rfl⟩, hx⟩)
        · exact Or.inl ⟨sg, hsg, hx⟩
        · rcases List.mem_cons.mp hx with h | hx2
          · exact Or.inr ⟨e, he, Or.inl h⟩
          · exact Or.inr ⟨e, he, Or.inr (by simpa using hx2)⟩
      · rintro (⟨sg, hsg, hx⟩ | ⟨e, he, hx⟩)
        · exact Or.inl ⟨sg.nodes, ⟨sg, hsg, rfl⟩, hx⟩
        · rcases hx with rfl | rfl
          · exact Or.inr ⟨[e.source, e.target], ⟨e, he, rfl⟩, by simp⟩
          · exact Or.inr ⟨[e.source, e.target], ⟨e, he, rfl⟩, by simp⟩
  · decide

theorem isPre_append_self : ∀ (p t : Str), isPre p (p ++ t) = true := by
  intro p
  induction p with
  | nil => intro t; rfl
  | cons x xs ih => intro t; simp [isPre, ih]

theorem isPre_iff_append {p s : Str} :
    isPre p s = true ↔ ∃ t, s = p ++ t := by
  constructor
  · intro h
    induction p generalizing s with
    | nil => exact ⟨s, rfl⟩
    | cons x xs ih =>
      cases s with
      | nil => simp [isPre] at h
      | cons y ys =>
        simp only [isPre, Bool.and_eq_true, decide_eq_true_eq] at h
        obtain ⟨rfl, h2⟩ := h
        obtain ⟨t, rfl⟩ := ih h2
        exact ⟨t, rfl⟩
  · rintro ⟨t, rfl⟩
    exact isPre_append_self p t

theorem isAlpha_not_spaceJs {c : Char} (h : c.isAlpha = true) :
    isSpaceJs c = false := by
  by_contra hs
  rw [Bool.not_eq_false] at hs
  have : c = ' ' ∨ c = '\t' ∨ c = '\n' ∨ c = '\r' ∨ c = '\x0b' ∨ c = '\x0c' := by
    simpa [isSpaceJs, or_assoc] using hs
  rcases this with rfl | rfl | rfl | rfl | rfl | rfl <;> exact absurd h (by decide)

theorem lowerStr_append_sp (w dir : Str) :
    lowerStr (w ++ ' ' :: dir) = lowerStr w ++ ' ' :: lowerStr dir := by
  simp [lowerStr, show Char.toLower ' ' = ' ' from rfl]

theorem find_unsupported_none {s : Str}
    (h : (∃ t, lowerStr s = ofStr "graph" ++ t) ∨
      (∃ t, lowerStr s = ofStr "flowchart" ++ t)) :
    unsupportedTypes.find? (fun u => isPre (lowerStr u) (lowerStr s)) = none := by
  apply List.find?_eq_none.mpr
  intro u hu
  simp only [Bool.not_eq_true]
  rcases h with ⟨t, ht⟩ | ⟨t, ht⟩ <;> rw [ht] <;> fin_cases hu <;>
    first
      | exact isPre_of_ne_head rfl rfl (by decide)
      | exact isPre_of_ne_head2 rfl rfl (by decide)

theorem supportedMatch_wdir {w dir : Str}
    (hW : lowerStr w = ofStr "graph" ∨ lowerStr w = ofStr "flowchart")
    (hd : dir ≠ []) (ha : ∀ c ∈ dir, Char.isAlpha c = true) :
    supportedMatch (w ++ ' ' :: dir) = some dir := by
  obtain ⟨d0, ds, rfl⟩ : ∃ d0 ds, dir = d0 :: ds := by
    cases dir with
    | nil => exact absurd rfl hd
    | cons x xs => exact ⟨x, xs, rfl⟩
  have hd0 : Char.isAlpha d0 = true := ha d0 (by simp)
  have hd0s : isSpaceJs d0 = false := isAlpha_not_spaceJs hd0
  have hws : List.takeWhile isSpaceJs (' ' :: d0 :: ds) = [' '] := by
    rw [List.takeWhile_cons_of_pos (by decide), takeWhile_cons_false _ hd0s]
  have htw : List.takeWhile Char.isAlpha (d0 :: ds) = d0 :: ds :=
    takeWhile_all _ ha
  rcases hW with h | h
  · have hlen : w.length = 5 := by
      have := congrArg List.length h
      simpa [lowerStr] using this
    simp only [supportedMatch, lowerStr_append_sp, h,
      isPre_append_self, if_true]
    rw [show ((w ++ ' ' :: (d0 :: ds)).drop 5) = ' ' :: (d0 :: ds) by
      rw [← hlen, List.drop_left]]
    rw [hws]
    simp only [List.length_cons, List.length_nil, Nat.zero_add,
      List.drop_succ_cons, List.drop_zero, htw]
    simp [hd]
  · have hlen : w.length = 9 := by
      have := congrArg List.length h
      simpa [lowerStr] using this
    have hg : isPre (ofStr "graph") (ofStr "flowchart" ++ ' ' :: lowerStr (d0 :: ds))
        = false := isPre_of_ne_head rfl rfl (by decide)
    simp only [supportedMatch, lowerStr_append_sp, h, hg,
      Bool.false_eq_true, if_false, isPre_append_self, if_true]
    rw [show ((w ++ ' ' :: (d0 :: ds)).drop 9) = ' ' :: (d0 :: ds) by
      rw [← hlen, List.drop_left]]
    rw [hws]
    simp only [List.length_cons, List.length_nil, Nat.zero_add,
      List.drop_succ_cons, List.drop_zero, htw]
    simp [hd]

/-- **C6.** For every input whose header line (the first non-blank,
non-comment line, trimmed) is `graph DIR` or `flowchart DIR` in any
letter case, with `DIR` a non-empty token of letters only, `parse`
accepts the header and the resulting graph's `direction` is the
uppercase form of `DIR`. -/
theorem header_direction_uppercase :
    ∀ (text w dir : Str),
      headerOf (splitNl (jsTrim text)) = w ++ ' ' :: dir →
      (lowerStr w = ofStr "graph" ∨ lowerStr w = ofStr "flowchart") →
      dir ≠ [] → (∀ c ∈ dir, Char.isAlpha c = true) →
      ∃ g, parse text = .ok g ∧ g.direction = upperStr dir := by
  intro text w dir hh hW hd ha
  have hsup : supportedMatch (w ++ ' ' :: dir) = some dir :=
    supportedMatch_wdir hW hd ha
  have hlow : (∃ t, lowerStr (w ++ ' ' :: dir) = ofStr "graph" ++ t) ∨
      (∃ t, lowerStr (w ++ ' ' :: dir) = ofStr "flowchart" ++ t) := by
    rcases hW with h | h
    · exact Or.inl ⟨' ' :: lowerStr dir, by rw [lowerStr_append_sp, h]⟩
    · exact Or.inr ⟨' ' :: lowerStr dir, by rw [lowerStr_append_sp, h]⟩
  have hfind := find_unsupported_none hlow
  simp only [parse, hh, hfind, hsup]
  exact ⟨_, rfl, rfl⟩

/-- Witness for C6 at the lower-case header `graph lr`. -/
theorem header_direction_witness :
    ∃ g, parse (ofStr "graph lr\n  a --> b") = .ok g ∧
      g.direction = upperStr (ofStr "lr") :=
  header_direction_uppercase (ofStr "graph lr\n  a --> b") (ofStr "graph")
    (ofStr "lr") (by decide) (Or.inl (by decide)) (by decide) (by decide)

theorem supportedMatch_some_graphlike {h d : Str}
    (hs : supportedMatch h = some d) :
    (∃ t, lowerStr h = ofStr "graph" ++ t) ∨
      (∃ t, lowerStr h = ofStr "flowchart" ++ t) := by
  by_cases h1 : isPre (ofStr "graph") (lowerStr h) = true
  · exact Or.inl (isPre_iff_append.mp h1)
  · by_cases h2 : isPre (ofStr "flowchart") (lowerStr h) = true
    · exact Or.inr (isPre_iff_append.mp h2)
    · exfalso
      rw [Bool.not_eq_true] at h1 h2
      simp [supportedMatch, h1, h2] at hs

/-- **C1.** `parse` throws exactly when the header line (first non-blank,
non-`%%`-comment line) fails classification: a header that
case-insensitively starts with an unsupported-dialect keyword produces
the single error whose message contains that keyword (the first matching
keyword in the fixed order); a header matching neither an unsupported
keyword nor `graph`/`flowchart` plus a direction token produces the
error whose message contains the literal header text; and whenever the
header is accepted, `parse` returns a graph and never throws, regardless
of the remaining lines. -/
theorem parse_header_classification :
    ∀ (text : Str),
      ((∃ u ∈ unsupportedTypes,
          isPre (lowerStr u) (lowerStr (headerOf (splitNl (jsTrim text)))) = true) →
        ∃ u, u ∈ unsupportedTypes ∧
          isPre (lowerStr u) (lowerStr (headerOf (splitNl (jsTrim text)))) = true ∧
          parse text = .error (unsuppMsg u) ∧ containsSub u (unsuppMsg u)) ∧
      ((∀ u ∈ unsupportedTypes,
          isPre (lowerStr u) (lowerStr (headerOf (splitNl (jsTrim text)))) = false) →
        supportedMatch (headerOf (splitNl (jsTrim text))) = none →
        parse text =
          .error (badHeaderMsg (headerOf (splitNl (jsTrim text)))) ∧
          containsSub (headerOf (splitNl (jsTrim text)))
            (badHeaderMsg (headerOf (splitNl (jsTrim text))))) ∧
      (∀ d, supportedMatch (headerOf (splitNl (jsTrim text))) = some d →
        ∃ g, parse text = .ok g) := by
  intro text
  refine ⟨?_, ?_, ?_⟩
  · intro hex
    have hsome : (unsupportedTypes.find?
        (fun u => isPre (lowerStr u)
          (lowerStr (headerOf (splitNl (jsTrim text)))))).isSome := by
      rw [List.find?_isSome]
      obtain ⟨u, hu, hp⟩ := hex
      exact ⟨u, hu, hp⟩
    obtain ⟨u0, hfind⟩ := Option.isSome_iff_exists.mp hsome
    refine ⟨u0, List.mem_of_find?_eq_some hfind,
      by simpa using List.find?_some hfind, ?_, ?_⟩
    · simp only [parse, hfind]
    · exact ⟨ofStr "Diagram type '",
        ofStr "' is not supported yet. Only graph/flowchart diagrams are supported.",
        by simp [unsuppMsg]⟩
  · intro hall hsup
    have hfind : unsupportedTypes.find?
        (fun u => isPre (lowerStr u)
          (lowerStr (headerOf (splitNl (jsTrim text))))) = none := by
      apply List.find?_eq_none.mpr
      intro u hu
      simp [hall u hu]
    refine ⟨?_, ?_⟩
    · simp only [parse, hfind, hsup]
    · exact ⟨ofStr "Unsupported diagram type. Only graph/flowchart diagrams are supported. Got: '",
        ofStr "'", by simp [badHeaderMsg]⟩
  · intro d hsd
    have hfind := find_unsupported_none (supportedMatch_some_graphlike hsd)
    simp only [parse, hfind, hsd]
    exact ⟨_, rfl⟩

/-- Witness for C1 at three concrete inputs, one per classification
outcome. -/
theorem parse_header_classification_witness :
    (∃ u, u ∈ unsupportedTypes ∧
      isPre (lowerStr u)
        (lowerStr (headerOf (splitNl (jsTrim (ofStr "gantt\n  x"))))) = true ∧
      parse (ofStr "gantt\n  x") = .error (unsuppMsg u) ∧
      containsSub u (unsuppMsg u)) ∧
    (parse (ofStr "weirdType\n  a --> b") =
        .error (badHeaderMsg
          (headerOf (splitNl (jsTrim (ofStr "weirdType\n  a --> b"))))) ∧
      containsSub (headerOf (splitNl (jsTrim (ofStr "weirdType\n  a --> b"))))
        (badHeaderMsg
          (headerOf (splitNl (jsTrim (ofStr "weirdType\n  a --> b")))))) ∧
    (∃ g, parse (ofStr "graph TD\n  a --> b") = .ok g) :=
  ⟨(parse_header_classification (ofStr "gantt\n  x")).1
      ⟨ofStr "gantt", by decide, by decide⟩,
    (parse_header_classification (ofStr "weirdType\n  a --> b")).2.1
      (by decide) (by decide),
    (parse_header_classification (ofStr "graph TD\n  a --> b")).2.2
      (ofStr "TD") (by decide)⟩

theorem mem_adjStep {adj : Str → List Str} {acc : List Str} {x : Str} :
    x ∈ adjStep adj acc ↔ x ∈ acc ∨ ∃ v ∈ acc, x ∈ adj v := by
  unfold adjStep
  rw [mem_foldl_addIfAbsent]
  constructor
  · rintro (h | h)
    · exact Or.inl h
    · simp only [List.mem_flatten, List.mem_map] at h
      obtain ⟨l, ⟨v, hv, rfl⟩, hx⟩ := h
      exact Or.inr ⟨v, hv, hx⟩
  · rintro (h | ⟨v, hv, hx⟩)
    · exact Or.inl h
    · refine Or.inr ?_
      simp only [List.mem_flatten, List.mem_map]
      exact ⟨adj v, ⟨v, hv, rfl⟩, hx⟩

theorem subset_adjStep {adj : Str → List Str} {acc : List Str} :
    ∀ x ∈ acc, x ∈ adjStep adj acc := fun x hx => mem_adjStep.mpr (Or.inl hx)

theorem subset_saturate {adj : Str → List Str} :
    ∀ (n : Nat) (acc : List Str) (x : Str), x ∈ acc →
      x ∈ saturate adj n acc := by
  intro n
  induction n with
  | zero => intro acc x hx; exact hx
  | succ n ih =>
    intro acc x hx
    exact ih _ x (subset_adjStep x hx)

theorem saturate_sound {adj : Str → List Str} :
    ∀ (n : Nat) (acc : List Str) (x : Str), x ∈ saturate adj n acc →
      ∃ v ∈ acc, Relation.ReflTransGen (fun a b => b ∈ adj a) v x := by
  intro n
  induction n with
  | zero => intro acc x hx; exact ⟨x, hx, .refl⟩
  | succ n ih =>
    intro acc x hx
    obtain ⟨v, hv, hr⟩ := ih _ x hx
    rcases mem_adjStep.mp hv with h | ⟨u, hu, hadj⟩
    · exact ⟨v, h, hr⟩
    · exact ⟨u, hu, Relation.ReflTransGen.head hadj hr⟩

theorem adjStep_isPrefix {adj : Str → List Str} {acc : List Str} :
    acc <+: adjStep adj acc := by
  unfold adjStep
  generalize (acc.map adj).flatten = l
  induction l generalizing acc with
  | nil => exact List.prefix_refl acc
  | cons x xs ih =>
    rw [List.foldl_cons]
    exact List.IsPrefix.trans addIfAbsent_isPrefix (ih)

theorem saturate_fix {adj : Str → List Str} :
    ∀ (n : Nat) (acc : List Str), adjStep adj acc = acc →
      saturate adj n acc = acc := by
  intro n
  induction n with
  | zero => intro acc _; rfl
  | succ n ih =>
    intro acc h
    show saturate adj n (adjStep adj acc) = acc
    rw [h]
    exact ih _ h

theorem adjStep_nodup {adj : Str → List Str} {acc : List Str}
    (h : acc.Nodup) : (adjStep adj acc).Nodup :=
  foldl_addIfAbsent_nodup _ _ h

theorem length_le_of_nodup_subset {l u : List Str} (hn : l.Nodup)
    (hs : ∀ x ∈ l, x ∈ u) : l.length ≤ u.length := by
  classical
  calc l.length = l.toFinset.card := (List.toFinset_card_of_nodup hn).symm
    _ ≤ u.toFinset.card := Finset.card_le_card fun x hx => by
        rw [List.mem_toFinset] at hx ⊢
        exact hs x hx
    _ ≤ u.length := List.toFinset_card_le u

theorem saturate_closed {adj : Str → List Str} {u : List Str}
    (hadj : ∀ v, ∀ w ∈ adj v, w ∈ u) :
    ∀ (n : Nat) (acc : List Str), acc.Nodup → (∀ x ∈ acc, x ∈ u) →
      u.length + 1 ≤ n + acc.length →
      adjStep adj (saturate adj n acc) = saturate adj n acc := by
  intro n
  induction n with
  | zero =>
    intro acc hn hs hlen
    have := length_le_of_nodup_subset hn hs
    omega
  | succ n ih =>
    intro acc hn hs hlen
    by_cases hfix : adjStep adj acc = acc
    · have h1 : saturate adj (n + 1) acc = acc := saturate_fix _ _ hfix
      rw [h1, hfix]
    · have hpre : acc <+: adjStep adj acc := adjStep_isPrefix
      have hlt : acc.length < (adjStep adj acc).length := by
        rcases Nat.lt_or_ge acc.length (adjStep adj acc).length with h | h
        · exact h
        · exact absurd (List.IsPrefix.eq_of_length hpre
            (le_antisymm (List.IsPrefix.length_le hpre) h)).symm hfix
      have hsub : ∀ x ∈ adjStep adj acc, x ∈ u := by
        intro x hx
        rcases mem_adjStep.mp hx with h | ⟨v, _, hv⟩
        · exact hs x h
        · exact hadj v x hv
      show adjStep adj (saturate adj n (adjStep adj acc))
          = saturate adj n (adjStep adj acc)
      exact ih _ (adjStep_nodup hn) hsub (by omega)

theorem saturate_complete {adj : Str → List Str} {u : List Str}
    (hadj : ∀ v, ∀ w ∈ adj v, w ∈ u)
    {n : Nat} {acc : List Str} (hn : acc.Nodup) (hs : ∀ x ∈ acc, x ∈ u)
    (hlen : u.length + 1 ≤ n + acc.length) {v x : Str} (hv : v ∈ acc)
    (hr : Relation.ReflTransGen (fun a b => b ∈ adj a) v x) :
    x ∈ saturate adj n acc := by
  have hclosed := saturate_closed hadj n acc hn hs hlen
  induction hr with
  | refl => exact subset_saturate n acc v hv
  | tail h1 h2 ih =>
    rename_i b c
    have hb := ih
    rw [← hclosed]
    exact mem_adjStep.mpr (Or.inr ⟨b, hb, h2⟩)

theorem mem_succsOf {es : List Edge} {a b : Str} :
    b ∈ succsOf es a ↔ stepRel es a b := by
  unfold succsOf stepRel
  rw [List.mem_filterMap]
  constructor
  · rintro ⟨e, he, hb⟩
    by_cases h : e.source = a
    · rw [if_pos h] at hb
      exact ⟨e, he, h, by simpa using hb⟩
    · rw [if_neg h] at hb
      exact absurd hb (by simp)
  · rintro ⟨e, he, h1, h2⟩
    exact ⟨e, he, by rw [if_pos h1, h2]⟩

theorem mem_predsOf {es : List Edge} {a b : Str} :
    b ∈ predsOf es a ↔ stepRel es b a := by
  unfold predsOf stepRel
  rw [List.mem_filterMap]
  constructor
  · rintro ⟨e, he, hb⟩
    by_cases h : e.target = a
    · rw [if_pos h] at hb
      exact ⟨e, he, by simpa using hb, h⟩
    · rw [if_neg h] at hb
      exact absurd hb (by simp)
  · rintro ⟨e, he, h1, h2⟩
    exact ⟨e, he, by rw [if_pos h2, h1]⟩

theorem mem_descendantsOf {es : List Edge} {v x : Str} :
    x ∈ descendantsOf es v ↔ reachesRel es v x := by
  unfold descendantsOf reachesRel
  constructor
  · intro h
    obtain ⟨w, hw, hr⟩ := saturate_sound _ _ _ h
    have hwv : w = v := by simpa using hw
    rw [hwv] at hr
    exact hr.mono fun a b h => mem_succsOf.mp h
  · intro h
    refine saturate_complete (u := v :: es.map Edge.target) ?_ (by simp)
      ?_ (by simp) (by simp) (h.mono fun a b hab => mem_succsOf.mpr hab)
    · intro a w hw
      rcases mem_succsOf.mp hw with ⟨e, he, _, ht⟩
      simp only [List.mem_cons, List.mem_map]
      exact Or.inr ⟨e, he, ht⟩
    · intro y hy
      simp at hy
      simp [hy]

theorem mem_ancestorsOf {es : List Edge} {v x : Str} :
    x ∈ ancestorsOf es v ↔ reachesRel es x v := by
  unfold ancestorsOf reachesRel
  constructor
  · intro h
    obtain ⟨w, hw, hr⟩ := saturate_sound _ _ _ h
    have hwv : w = v := by simpa using hw
    rw [hwv] at hr
    have h2 : Relation.ReflTransGen (fun a b => stepRel es b a) v x :=
      hr.mono fun a b h => mem_predsOf.mp h
    simpa [Function.swap] using Relation.ReflTransGen.swap h2
  · intro h
    have h2 : Relation.ReflTransGen (fun a b => stepRel es b a) v x := by
      simpa using Relation.ReflTransGen.swap h
    refine saturate_complete (u := v :: es.map Edge.source) ?_ (by simp)
      ?_ (by simp) (by simp) (h2.mono fun a b hab => mem_predsOf.mpr hab)
    · intro a w hw
      rcases mem_predsOf.mp hw with ⟨e, he, hs, _⟩
      simp only [List.mem_cons, List.mem_map]
      exact Or.inr ⟨e, he, hs⟩
    · intro y hy
      simp at hy
      simp [hy]

/-- **C7.** `reachable(node)` equals the node itself, plus every node
reachable from it along outgoing edges (descendants), plus every node
reaching it along incoming edges (ancestors), plus every edge whose two
endpoints both lie in that combined node set.  For the chain
`api -> service -> log -> db` with isolated node `utils`, selecting
`service` yields exactly the node set `{api, service, log, db}` and
selecting `utils` yields exactly `{utils}`. -/
theorem reachable_spec :
    (∀ (g : MermaidGraph) (v x : Str),
      x ∈ reachableNodes g v ↔
        x = v ∨ reachesRel g.edges v x ∨ reachesRel g.edges x v) ∧
    (∀ (g : MermaidGraph) (v : Str) (e : Edge),
      e ∈ reachableEdges g v ↔
        e ∈ g.edges ∧ e.source ∈ reachableNodes g v ∧
          e.target ∈ reachableNodes g v) ∧
    (reachableNodes
        ⟨ofStr "LR", [],
          [⟨ofStr "api", ofStr "service", none⟩,
           ⟨ofStr "service", ofStr "log", none⟩,
           ⟨ofStr "log", ofStr "db", none⟩], []⟩ (ofStr "service")).Perm
      [ofStr "api", ofStr "service", ofStr "log", ofStr "db"] ∧
    reachableNodes
        ⟨ofStr "LR", [],
          [⟨ofStr "api", ofStr "service", none⟩,
           ⟨ofStr "service", ofStr "log", none⟩,
           ⟨ofStr "log", ofStr "db", none⟩], []⟩ (ofStr "utils")
      = [ofStr "utils"] := by
  refine ⟨?_, ?_, by decide, by decide⟩
  · intro g v x
    unfold reachableNodes
    rw [mem_dedupFS]
    simp only [List.mem_cons, List.mem_append]
    rw [mem_descendantsOf, mem_ancestorsOf]
  · intro g v e
    unfold reachableEdges
    rw [List.mem_filter]
    simp

/-! ## Tarjan verification: unfolding lemmas -/

theorem tjNbrs_nil (es : List Edge) (allNs : List Str)
    (hall : ∀ u w, w ∈ succsOf es u → w ∈ allNs) (v : Str) (st : TJ)
    (hws : ∀ w ∈ ([] : List Str), w ∈ allNs) :
    (tjNbrs es allNs hall v [] st hws).1 = st := by
  rw [tjNbrs]

theorem tjNbrs_cons_unvisited (es : List Edge) (allNs : List Str)
    (hall : ∀ u w, w ∈ succsOf es u → w ∈ allNs) (v w : Str)
    (rest : List Str) (st : TJ) (hws : ∀ x ∈ w :: rest, x ∈ allNs)
    (hw : getK st.indexM w = none) (h1 : w ∈ allNs)
    (hrest : ∀ x ∈ rest, x ∈ allNs) :
    (tjNbrs es allNs hall v (w :: rest) st hws).1 =
      (tjNbrs es allNs hall v rest
        (tjLowMinLow v w (tjVisit es allNs hall w st h1 hw).1) hrest).1 := by
  simp only [tjNbrs]
  rw [dif_pos hw]

theorem tjNbrs_cons_onstack (es : List Edge) (allNs : List Str)
    (hall : ∀ u w, w ∈ succsOf es u → w ∈ allNs) (v w : Str)
    (rest : List Str) (st : TJ) (hws : ∀ x ∈ w :: rest, x ∈ allNs)
    (hw : ¬getK st.indexM w = none) (hon : w ∈ st.onStack)
    (hrest : ∀ x ∈ rest, x ∈ allNs) :
    (tjNbrs es allNs hall v (w :: rest) st hws).1 =
      (tjNbrs es allNs hall v rest (tjLowMinIdx v w st) hrest).1 := by
  simp only [tjNbrs]
  rw [dif_neg hw, if_pos hon]

theorem tjNbrs_cons_skip (es : List Edge) (allNs : List Str)
    (hall : ∀ u w, w ∈ succsOf es u → w ∈ allNs) (v w : Str)
    (rest : List Str) (st : TJ) (hws : ∀ x ∈ w :: rest, x ∈ allNs)
    (hw : ¬getK st.indexM w = none) (hon : w ∉ st.onStack)
    (hrest : ∀ x ∈ rest, x ∈ allNs) :
    (tjNbrs es allNs hall v (w :: rest) st hws).1 =
      (tjNbrs es allNs hall v rest st hrest).1 := by
  simp only [tjNbrs]
  rw [dif_neg hw, if_neg hon]

theorem tjVisit_eq_pop (es : List Edge) (allNs : List Str)
    (hall : ∀ u w, w ∈ succsOf es u → w ∈ allNs) (v : Str) (st : TJ)
    (hv : v ∈ allNs) (hunv : getK st.indexM v = none)
    (hs : ∀ w ∈ succsOf es v, w ∈ allNs)
    (hc : getK ((tjNbrs es allNs hall v (succsOf es v) (tjMark v st) hs).1).lowlinkM v
        = getK ((tjNbrs es allNs hall v (succsOf es v) (tjMark v st) hs).1).indexM v) :
    (tjVisit es allNs hall v st hv hunv).1 =
      popRoot v (tjNbrs es allNs hall v (succsOf es v) (tjMark v st) hs).1 := by
  simp only [tjVisit]
  rw [if_pos hc]

theorem tjVisit_eq_nopop (es : List Edge) (allNs : List Str)
    (hall : ∀ u w, w ∈ succsOf es u → w ∈ allNs) (v : Str) (st : TJ)
    (hv : v ∈ allNs) (hunv : getK st.indexM v = none)
    (hs : ∀ w ∈ succsOf es v, w ∈ allNs)
    (hc : ¬(getK ((tjNbrs es allNs hall v (succsOf es v) (tjMark v st) hs).1).lowlinkM v
        = getK ((tjNbrs es allNs hall v (succsOf es v) (tjMark v st) hs).1).indexM v)) :
    (tjVisit es allNs hall v st hv hunv).1 =
      (tjNbrs es allNs hall v (succsOf es v) (tjMark v st) hs).1 := by
  simp only [tjVisit]
  rw [if_neg hc]

/-! ## Tarjan verification: basic lemmas -/

theorem not_tjVisited_iff {st : TJ} {x : Str} :
    ¬tjVisited st x ↔ getK st.indexM x = none := by
  cases h : getK st.indexM x <;> simp [tjVisited, h]

theorem optEq_iff_getD {a b : Option Nat} (ha : a.isSome = true)
    (hb : b.isSome = true) : a = b ↔ a.getD 0 = b.getD 0 := by
  cases a <;> cases b <;> simp_all

theorem getN_setN {α : Type} (m : List (Nat × α)) (k q : Nat) (v : α) :
    getN (setN m k v) q = if k = q then some v else getN m q := by
  induction m with
  | nil =>
    by_cases hq : k = q <;> simp [setN, getN, hq]
  | cons hd tl ih =>
    obtain ⟨k0, v0⟩ := hd
    by_cases h0 : k0 = k
    · subst h0
      by_cases hq : k0 = q <;> simp [setN, getN, hq]
    · by_cases hq : k0 = q
      · have hkq : ¬k = q := by
          rw [← hq]; exact fun h => h0 h.symm
        have hqk : ¬q = k := fun h => hkq h.symm
        simp [setN, getN, h0, hq, hkq, hqk]
      · simp [setN, getN, h0, hq, ih]

theorem getK_foldl_setK {α : Type} (P : List Str) (m : List (Str × α))
    (c : α) (x : Str) :
    getK (P.foldl (fun m w => setK m w c) m) x =
      if x ∈ P then some c else getK m x := by
  induction P generalizing m with
  | nil => simp
  | cons w P ih =>
    rw [List.foldl_cons, ih]
    by_cases hx : x ∈ P
    · simp [hx]
    · by_cases hwx : w = x
      · simp [hx, hwx, getK_setK]
      · have hxw : ¬x = w := fun h => hwx h.symm
        simp [hx, hwx, hxw, getK_setK]

theorem popUntil_eq {v : Str} : ∀ (A B : List Str), v ∉ A →
    popUntil v (A ++ v :: B) = (A ++ [v], B) := by
  intro A
  induction A with
  | nil => intro B _; simp [popUntil]
  | cons a A ih =>
    intro B hv
    have hav : ¬a = v := fun h => hv (by simp [h])
    have hvA : v ∉ A := fun h => hv (by simp [h])
    simp [popUntil, hav, ih B hvA]

theorem reach_assigned {es : List Edge} {st : TJ} (inv : TInv es st) :
    ∀ {x y : Str}, tjAssigned st x → reachesRel es x y → tjAssigned st y := by
  intro x y hx hr
  induction hr with
  | refl => exact hx
  | tail _ hbc ih => exact inv.asg_closed _ _ ih hbc

theorem tj_climb {es : List Edge} {st : TJ} {v : Str} (inv : TInv es st)
    (hv : v ∈ st.stack)
    (hstrict : ∀ x ∈ st.stack, idxOf st v < idxOf st x →
      lowOf st x < idxOf st x) :
    ∀ x ∈ st.stack, reachesRel es x v := by
  have main : ∀ n, ∀ x ∈ st.stack, idxOf st x < n → reachesRel es x v := by
    intro n
    induction n with
    | zero => intro x _ h; exact absurd h (Nat.not_lt_zero _)
    | succ n ih =>
      intro x hx hlt
      by_cases hle : idxOf st x ≤ idxOf st v
      · exact inv.chain x hx v hv hle
      · push_neg at hle
        have hs := hstrict x hx hle
        obtain ⟨z, hz, hzidx, hreach⟩ := inv.low_wit x hx
        have hzlt : idxOf st z < idxOf st x := by rw [hzidx]; exact hs
        exact hreach.trans (ih z hz (by omega))
  intro x hx
  exact main (idxOf st x + 1) x hx (Nat.lt_succ_self _)

theorem unvisitedCount_pos {allNs : List Str} {st : TJ} {v : Str}
    (hv : v ∈ allNs) (hunv : getK st.indexM v = none) :
    0 < unvisitedCount allNs st := by
  unfold unvisitedCount
  rw [List.countP_pos_iff]
  exact ⟨v, hv, by simp [hunv]⟩

/-- Marking establishes the loop precondition of `strongconnect(v)`. -/
theorem tjMark_pre {es : List Edge} {v : Str} {st : TJ}
    (pre : VisitPre es v st) :
    NbrsPre es v (succsOf es v) (tjMark v st) := by
  obtain ⟨inv, hunv, hreach⟩ := pre
  have hvnone : getK st.indexM v = none := not_tjVisited_iff.mp hunv
  have hidx : ∀ x, getK (tjMark v st).indexM x
      = if v = x then some st.counter else getK st.indexM x := by
    intro x
    show getK (setK st.indexM v st.counter) x = _
    exact getK_setK st.indexM v x st.counter
  have hlow : ∀ x, getK (tjMark v st).lowlinkM x
      = if v = x then some st.counter else getK st.lowlinkM x := by
    intro x
    show getK (setK st.lowlinkM v st.counter) x = _
    exact getK_setK st.lowlinkM v x st.counter
  have hstack : (tjMark v st).stack = v :: st.stack := rfl
  have hvis : ∀ x, tjVisited (tjMark v st) x ↔ x = v ∨ tjVisited st x := by
    intro x
    unfold tjVisited
    rw [hidx x]
    by_cases hx : v = x
    · simp [hx]
    · have hx' : ¬x = v := fun h => hx h.symm
      simp [hx, hx']
  have hidxv : idxOf (tjMark v st) v = st.counter := by
    unfold idxOf; rw [hidx v]; simp
  have hidxold : ∀ x, x ≠ v → idxOf (tjMark v st) x = idxOf st x := by
    intro x hx
    unfold idxOf; rw [hidx x, if_neg (fun h : v = x => hx h.symm)]
  have hlowv : lowOf (tjMark v st) v = st.counter := by
    unfold lowOf; rw [hlow v]; simp
  have hlowold : ∀ x, x ≠ v → lowOf (tjMark v st) x = lowOf st x := by
    intro x hx
    unfold lowOf; rw [hlow x, if_neg (fun h : v = x => hx h.symm)]
  have hvstack : v ∉ st.stack := fun h => hunv (inv.stack_visited v h)
  have hne : ∀ x ∈ st.stack, x ≠ v := fun x hx h => hvstack (h ▸ hx)
  refine ⟨{ stack_visited := ?_, visited_cases := ?_, stack_unassigned := ?_,
            stack_nodup := ?_, onstack_iff := ?_, stack_sorted := ?_,
            idx_lt_counter := ?_, low_keys := ?_, idx_inj := ?_, chain := ?_,
            low_le_idx := ?_, low_wit := ?_, asg_visited := ?_,
            asg_mutual := ?_, asg_closed := ?_, asg_id_lt := ?_,
            scc_nodes_spec := ?_, scc_nodes_keys := ?_ }, ?_, ?_, ?_⟩
  · intro x hx
    rw [hstack] at hx
    rcases List.mem_cons.mp hx with h | h
    · exact (hvis x).mpr (Or.inl h)
    · exact (hvis x).mpr (Or.inr (inv.stack_visited x h))
  · intro x hx
    rcases (hvis x).mp hx with h | h
    · subst h; left; rw [hstack]; exact List.mem_cons_self _ _
    · rcases inv.visited_cases x h with h' | h'
      · left; rw [hstack]; exact List.mem_cons_of_mem _ h'
      · exact Or.inr h'
  · intro x hx hasg
    rw [hstack] at hx
    rcases List.mem_cons.mp hx with h | h
    · subst h; exact hunv (inv.asg_visited x hasg)
    · exact inv.stack_unassigned x h hasg
  · rw [hstack]
    exact List.nodup_cons.mpr ⟨hvstack, inv.stack_nodup⟩
  · intro x
    show x ∈ v :: st.onStack ↔ x ∈ v :: st.stack
    simp [inv.onstack_iff x]
  · rw [hstack]
    refine List.pairwise_cons.mpr ⟨?_, ?_⟩
    · intro y hy
      rw [hidxv, hidxold y (hne y hy)]
      exact inv.idx_lt_counter y (inv.stack_visited y hy)
    · refine List.Pairwise.imp_of_mem ?_ inv.stack_sorted
      intro a b ha hb hab
      rw [hidxold a (hne a ha), hidxold b (hne b hb)]
      exact hab
  · intro x hx
    show idxOf (tjMark v st) x < st.counter + 1
    rcases (hvis x).mp hx with h | h
    · subst h; rw [hidxv]; omega
    · have hxv : x ≠ v := fun hh => hunv (hh ▸ h)
      rw [hidxold x hxv]
      have := inv.idx_lt_counter x h
      omega
  · intro x
    rw [hlow x, hidx x]
    by_cases h : v = x
    · simp [h]
    · simp [h, inv.low_keys x]
  · intro x y hx hy heq
    rcases (hvis x).mp hx with hxv | hxo <;> rcases (hvis y).mp hy with hyv | hyo
    · rw [hxv, hyv]
    · exfalso
      have hyv' : y ≠ v := fun hh => hunv (hh ▸ hyo)
      rw [hxv, hidxv, hidxold y hyv'] at heq
      have := inv.idx_lt_counter y hyo
      omega
    · exfalso
      have hxv' : x ≠ v := fun hh => hunv (hh ▸ hxo)
      rw [hyv, hidxv, hidxold x hxv'] at heq
      have := inv.idx_lt_counter x hxo
      omega
    · have hxv' : x ≠ v := fun hh => hunv (hh ▸ hxo)
      have hyv' : y ≠ v := fun hh => hunv (hh ▸ hyo)
      rw [hidxold x hxv', hidxold y hyv'] at heq
      exact inv.idx_inj x y hxo hyo heq
  · intro x hx y hy hle
    rw [hstack] at hx hy
    rcases List.mem_cons.mp hx with hxv | hxo <;>
      rcases List.mem_cons.mp hy with hyv | hyo
    · rw [hxv, hyv]
      exact Relation.ReflTransGen.refl
    · exfalso
      rw [hxv, hidxv, hidxold y (hne y hyo)] at hle
      have := inv.idx_lt_counter y (inv.stack_visited y hyo)
      omega
    · rw [hyv]; exact hreach x hxo
    · rw [hidxold x (hne x hxo), hidxold y (hne y hyo)] at hle
      exact inv.chain x hxo y hyo hle
  · intro x hx
    rw [hstack] at hx
    rcases List.mem_cons.mp hx with h | h
    · rw [h, hlowv, hidxv]
    · rw [hlowold x (hne x h), hidxold x (hne x h)]
      exact inv.low_le_idx x h
  · intro x hx
    rw [hstack] at hx
    rcases List.mem_cons.mp hx with h | h
    · refine ⟨v, by rw [hstack]; exact List.mem_cons_self _ _, ?_, ?_⟩
      · rw [h, hidxv, hlowv]
      · rw [h]
        exact Relation.ReflTransGen.refl
    · obtain ⟨z, hz, hzidx, hr⟩ := inv.low_wit x h
      refine ⟨z, by rw [hstack]; exact List.mem_cons_of_mem _ hz, ?_, hr⟩
      rw [hidxold z (hne z hz), hlowold x (hne x h)]
      exact hzidx
  · intro x h
    exact (hvis x).mpr (Or.inr (inv.asg_visited x h))
  · exact inv.asg_mutual
  · exact inv.asg_closed
  · exact inv.asg_id_lt
  · exact inv.scc_nodes_spec
  · exact inv.scc_nodes_keys
  · rw [hstack]; exact List.mem_cons_self _ _
  · exact fun w hw => mem_succsOf.mp hw
  · intro x hx hlt
    exfalso
    rw [hstack] at hx
    rcases List.mem_cons.mp hx with h | h
    · rw [h] at hlt; omega
    · rw [hidxv, hidxold x (hne x h)] at hlt
      have := inv.idx_lt_counter x (inv.stack_visited x h)
      omega

/-- Dropping the first successor preserves the loop precondition. -/
theorem nbrsPre_tail {es : List Edge} {v w : Str} {rest : List Str} {st : TJ}
    (pre : NbrsPre es v (w :: rest) st) : NbrsPre es v rest st :=
  ⟨pre.inv, pre.v_stack,
   fun x hx => pre.ws_succ x (List.mem_cons_of_mem _ hx), pre.strict⟩

/-- The empty successor loop leaves the state unchanged and satisfies
its postcondition. -/
theorem nbrsPost_refl {es : List Edge} {v : Str} {st : TJ}
    (pre : NbrsPre es v [] st) : NbrsPost es v [] st st where
  inv := pre.inv
  frame_idx := fun _ _ => rfl
  frame_low := fun _ _ _ => rfl
  frame_asg := fun _ _ => rfl
  visited_mono := fun _ h => h
  stack_app := ⟨[], by simp, by simp⟩
  low_v_mono := Nat.le_refl _
  new_reach := fun x hnv hv => absurd hv hnv
  succ_done := fun x hnv hv => absurd hv hnv
  ws_done := by simp
  d2_new := fun x hnv hv => absurd hv hnv
  d2_v := by simp
  strict_above := pre.strict
  counter_mono := Nat.le_refl _
  idx_new_ge := fun x hnv hv => absurd hv hnv

/-- An unvisited successor `w` of `v` satisfies the `strongconnect`
precondition: every stack node reaches `w` through `v`. -/
theorem tjVisit_pre_of_nbrs {es : List Edge} {v w : Str} {rest : List Str}
    {st : TJ} (pre : NbrsPre es v (w :: rest) st) (hw : ¬tjVisited st w) :
    VisitPre es w st := by
  refine ⟨pre.inv, hw, ?_⟩
  intro x hx
  have hclimb := tj_climb pre.inv pre.v_stack
    (fun y hy hlt => (pre.strict y hy hlt).1) x hx
  exact hclimb.trans
    (Relation.ReflTransGen.single (pre.ws_succ w (List.mem_cons_self _ _)))

/-- The skip branch (visited successor no longer on the stack) of the
loop: the successor is already assigned, and the tail postcondition
lifts. -/
theorem tjNbrs_step_skip {es : List Edge} {v w : Str} {rest : List Str}
    {st st' : TJ} (pre : NbrsPre es v (w :: rest) st)
    (hw : tjVisited st w) (hon : w ∉ st.onStack)
    (hB : NbrsPost es v rest st st') :
    NbrsPost es v (w :: rest) st st' := by
  have hasg : tjAssigned st w := by
    rcases pre.inv.visited_cases w hw with h | h
    · exact absurd ((pre.inv.onstack_iff w).mpr h) hon
    · exact h
  refine ⟨hB.inv, hB.frame_idx, hB.frame_low, hB.frame_asg, hB.visited_mono,
    hB.stack_app, hB.low_v_mono, hB.new_reach, hB.succ_done, ?_, hB.d2_new,
    ?_, hB.strict_above, hB.counter_mono, hB.idx_new_ge⟩
  · intro x hx
    rcases List.mem_cons.mp hx with h | h
    · exact h ▸ hB.visited_mono w hw
    · exact hB.ws_done x h
  · intro x hx
    rcases List.mem_cons.mp hx with h | h
    · subst h
      right
      show (getK st'.sccIdM x).isSome = true
      rw [hB.frame_asg x hw]
      exact hasg
    · exact hB.d2_v x h

/-- Lowering `lowlink(v)` to a value that still has a reachable on-stack
witness preserves the invariant. -/
theorem tinv_setlow {es : List Edge} {st : TJ} {v : Str} {c : Nat}
    (inv : TInv es st) (hv : v ∈ st.stack) (hle : c ≤ lowOf st v)
    (hwit : ∃ z ∈ st.stack, idxOf st z = c ∧ reachesRel es v z) :
    TInv es { st with lowlinkM := setK st.lowlinkM v c } := by
  have hlow : ∀ x, getK ({ st with lowlinkM := setK st.lowlinkM v c } : TJ).lowlinkM x
      = if v = x then some c else getK st.lowlinkM x := fun x =>
    getK_setK st.lowlinkM v x c
  have hlowv : lowOf { st with lowlinkM := setK st.lowlinkM v c } v = c := by
    unfold lowOf; rw [hlow v]; simp
  have hlowold : ∀ x, x ≠ v →
      lowOf { st with lowlinkM := setK st.lowlinkM v c } x = lowOf st x := by
    intro x hx
    unfold lowOf; rw [hlow x, if_neg (fun h : v = x => hx h.symm)]
  refine ⟨inv.stack_visited, inv.visited_cases, inv.stack_unassigned,
    inv.stack_nodup, inv.onstack_iff, inv.stack_sorted, inv.idx_lt_counter,
    ?_, inv.idx_inj, inv.chain, ?_, ?_, inv.asg_visited, inv.asg_mutual,
    inv.asg_closed, inv.asg_id_lt, inv.scc_nodes_spec, inv.scc_nodes_keys⟩
  · intro x
    rw [hlow x]
    by_cases h : v = x
    · subst h
      have h2 : (getK st.indexM v).isSome = true := inv.stack_visited v hv
      simp [h2]
    · simp [h, inv.low_keys x]
  · intro x hx
    by_cases h : x = v
    · subst h
      rw [hlowv]
      exact Nat.le_trans hle (inv.low_le_idx x hx)
    · rw [hlowold x h]
      exact inv.low_le_idx x hx
  · intro x hx
    by_cases h : x = v
    · subst h
      obtain ⟨z, hz, hzi, hzr⟩ := hwit
      exact ⟨z, hz, by rw [hlowv]; exact hzi, hzr⟩
    · obtain ⟨z, hz, hzi, hzr⟩ := inv.low_wit x hx
      exact ⟨z, hz, by rw [hlowold x h]; exact hzi, hzr⟩

/-- The on-stack branch of the loop establishes the precondition for
the remaining successors. -/
theorem tjNbrs_pre_onstack {es : List Edge} {v w : Str} {rest : List Str}
    {st : TJ} (pre : NbrsPre es v (w :: rest) st) (hon : w ∈ st.onStack) :
    NbrsPre es v rest (tjLowMinIdx v w st) := by
  have hwstack : w ∈ st.stack := (pre.inv.onstack_iff w).mp hon
  have hstep : stepRel es v w := pre.ws_succ w (List.mem_cons_self _ _)
  have hinv : TInv es (tjLowMinIdx v w st) := by
    show TInv es { st with
      lowlinkM := setK st.lowlinkM v (min (lowOf st v) (idxOf st w)) }
    refine tinv_setlow pre.inv pre.v_stack (Nat.min_le_left _ _) ?_
    rcases le_total (lowOf st v) (idxOf st w) with h | h
    · obtain ⟨z, hz, hzi, hzr⟩ := pre.inv.low_wit v pre.v_stack
      exact ⟨z, hz, by rw [Nat.min_eq_left h]; exact hzi, hzr⟩
    · exact ⟨w, hwstack, by rw [Nat.min_eq_right h],
        Relation.ReflTransGen.single hstep⟩
  have hlowB : ∀ x, x ≠ v → lowOf (tjLowMinIdx v w st) x = lowOf st x := by
    intro x hx
    show ((getK (setK st.lowlinkM v _) x).getD 0) = _
    rw [getK_setK, if_neg (fun h : v = x => hx h.symm)]
    rfl
  have hlowBv : lowOf (tjLowMinIdx v w st) v ≤ lowOf st v := by
    show ((getK (setK st.lowlinkM v _) v).getD 0) ≤ _
    rw [getK_setK, if_pos rfl]
    exact Nat.min_le_left _ _
  refine ⟨hinv, pre.v_stack, fun x hx => pre.ws_succ x (List.mem_cons_of_mem _ hx), ?_⟩
  intro x hx hlt
  have hxv : x ≠ v := by
    intro h
    rw [h] at hlt
    omega
  have hs := pre.strict x hx hlt
  refine ⟨?_, ?_⟩
  · rw [hlowB x hxv]
    exact hs.1
  · rw [hlowB x hxv]
    exact Nat.le_trans hlowBv hs.2

/-- The on-stack branch of the loop: lifting the tail postcondition. -/
theorem tjNbrs_step_onstack {es : List Edge} {v w : Str} {rest : List Str}
    {st st' : TJ} (pre : NbrsPre es v (w :: rest) st)
    (hw : tjVisited st w) (hon : w ∈ st.onStack)
    (hB : NbrsPost es v rest (tjLowMinIdx v w st) st') :
    NbrsPost es v (w :: rest) st st' := by
  have hlowB : ∀ x, x ≠ v →
      getK (tjLowMinIdx v w st).lowlinkM x = getK st.lowlinkM x := by
    intro x hx
    show getK (setK st.lowlinkM v _) x = _
    rw [getK_setK, if_neg (fun h : v = x => hx h.symm)]
  have hlowBv : lowOf (tjLowMinIdx v w st) v ≤ lowOf st v := by
    show ((getK (setK st.lowlinkM v _) v).getD 0) ≤ _
    rw [getK_setK, if_pos rfl]
    exact Nat.min_le_left _ _
  have hlowBw : lowOf (tjLowMinIdx v w st) v ≤ idxOf st w := by
    show ((getK (setK st.lowlinkM v _) v).getD 0) ≤ _
    rw [getK_setK, if_pos rfl]
    exact Nat.min_le_right _ _
  refine ⟨hB.inv, hB.frame_idx, ?_, hB.frame_asg, hB.visited_mono,
    hB.stack_app, ?_, hB.new_reach, hB.succ_done, ?_, hB.d2_new,
    ?_, hB.strict_above, hB.counter_mono, hB.idx_new_ge⟩
  · intro x hx hxv
    rw [hB.frame_low x hx hxv]
    exact hlowB x hxv
  · exact Nat.le_trans hB.low_v_mono hlowBv
  · intro x hx
    rcases List.mem_cons.mp hx with h | h
    · exact h ▸ hB.visited_mono w hw
    · exact hB.ws_done x h
  · intro x hx
    rcases List.mem_cons.mp hx with h | h
    · subst h
      left
      have hidx : idxOf st' x = idxOf st x := by
        unfold idxOf
        rw [hB.frame_idx x hw]
        rfl
      rw [hidx]
      exact Nat.le_trans hB.low_v_mono hlowBw
    · exact hB.d2_v x h

/-- After recursively visiting an unvisited successor `w`, the
`min`-update of `lowlink(v)` re-establishes the loop precondition. -/
theorem tjNbrs_pre_unvisited {es : List Edge} {v w : Str} {rest : List Str}
    {st stA : TJ} (pre : NbrsPre es v (w :: rest) st)
    (hw : ¬tjVisited st w) (hchild : VisitPost es w st stA) :
    NbrsPre es v rest (tjLowMinLow v w stA) := by
  have hvisv : tjVisited st v := pre.inv.stack_visited v pre.v_stack
  have hstep : stepRel es v w := pre.ws_succ w (List.mem_cons_self _ _)
  have hvstA : v ∈ stA.stack := by
    rcases hchild.stack_cases with ⟨_, hs⟩ | ⟨_, NP1, hs, _, _⟩
    · rw [hs]; exact pre.v_stack
    · rw [hs]; exact List.mem_append_right _ pre.v_stack
  have hlowAv : lowOf stA v = lowOf st v := by
    unfold lowOf; rw [hchild.frame_low v hvisv]
  have hidxAv : idxOf stA v = idxOf st v := by
    unfold idxOf; rw [hchild.frame_idx v hvisv]
  have hinv : TInv es (tjLowMinLow v w stA) := by
    show TInv es { stA with
      lowlinkM := setK stA.lowlinkM v (min (lowOf stA v) (lowOf stA w)) }
    refine tinv_setlow hchild.inv hvstA (Nat.min_le_left _ _) ?_
    rcases le_total (lowOf stA v) (lowOf stA w) with h | h
    · obtain ⟨z, hz, hzi, hzr⟩ := hchild.inv.low_wit v hvstA
      exact ⟨z, hz, by rw [Nat.min_eq_left h]; exact hzi, hzr⟩
    · by_cases hassg : tjAssigned stA w
      · exfalso
        have h1 : lowOf stA w = idxOf stA w := hchild.pop_iff.mp hassg
        have h2 : idxOf stA w = st.counter := hchild.idx_v
        have h3 : lowOf st v ≤ idxOf st v := pre.inv.low_le_idx v pre.v_stack
        have h4 : idxOf st v < st.counter := pre.inv.idx_lt_counter v hvisv
        rw [hlowAv] at h
        omega
      · have hwstack : w ∈ stA.stack := by
          rcases hchild.inv.visited_cases w hchild.visited_v with h' | h'
          · exact h'
          · exact absurd h' hassg
        obtain ⟨z, hz, hzi, hzr⟩ := hchild.inv.low_wit w hwstack
        refine ⟨z, hz, by rw [Nat.min_eq_right h]; exact hzi, ?_⟩
        exact (Relation.ReflTransGen.single hstep).trans hzr
  have hBlow : ∀ x, x ≠ v →
      lowOf (tjLowMinLow v w stA) x = lowOf stA x := by
    intro x hx
    show ((getK (setK stA.lowlinkM v _) x).getD 0) = _
    rw [getK_setK, if_neg (fun h : v = x => hx h.symm)]
    rfl
  have hBlowv : lowOf (tjLowMinLow v w stA) v ≤ lowOf stA v := by
    show ((getK (setK stA.lowlinkM v _) v).getD 0) ≤ _
    rw [getK_setK, if_pos rfl]
    exact Nat.min_le_left _ _
  have hBloww : lowOf (tjLowMinLow v w stA) v ≤ lowOf stA w := by
    show ((getK (setK stA.lowlinkM v _) v).getD 0) ≤ _
    rw [getK_setK, if_pos rfl]
    exact Nat.min_le_right _ _
  refine ⟨hinv, hvstA,
    fun x hx => pre.ws_succ x (List.mem_cons_of_mem _ hx), ?_⟩
  intro x hx hlt
  have hxv : x ≠ v := by
    intro h
    rw [h] at hlt
    omega
  have hxA : x ∈ stA.stack := hx
  by_cases hxold : tjVisited st x
  · have hxst : x ∈ st.stack := by
      rcases hchild.stack_cases with ⟨_, hs⟩ | ⟨_, NP1, hs, _, hnew⟩
      · rw [hs] at hxA; exact hxA
      · rw [hs] at hxA
        rcases List.mem_append.mp hxA with h' | h'
        · exact absurd hxold (hnew x h')
        · exact h'
    have hidxx : idxOf stA x = idxOf st x := by
      unfold idxOf; rw [hchild.frame_idx x hxold]
    have hlowx : lowOf stA x = lowOf st x := by
      unfold lowOf; rw [hchild.frame_low x hxold]
    have hlt' : idxOf st v < idxOf st x := by
      have : idxOf (tjLowMinLow v w stA) v = idxOf stA v := rfl
      rw [this, hidxAv] at hlt
      have h2 : idxOf (tjLowMinLow v w stA) x = idxOf stA x := rfl
      rw [h2, hidxx] at hlt
      exact hlt
    have hs := pre.strict x hxst hlt'
    constructor
    · show lowOf (tjLowMinLow v w stA) x < idxOf (tjLowMinLow v w stA) x
      rw [hBlow x hxv]
      show lowOf stA x < idxOf stA x
      rw [hlowx, hidxx]
      exact hs.1
    · rw [hBlow x hxv]
      show lowOf (tjLowMinLow v w stA) v ≤ lowOf stA x
      rw [hlowx]
      exact Nat.le_trans hBlowv (Nat.le_trans (Nat.le_of_eq hlowAv) hs.2)
  · have hr := hchild.resid_strict x hxold hxA
    constructor
    · show lowOf (tjLowMinLow v w stA) x < idxOf (tjLowMinLow v w stA) x
      rw [hBlow x hxv]
      exact hr.1
    · rw [hBlow x hxv]
      exact Nat.le_trans hBloww hr.2

/-- The recursive branch of the loop: lifting the tail postcondition
through the child visit and the `min`-update. -/
theorem tjNbrs_step_unvisited {es : List Edge} {v w : Str} {rest : List Str}
    {st stA st' : TJ} (pre : NbrsPre es v (w :: rest) st)
    (hw : ¬tjVisited st w) (hchild : VisitPost es w st stA)
    (hB : NbrsPost es v rest (tjLowMinLow v w stA) st') :
    NbrsPost es v (w :: rest) st st' := by
  have hvisv : tjVisited st v := pre.inv.stack_visited v pre.v_stack
  have hstep : stepRel es v w := pre.ws_succ w (List.mem_cons_self _ _)
  have hvisA : ∀ x, tjVisited st x → tjVisited stA x := hchild.visited_mono
  have hlowAv : lowOf stA v = lowOf st v := by
    unfold lowOf; rw [hchild.frame_low v hvisv]
  have hBlow : ∀ x, x ≠ v →
      getK (tjLowMinLow v w stA).lowlinkM x = getK stA.lowlinkM x := by
    intro x hx
    show getK (setK stA.lowlinkM v _) x = _
    rw [getK_setK, if_neg (fun h : v = x => hx h.symm)]
  have hBlowv : lowOf (tjLowMinLow v w stA) v ≤ lowOf stA v := by
    show ((getK (setK stA.lowlinkM v _) v).getD 0) ≤ _
    rw [getK_setK, if_pos rfl]
    exact Nat.min_le_left _ _
  have hBloww : lowOf (tjLowMinLow v w stA) v ≤ lowOf stA w := by
    show ((getK (setK stA.lowlinkM v _) v).getD 0) ≤ _
    rw [getK_setK, if_pos rfl]
    exact Nat.min_le_right _ _
  refine ⟨hB.inv, ?_, ?_, ?_, ?_, ?_, ?_, ?_, ?_, ?_, ?_, ?_,
    hB.strict_above, ?_, ?_⟩
  · intro x hx
    rw [hB.frame_idx x (hvisA x hx)]
    exact hchild.frame_idx x hx
  · intro x hx hxv
    rw [hB.frame_low x (hvisA x hx) hxv, hBlow x hxv]
    exact hchild.frame_low x hx
  · intro x hx
    rw [hB.frame_asg x (hvisA x hx)]
    exact hchild.frame_asg x hx
  · exact fun x hx => hB.visited_mono x (hvisA x hx)
  · obtain ⟨NP2, h2, h2new⟩ := hB.stack_app
    rcases hchild.stack_cases with ⟨_, hs⟩ | ⟨_, NP1, hs, _, h1new⟩
    · refine ⟨NP2, ?_, ?_⟩
      · rw [h2]
        show NP2 ++ stA.stack = NP2 ++ st.stack
        rw [hs]
      · exact fun x hx hvst => h2new x hx (hvisA x hvst)
    · refine ⟨NP2 ++ NP1, ?_, ?_⟩
      · rw [h2]
        show NP2 ++ stA.stack = (NP2 ++ NP1) ++ st.stack
        rw [hs, List.append_assoc]
      · intro x hx
        rcases List.mem_append.mp hx with h' | h'
        · exact fun hvst => h2new x h' (hvisA x hvst)
        · exact h1new x h'
  · exact Nat.le_trans hB.low_v_mono
      (Nat.le_trans hBlowv (Nat.le_of_eq hlowAv))
  · intro x hnv hv'
    by_cases hxA : tjVisited stA x
    · exact (Relation.ReflTransGen.single hstep).trans
        (hchild.new_reach x hnv hxA)
    · exact hB.new_reach x hxA hv'
  · intro x hnv hv' y hy
    by_cases hxA : tjVisited stA x
    · exact hB.visited_mono y (hchild.succ_done x hnv hxA y hy)
    · exact hB.succ_done x hxA hv' y hy
  · intro x hx
    rcases List.mem_cons.mp hx with h | h
    · exact h ▸ hB.visited_mono w hchild.visited_v
    · exact hB.ws_done x h
  · intro x hnv hv' y hy
    by_cases hxA : tjVisited stA x
    · rcases hchild.d2_new x hnv hxA y hy with hl | hr
      · have hxv : x ≠ v := fun h => hnv (h ▸ hvisv)
        have hyA : tjVisited stA y := hchild.succ_done x hnv hxA y hy
        have hlowx : lowOf st' x = lowOf stA x := by
          unfold lowOf
          rw [hB.frame_low x hxA hxv, hBlow x hxv]
        have hidxy : idxOf st' y = idxOf stA y := by
          unfold idxOf
          rw [hB.frame_idx y hyA]
          rfl
        left
        rw [hlowx, hidxy]
        exact hl
      · have hyA : tjVisited stA y := hchild.inv.asg_visited y hr
        right
        show (getK st'.sccIdM y).isSome = true
        rw [hB.frame_asg y hyA]
        exact hr
    · exact hB.d2_new x hxA hv' y hy
  · intro x hx
    rcases List.mem_cons.mp hx with h | h
    · subst h
      left
      have hidxw : idxOf st' x = idxOf stA x := by
        unfold idxOf
        rw [hB.frame_idx x hchild.visited_v]
        rfl
      rw [hidxw]
      exact Nat.le_trans hB.low_v_mono
        (Nat.le_trans hBloww hchild.low_le_idx_v)
    · exact hB.d2_v x h
  · have h1 : st.counter ≤ stA.counter := Nat.le_of_lt hchild.counter_mono
    exact Nat.le_trans h1 hB.counter_mono
  · intro x hnv hv'
    by_cases hxA : tjVisited stA x
    · have hidxx : idxOf st' x = idxOf stA x := by
        unfold idxOf
        rw [hB.frame_idx x hxA]
        rfl
      rw [hidxx]
      exact hchild.idx_new_ge x hnv hxA
    · have h1 := hB.idx_new_ge x hxA hv'
      have h2 : st.counter ≤ stA.counter := Nat.le_of_lt hchild.counter_mono
      exact Nat.le_trans h2 h1

theorem tjMark_idx (v : Str) (st : TJ) (x : Str) :
    getK (tjMark v st).indexM x
      = if v = x then some st.counter else getK st.indexM x := by
  show getK (setK st.indexM v st.counter) x = _
  exact getK_setK st.indexM v x st.counter

theorem tjMark_low (v : Str) (st : TJ) (x : Str) :
    getK (tjMark v st).lowlinkM x
      = if v = x then some st.counter else getK st.lowlinkM x := by
  show getK (setK st.lowlinkM v st.counter) x = _
  exact getK_setK st.lowlinkM v x st.counter

theorem tjMark_visited_iff (v : Str) (st : TJ) (x : Str) :
    tjVisited (tjMark v st) x ↔ x = v ∨ tjVisited st x := by
  unfold tjVisited
  rw [tjMark_idx]
  by_cases hx : v = x
  · simp [hx]
  · have hx' : ¬x = v := fun h => hx h.symm
    simp [hx, hx']

/-- The no-pop exit of `strongconnect(v)` satisfies its
postcondition. -/
theorem tjVisit_post_nopop {es : List Edge} {v : Str} {st st2 : TJ}
    (pre : VisitPre es v st)
    (hN : NbrsPost es v (succsOf es v) (tjMark v st) st2)
    (hc : ¬getK st2.lowlinkM v = getK st2.indexM v) :
    VisitPost es v st st2 := by
  have hvm1 : tjVisited (tjMark v st) v :=
    (tjMark_visited_iff v st v).mpr (Or.inl rfl)
  have hv2 : tjVisited st2 v := hN.visited_mono v hvm1
  have hidx2v : getK st2.indexM v = some st.counter := by
    rw [hN.frame_idx v hvm1, tjMark_idx]
    simp
  have hidxOf2v : idxOf st2 v = st.counter := by
    unfold idxOf; rw [hidx2v]; rfl
  have hvism1 : ∀ x, tjVisited st x → tjVisited (tjMark v st) x :=
    fun x hx => (tjMark_visited_iff v st x).mpr (Or.inr hx)
  have hxnev : ∀ x, tjVisited st x → x ≠ v :=
    fun x hx h => pre.unvisited (h ▸ hx)
  have hidx2_old : ∀ x, tjVisited st x →
      getK st2.indexM x = getK st.indexM x := by
    intro x hx
    rw [hN.frame_idx x (hvism1 x hx), tjMark_idx,
      if_neg (fun h : v = x => hxnev x hx h.symm)]
  have hlow2_old : ∀ x, tjVisited st x →
      getK st2.lowlinkM x = getK st.lowlinkM x := by
    intro x hx
    rw [hN.frame_low x (hvism1 x hx) (hxnev x hx), tjMark_low,
      if_neg (fun h : v = x => hxnev x hx h.symm)]
  have hasg2_old : ∀ x, tjVisited st x →
      getK st2.sccIdM x = getK st.sccIdM x := by
    intro x hx
    rw [hN.frame_asg x (hvism1 x hx)]
    rfl
  obtain ⟨NP, hstk, hNPnew⟩ := hN.stack_app
  have hstk2 : st2.stack = NP ++ v :: st.stack := hstk
  have hv2stack : v ∈ st2.stack := by
    rw [hstk2]
    exact List.mem_append_right _ (List.mem_cons_self _ _)
  have hnass2 : ¬tjAssigned st2 v := hN.inv.stack_unassigned v hv2stack
  have hlow2v_isSome : (getK st2.lowlinkM v).isSome = true := by
    rw [hN.inv.low_keys v]
    exact hv2
  have hcval : ¬lowOf st2 v = idxOf st2 v := by
    intro h
    exact hc ((optEq_iff_getD hlow2v_isSome hv2).mpr h)
  have hNPnew' : ∀ x ∈ NP, ¬tjVisited st x := by
    intro x hx hvx
    exact hNPnew x hx (hvism1 x hvx)
  have hsorted := hN.inv.stack_sorted
  rw [hstk2] at hsorted
  have hNPabove : ∀ x ∈ NP, idxOf st2 v < idxOf st2 x := by
    intro x hx
    have := (List.pairwise_append.mp hsorted).2.2 x hx v
      (List.mem_cons_self _ _)
    exact this
  refine ⟨hN.inv, hidx2_old, hlow2_old, hasg2_old,
    fun x hx => hN.visited_mono x (hvism1 x hx), hv2, hidxOf2v, ?_, ?_, ?_,
    hN.inv.low_le_idx v hv2stack, ?_, ?_, ?_, ?_, ?_⟩
  · intro x hnv hv'
    by_cases hxv : x = v
    · subst hxv; exact Relation.ReflTransGen.refl
    · refine hN.new_reach x ?_ hv'
      rw [tjMark_visited_iff]
      push_neg
      exact ⟨hxv, hnv⟩
  · intro x hnv hv' y hy
    by_cases hxv : x = v
    · subst hxv
      exact hN.ws_done y (mem_succsOf.mpr hy)
    · refine hN.succ_done x ?_ hv' y hy
      rw [tjMark_visited_iff]
      push_neg
      exact ⟨hxv, hnv⟩
  · intro x hnv hv' y hy
    by_cases hxv : x = v
    · subst hxv
      exact hN.d2_v y (mem_succsOf.mpr hy)
    · refine hN.d2_new x ?_ hv' y hy
      rw [tjMark_visited_iff]
      push_neg
      exact ⟨hxv, hnv⟩
  · constructor
    · intro h; exact absurd h hnass2
    · intro h; exact absurd h hcval
  · right
    refine ⟨hnass2, NP ++ [v], ?_, List.mem_append_right _ (List.mem_cons_self _ _), ?_⟩
    · rw [hstk2, List.append_assoc]
      rfl
    · intro x hx
      rcases List.mem_append.mp hx with h | h
      · exact hNPnew' x h
      · rw [List.mem_singleton.mp h]
        exact pre.unvisited
  · intro x hnv hx2
    rw [hstk2] at hx2
    rcases List.mem_append.mp hx2 with h | h
    · have hlt := hNPabove x h
      exact ⟨(hN.strict_above x (hstk2 ▸ List.mem_append_left _ h) hlt).1,
        (hN.strict_above x (hstk2 ▸ List.mem_append_left _ h) hlt).2⟩
    · rcases List.mem_cons.mp h with h' | h'
      · subst h'
        have hle := hN.inv.low_le_idx x hv2stack
        exact ⟨Nat.lt_of_le_of_ne hle hcval, Nat.le_refl _⟩
      · exact absurd (pre.inv.stack_visited x h') hnv
  · have h1 : (tjMark v st).counter ≤ st2.counter := hN.counter_mono
    have h2 : (tjMark v st).counter = st.counter + 1 := rfl
    omega
  · intro x hnv hv'
    by_cases hxv : x = v
    · subst hxv
      rw [hidxOf2v]
    · have h1 := hN.idx_new_ge x (by
        rw [tjMark_visited_iff]
        push_neg
        exact ⟨hxv, hnv⟩) hv'
      have h2 : (tjMark v st).counter = st.counter + 1 := rfl
      omega

/-- A `strongconnect` call entered with an empty stack leaves the
stack empty: the root condition must have fired. -/
theorem visitPost_empty_stack {es : List Edge} {v : Str} {st st' : TJ}
    (h : VisitPost es v st st') (hst : st.stack = []) : st'.stack = [] := by
  rcases h.stack_cases with ⟨_, hs⟩ | ⟨_, NP, hs, hvNP, hnew⟩
  · rw [hs, hst]
  · exfalso
    have hne : st'.stack ≠ [] := by
      rw [hs]
      intro hcon
      rw [List.append_eq_nil] at hcon
      rw [hcon.1] at hvNP
      exact List.not_mem_nil v hvNP
    obtain ⟨x₀, hx₀⟩ : ∃ x₀, x₀ ∈ st'.stack.argmin (idxOf st') := by
      cases hA : st'.stack.argmin (idxOf st') with
      | none => exact absurd (List.argmin_eq_none.mp hA) hne
      | some m => exact ⟨m, rfl⟩
    have hx₀mem : x₀ ∈ st'.stack := List.argmin_mem hx₀
    have hmin : ∀ y ∈ st'.stack, idxOf st' x₀ ≤ idxOf st' y :=
      fun y hy => List.le_of_mem_argmin hy hx₀
    have hx₀new : ¬tjVisited st x₀ := by
      have hx' := hx₀mem
      rw [hs, hst, List.append_nil] at hx'
      exact hnew x₀ hx'
    have hstrict := (h.resid_strict x₀ hx₀new hx₀mem).1
    obtain ⟨z, hz, hzi, _⟩ := h.inv.low_wit x₀ hx₀mem
    have := hmin z hz
    omega

/-- The pop exit of `strongconnect(v)` (root condition fired): the
popped segment is exactly the SCC of `v` among the still-unassigned
nodes, and the postcondition holds. -/
theorem tjVisit_post_pop {es : List Edge} {v : Str} {st st2 : TJ}
    (pre : VisitPre es v st)
    (hN : NbrsPost es v (succsOf es v) (tjMark v st) st2)
    (hc : getK st2.lowlinkM v = getK st2.indexM v) :
    VisitPost es v st (popRoot v st2) := by
  have hvm1 : tjVisited (tjMark v st) v :=
    (tjMark_visited_iff v st v).mpr (Or.inl rfl)
  have hv2 : tjVisited st2 v := hN.visited_mono v hvm1
  have hidx2v : getK st2.indexM v = some st.counter := by
    rw [hN.frame_idx v hvm1, tjMark_idx]
    simp
  have hidxOf2v : idxOf st2 v = st.counter := by
    unfold idxOf; rw [hidx2v]; rfl
  have hvism1 : ∀ x, tjVisited st x → tjVisited (tjMark v st) x :=
    fun x hx => (tjMark_visited_iff v st x).mpr (Or.inr hx)
  have hxnev : ∀ x, tjVisited st x → x ≠ v :=
    fun x hx h => pre.unvisited (h ▸ hx)
  have hidx2_old : ∀ x, tjVisited st x →
      getK st2.indexM x = getK st.indexM x := by
    intro x hx
    rw [hN.frame_idx x (hvism1 x hx), tjMark_idx,
      if_neg (fun h : v = x => hxnev x hx h.symm)]
  have hlow2_old : ∀ x, tjVisited st x →
      getK st2.lowlinkM x = getK st.lowlinkM x := by
    intro x hx
    rw [hN.frame_low x (hvism1 x hx) (hxnev x hx), tjMark_low,
      if_neg (fun h : v = x => hxnev x hx h.symm)]
  have hasg2_old : ∀ x, tjVisited st x →
      getK st2.sccIdM x = getK st.sccIdM x := by
    intro x hx
    rw [hN.frame_asg x (hvism1 x hx)]
    rfl
  obtain ⟨NP, hstk2, hNPnew⟩ :
      ∃ NP, st2.stack = NP ++ v :: st.stack ∧
        ∀ x ∈ NP, ¬tjVisited (tjMark v st) x := hN.stack_app
  have hv2stack : v ∈ st2.stack := by
    rw [hstk2]
    exact List.mem_append_right _ (List.mem_cons_self _ _)
  have hlow2v_isSome : (getK st2.lowlinkM v).isSome = true := by
    rw [hN.inv.low_keys v]
    exact hv2
  have hcval : lowOf st2 v = idxOf st2 v :=
    (optEq_iff_getD hlow2v_isSome hv2).mp hc
  have hNPnew' : ∀ x ∈ NP, ¬tjVisited st x := by
    intro x hx hvx
    exact hNPnew x hx (hvism1 x hvx)
  have hsorted := hN.inv.stack_sorted
  rw [hstk2] at hsorted
  have hNPabove : ∀ x ∈ NP, idxOf st2 v < idxOf st2 x := by
    intro x hx
    exact (List.pairwise_append.mp hsorted).2.2 x hx v (List.mem_cons_self _ _)
  have holdbelow : ∀ x ∈ st.stack, idxOf st2 x < idxOf st2 v := by
    intro x hx
    exact (List.pairwise_cons.mp (List.pairwise_append.mp hsorted).2.1).1 x hx
  have hvnotNP : v ∉ NP := fun h => hNPnew v h hvm1
  have hpop : popUntil v st2.stack = (NP ++ [v], st.stack) := by
    rw [hstk2]
    exact popUntil_eq NP st.stack hvnotNP
  have hstack2P : st2.stack = (NP ++ [v]) ++ st.stack := by
    rw [hstk2, List.append_assoc]
    rfl
  have hvP : v ∈ NP ++ [v] :=
    List.mem_append_right _ (List.mem_singleton.mpr rfl)
  have hPmem : ∀ x ∈ NP ++ [v], x ∈ NP ∨ x = v := by
    intro x hx
    rcases List.mem_append.mp hx with h | h
    · exact Or.inl h
    · exact Or.inr (List.mem_singleton.mp h)
  have hout_stack : (popRoot v st2).stack = st.stack := by
    simp only [popRoot, hpop]
  have hout_onstack : (popRoot v st2).onStack
      = st2.onStack.filter (fun x => !decide (x ∈ NP ++ [v])) := by
    simp only [popRoot, hpop]
  have hout_asg : ∀ x, getK (popRoot v st2).sccIdM x
      = if x ∈ NP ++ [v] then some st2.sccCount else getK st2.sccIdM x := by
    intro x
    have h1 : (popRoot v st2).sccIdM
        = (NP ++ [v]).foldl (fun m w => setK m w st2.sccCount) st2.sccIdM := by
      simp only [popRoot, hpop]
    rw [h1]
    exact getK_foldl_setK _ _ _ _
  have hout_nodes : (popRoot v st2).sccNodes
      = setN st2.sccNodes st2.sccCount (NP ++ [v]) := by
    simp only [popRoot, hpop]
  have hndall := hstack2P ▸ hN.inv.stack_nodup
  have hnd3 := List.nodup_append.mp hndall
  have hPnd : (NP ++ [v]).Nodup := hnd3.1
  have holdnd : st.stack.Nodup := hnd3.2.1
  have hdisj : ∀ x ∈ NP ++ [v], x ∉ st.stack := fun x hx => hnd3.2.2 hx
  have hPsub : ∀ x ∈ NP ++ [v], x ∈ st2.stack := by
    intro x hx
    rw [hstack2P]
    exact List.mem_append_left _ hx
  have hPge : ∀ x ∈ NP ++ [v], idxOf st2 v ≤ idxOf st2 x := by
    intro x hx
    rcases hPmem x hx with h | h
    · exact Nat.le_of_lt (hNPabove x h)
    · rw [h]
  have hPchar : ∀ x ∈ st2.stack, idxOf st2 v ≤ idxOf st2 x → x ∈ NP ++ [v] := by
    intro x hx hle
    rw [hstack2P] at hx
    rcases List.mem_append.mp hx with h | h
    · exact h
    · exact absurd hle (by have := holdbelow x h; omega)
  have hreachP : ∀ x ∈ NP ++ [v], reachesRel es v x := by
    intro x hx
    rcases hPmem x hx with h | h
    · exact hN.new_reach x (hNPnew x h) (hN.inv.stack_visited x (hPsub x hx))
    · rw [h]
      exact Relation.ReflTransGen.refl
  have hreachPv : ∀ x ∈ st2.stack, reachesRel es x v :=
    tj_climb hN.inv hv2stack (fun y hy hlt => (hN.strict_above y hy hlt).1)
  have hsuccP : ∀ x ∈ NP ++ [v], ∀ y, stepRel es x y → tjVisited st2 y := by
    intro x hx y hy
    rcases hPmem x hx with h | h
    · exact hN.succ_done x (hNPnew x h) (hN.inv.stack_visited x (hPsub x hx)) y hy
    · subst h
      exact hN.ws_done y (mem_succsOf.mpr hy)
  have hsuccP2 : ∀ x ∈ NP ++ [v], ∀ y, stepRel es x y →
      y ∈ NP ++ [v] ∨ tjAssigned st2 y := by
    intro x hx y hy
    by_cases hyass : tjAssigned st2 y
    · exact Or.inr hyass
    · left
      have hyvis := hsuccP x hx y hy
      have hystack : y ∈ st2.stack :=
        (hN.inv.visited_cases y hyvis).resolve_right hyass
      have hlowle : lowOf st2 v ≤ idxOf st2 y := by
        rcases hPmem x hx with h | h
        · have hd2 := (hN.d2_new x (hNPnew x h)
            (hN.inv.stack_visited x (hPsub x hx)) y hy).resolve_right hyass
          have hdom := (hN.strict_above x (hPsub x hx) (hNPabove x h)).2
          omega
        · subst h
          exact (hN.d2_v y (mem_succsOf.mpr hy)).resolve_right hyass
      rw [hcval] at hlowle
      exact hPchar y hystack hlowle
  have hclosure : ∀ x ∈ NP ++ [v], ∀ y, reachesRel es x y →
      y ∈ NP ++ [v] ∨ tjAssigned st2 y := by
    intro x hx y hr
    induction hr with
    | refl => exact Or.inl hx
    | tail hab hbc ih =>
      rcases ih with h | h
      · exact hsuccP2 _ h _ hbc
      · exact Or.inr (hN.inv.asg_closed _ _ h hbc)
  have hmutualP : ∀ x ∈ NP ++ [v], ∀ y, reachesRel es x y →
      reachesRel es y x → y ∈ NP ++ [v] := by
    intro x hx y h1 h2
    rcases hclosure x hx y h1 with h | h
    · exact h
    · exfalso
      exact hN.inv.stack_unassigned x (hPsub x hx) (reach_assigned hN.inv h h2)
  have hP_unassigned0 : ∀ x ∈ NP ++ [v], getK st2.sccIdM x = none := by
    intro x hx
    have := hN.inv.stack_unassigned x (hPsub x hx)
    unfold tjAssigned at this
    cases h : getK st2.sccIdM x with
    | none => rfl
    | some j => rw [h] at this; simp at this
  have hnotP_of_assigned : ∀ x, tjAssigned st2 x → x ∉ NP ++ [v] := by
    intro x hxA hm
    have hnone := hP_unassigned0 x hm
    unfold tjAssigned at hxA
    rw [hnone] at hxA
    simp at hxA
  have hassg_out : ∀ x, tjAssigned (popRoot v st2) x ↔
      x ∈ NP ++ [v] ∨ tjAssigned st2 x := by
    intro x
    unfold tjAssigned
    rw [hout_asg x]
    by_cases hx : x ∈ NP ++ [v]
    · simp [hx]
    · simp [hx]
  have hxoldP : ∀ x, tjVisited st x → x ∉ NP ++ [v] := by
    intro x hx hmem
    rcases hPmem x hmem with h | h
    · exact hNPnew' x h hx
    · exact pre.unvisited (h ▸ hx)
  refine ⟨⟨?_, ?_, ?_, ?_, ?_, ?_, ?_, ?_, ?_, ?_, ?_, ?_, ?_, ?_, ?_, ?_, ?_, ?_⟩,
    ?_, ?_, ?_, ?_, hv2, hidxOf2v, ?_, ?_, ?_, ?_, ?_, ?_, ?_, ?_, ?_⟩
  -- TInv (popRoot v st2)
  · intro x hx
    rw [hout_stack] at hx
    show tjVisited st2 x
    exact hN.inv.stack_visited x (hstack2P ▸ List.mem_append_right _ hx)
  · intro x hx
    rcases hN.inv.visited_cases x hx with h | h
    · rw [hstack2P] at h
      rcases List.mem_append.mp h with h' | h'
      · exact Or.inr ((hassg_out x).mpr (Or.inl h'))
      · left; rw [hout_stack]; exact h'
    · exact Or.inr ((hassg_out x).mpr (Or.inr h))
  · intro x hx hassg
    rw [hout_stack] at hx
    rcases (hassg_out x).mp hassg with h | h
    · exact hdisj x h hx
    · exact hN.inv.stack_unassigned x
        (hstack2P ▸ List.mem_append_right _ hx) h
  · rw [hout_stack]
    exact holdnd
  · intro x
    rw [hout_onstack, hout_stack, List.mem_filter]
    constructor
    · rintro ⟨hon, hnot⟩
      have hstk := (hN.inv.onstack_iff x).mp hon
      rw [hstack2P] at hstk
      rcases List.mem_append.mp hstk with h | h
      · exfalso
        simp at hnot
        rcases List.mem_append.mp h with h' | h'
        · exact hnot.1 h'
        · exact hnot.2 (List.mem_singleton.mp h')
      · exact h
    · intro hx
      refine ⟨(hN.inv.onstack_iff x).mpr
        (hstack2P ▸ List.mem_append_right _ hx), ?_⟩
      simp
      refine ⟨fun h => hdisj x (List.mem_append_left _ h) hx,
        fun h => hdisj x (List.mem_append_right _ (by simp [h])) hx⟩
  · rw [hout_stack]
    exact (List.pairwise_append.mp (hstack2P ▸ hN.inv.stack_sorted)).2.1
  · exact hN.inv.idx_lt_counter
  · exact hN.inv.low_keys
  · exact hN.inv.idx_inj
  · intro x hx y hy hle
    rw [hout_stack] at hx hy
    exact hN.inv.chain x (hstack2P ▸ List.mem_append_right _ hx)
      y (hstack2P ▸ List.mem_append_right _ hy) hle
  · intro x hx
    rw [hout_stack] at hx
    exact hN.inv.low_le_idx x (hstack2P ▸ List.mem_append_right _ hx)
  · intro x hx
    rw [hout_stack] at hx
    obtain ⟨z, hz, hzi, hzr⟩ :=
      hN.inv.low_wit x (hstack2P ▸ List.mem_append_right _ hx)
    have hxlt : idxOf st2 x < idxOf st2 v := holdbelow x hx
    have hlowx : lowOf st2 x ≤ idxOf st2 x :=
      hN.inv.low_le_idx x (hstack2P ▸ List.mem_append_right _ hx)
    have hzlt : idxOf st2 z < idxOf st2 v := by omega
    have hzold : z ∈ st.stack := by
      have hz' := hz
      rw [hstack2P] at hz'
      rcases List.mem_append.mp hz' with h | h
      · exact absurd (hPge z h) (by omega)
      · exact h
    exact ⟨z, by rw [hout_stack]; exact hzold, hzi, hzr⟩
  · intro x hx
    rcases (hassg_out x).mp hx with h | h
    · exact hN.inv.stack_visited x (hPsub x h)
    · exact hN.inv.asg_visited x h
  · intro x y hx hy
    rcases (hassg_out x).mp hx with hxP | hxA <;>
      rcases (hassg_out y).mp hy with hyP | hyA
    · rw [hout_asg x, if_pos hxP, hout_asg y, if_pos hyP]
      constructor
      · intro _
        exact ⟨(hreachPv x (hPsub x hxP)).trans (hreachP y hyP),
          (hreachPv y (hPsub y hyP)).trans (hreachP x hxP)⟩
      · intro _
        rfl
    · constructor
      · intro heq
        exfalso
        obtain ⟨j, hj⟩ := Option.isSome_iff_exists.mp hyA
        have hjlt := hN.inv.asg_id_lt y j hj
        rw [hout_asg x, if_pos hxP, hout_asg y, if_neg (fun hmem =>
          (by rw [hP_unassigned0 y hmem] at hj; exact Option.noConfusion hj : False)),
          hj] at heq
        have := Option.some.inj heq
        omega
      · rintro ⟨h1, h2⟩
        exact absurd (hmutualP x hxP y h1 h2) (hnotP_of_assigned y hyA)
    · constructor
      · intro heq
        exfalso
        obtain ⟨j, hj⟩ := Option.isSome_iff_exists.mp hxA
        have hjlt := hN.inv.asg_id_lt x j hj
        rw [hout_asg y, if_pos hyP, hout_asg x, if_neg (fun hmem =>
          (by rw [hP_unassigned0 x hmem] at hj; exact Option.noConfusion hj : False)),
          hj] at heq
        have := Option.some.inj heq
        omega
      · rintro ⟨h1, h2⟩
        exact absurd (hmutualP y hyP x h2 h1) (hnotP_of_assigned x hxA)
    · rw [hout_asg x, if_neg (hnotP_of_assigned x hxA),
        hout_asg y, if_neg (hnotP_of_assigned y hyA)]
      exact hN.inv.asg_mutual x y hxA hyA
  · intro x y hx hstep
    rcases (hassg_out x).mp hx with h | h
    · rcases hsuccP2 x h y hstep with h' | h'
      · exact (hassg_out y).mpr (Or.inl h')
      · exact (hassg_out y).mpr (Or.inr h')
    · exact (hassg_out y).mpr (Or.inr (hN.inv.asg_closed x y h hstep))
  · intro x i hxi
    rw [hout_asg x] at hxi
    show i < st2.sccCount + 1
    by_cases hx : x ∈ NP ++ [v]
    · rw [if_pos hx] at hxi
      have := Option.some.inj hxi
      omega
    · rw [if_neg hx] at hxi
      have := hN.inv.asg_id_lt x i hxi
      omega
  · intro i mems hmems
    rw [hout_nodes, getN_setN] at hmems
    by_cases hi : st2.sccCount = i
    · rw [if_pos hi] at hmems
      have hmemsP := Option.some.inj hmems
      subst hmemsP
      refine ⟨hPnd, ?_⟩
      intro w
      rw [hout_asg w]
      constructor
      · intro hw
        rw [if_pos hw, hi]
      · intro hw
        by_cases hwP : w ∈ NP ++ [v]
        · exact hwP
        · exfalso
          rw [if_neg hwP] at hw
          have := hN.inv.asg_id_lt w i hw
          omega
    · rw [if_neg hi] at hmems
      obtain ⟨hnd, hiff⟩ := hN.inv.scc_nodes_spec i mems hmems
      refine ⟨hnd, ?_⟩
      intro w
      rw [hout_asg w]
      by_cases hwP : w ∈ NP ++ [v]
      · rw [if_pos hwP]
        constructor
        · intro hw
          exfalso
          rw [hiff w, hP_unassigned0 w hwP] at hw
          exact Option.noConfusion hw
        · intro hw
          exfalso
          have := Option.some.inj hw
          exact hi this
      · rw [if_neg hwP]
        exact hiff w
  · intro i
    rw [hout_nodes, getN_setN]
    show _ ↔ i < st2.sccCount + 1
    by_cases hi : st2.sccCount = i
    · rw [if_pos hi]
      simp
      omega
    · rw [if_neg hi]
      rw [hN.inv.scc_nodes_keys i]
      omega
  -- remaining VisitPost fields
  · exact hidx2_old
  · exact hlow2_old
  · intro x hx
    rw [hout_asg x, if_neg (hxoldP x hx)]
    exact hasg2_old x hx
  · exact fun x hx => hN.visited_mono x (hvism1 x hx)
  · intro x hnv hv'
    by_cases hxv : x = v
    · subst hxv; exact Relation.ReflTransGen.refl
    · refine hN.new_reach x ?_ hv'
      rw [tjMark_visited_iff]
      push_neg
      exact ⟨hxv, hnv⟩
  · intro x hnv hv' y hy
    by_cases hxv : x = v
    · subst hxv
      exact hN.ws_done y (mem_succsOf.mpr hy)
    · refine hN.succ_done x ?_ hv' y hy
      rw [tjMark_visited_iff]
      push_neg
      exact ⟨hxv, hnv⟩
  · intro x hnv hv' y hy
    have hstep : lowOf st2 x ≤ idxOf st2 y ∨ tjAssigned st2 y := by
      by_cases hxv : x = v
      · subst hxv
        exact hN.d2_v y (mem_succsOf.mpr hy)
      · refine hN.d2_new x ?_ hv' y hy
        rw [tjMark_visited_iff]
        push_neg
        exact ⟨hxv, hnv⟩
    rcases hstep with h | h
    · exact Or.inl h
    · exact Or.inr ((hassg_out y).mpr (Or.inr h))
  · exact Nat.le_of_eq hcval
  · constructor
    · intro _
      exact hcval
    · intro _
      exact (hassg_out v).mpr (Or.inl hvP)
  · exact Or.inl ⟨(hassg_out v).mpr (Or.inl hvP), hout_stack⟩
  · intro x hnv hx
    rw [hout_stack] at hx
    exact absurd (pre.inv.stack_visited x hx) hnv
  · have h1 : (tjMark v st).counter ≤ st2.counter := hN.counter_mono
    have h2 : (tjMark v st).counter = st.counter + 1 := rfl
    show st.counter < st2.counter
    omega
  · intro x hnv hv'
    by_cases hxv : x = v
    · subst hxv
      show st.counter ≤ idxOf st2 x
      rw [hidxOf2v]
    · have h1 := hN.idx_new_ge x (by
        rw [tjMark_visited_iff]
        push_neg
        exact ⟨hxv, hnv⟩) hv'
      have h2 : (tjMark v st).counter = st.counter + 1 := rfl
      show st.counter ≤ idxOf st2 x
      omega

/-- The successor loop satisfies its postcondition, assuming
`strongconnect` does at the same unvisited-count bound. -/
theorem tjNbrs_all (es : List Edge) (allNs : List Str)
    (hall : ∀ u w, w ∈ succsOf es u → w ∈ allNs) (N : Nat)
    (hA : ∀ (v : Str) (st : TJ) (hv : v ∈ allNs)
      (hunv : getK st.indexM v = none),
      unvisitedCount allNs st ≤ N → VisitPre es v st →
        VisitPost es v st (tjVisit es allNs hall v st hv hunv).1) :
    ∀ (ws : List Str) (v : Str) (st : TJ) (hws : ∀ w ∈ ws, w ∈ allNs),
      unvisitedCount allNs st ≤ N → NbrsPre es v ws st →
        NbrsPost es v ws st (tjNbrs es allNs hall v ws st hws).1 := by
  intro ws
  induction ws with
  | nil =>
    intro v st hws hcnt preN
    rw [tjNbrs_nil]
    exact nbrsPost_refl preN
  | cons w rest ih =>
    intro v st hws hcnt preN
    have h1 : w ∈ allNs := hws w (List.mem_cons_self _ _)
    have hrest : ∀ x ∈ rest, x ∈ allNs :=
      fun x hx => hws x (List.mem_cons_of_mem _ hx)
    by_cases hw : getK st.indexM w = none
    · rw [tjNbrs_cons_unvisited es allNs hall v w rest st hws hw h1 hrest]
      have hwnv : ¬tjVisited st w := not_tjVisited_iff.mpr hw
      have hpreV : VisitPre es w st := tjVisit_pre_of_nbrs preN hwnv
      have hchild : VisitPost es w st (tjVisit es allNs hall w st h1 hw).1 :=
        hA w st h1 hw hcnt hpreV
      have hpreB : NbrsPre es v rest
          (tjLowMinLow v w (tjVisit es allNs hall w st h1 hw).1) :=
        tjNbrs_pre_unvisited preN hwnv hchild
      have hcntB : unvisitedCount allNs
          (tjLowMinLow v w (tjVisit es allNs hall w st h1 hw).1) ≤ N := by
        have hmono : unvisitedCount allNs (tjVisit es allNs hall w st h1 hw).1
            ≤ unvisitedCount allNs st :=
          unvisitedCount_le_of_mono (tjVisit es allNs hall w st h1 hw).2
        have heq : unvisitedCount allNs
            (tjLowMinLow v w (tjVisit es allNs hall w st h1 hw).1)
            = unvisitedCount allNs (tjVisit es allNs hall w st h1 hw).1 := rfl
        omega
      have hB := ih v _ hrest hcntB hpreB
      exact tjNbrs_step_unvisited preN hwnv hchild hB
    · have hwv : tjVisited st w := by
        unfold tjVisited
        cases h : getK st.indexM w with
        | none => exact absurd h hw
        | some c => rfl
      by_cases hon : w ∈ st.onStack
      · rw [tjNbrs_cons_onstack es allNs hall v w rest st hws hw hon hrest]
        have hpreB := tjNbrs_pre_onstack preN hon
        have hcntB : unvisitedCount allNs (tjLowMinIdx v w st) ≤ N := by
          have heq : unvisitedCount allNs (tjLowMinIdx v w st)
              = unvisitedCount allNs st := rfl
          omega
        have hB := ih v _ hrest hcntB hpreB
        exact tjNbrs_step_onstack preN hwv hon hB
      · rw [tjNbrs_cons_skip es allNs hall v w rest st hws hw hon hrest]
        have hB := ih v st hrest hcnt (nbrsPre_tail preN)
        exact tjNbrs_step_skip preN hwv hon hB

/-- The main simultaneous induction on the number of unvisited nodes:
`strongconnect` and its successor loop meet their postconditions. -/
theorem tjMaster (es : List Edge) (allNs : List Str)
    (hall : ∀ u w, w ∈ succsOf es u → w ∈ allNs) :
    ∀ N : Nat,
      (∀ (v : Str) (st : TJ) (hv : v ∈ allNs)
        (hunv : getK st.indexM v = none),
        unvisitedCount allNs st ≤ N → VisitPre es v st →
          VisitPost es v st (tjVisit es allNs hall v st hv hunv).1) ∧
      (∀ (v : Str) (ws : List Str) (st : TJ)
        (hws : ∀ w ∈ ws, w ∈ allNs),
        unvisitedCount allNs st ≤ N → NbrsPre es v ws st →
          NbrsPost es v ws st (tjNbrs es allNs hall v ws st hws).1) := by
  intro N
  induction N with
  | zero =>
    have hA : ∀ (v : Str) (st : TJ) (hv : v ∈ allNs)
        (hunv : getK st.indexM v = none),
        unvisitedCount allNs st ≤ 0 → VisitPre es v st →
          VisitPost es v st (tjVisit es allNs hall v st hv hunv).1 := by
      intro v st hv hunv hcnt _
      have := unvisitedCount_pos hv hunv
      omega
    exact ⟨hA, fun v ws st hws hcnt preN =>
      tjNbrs_all es allNs hall 0 hA ws v st hws hcnt preN⟩
  | succ n ihn =>
    have hA : ∀ (v : Str) (st : TJ) (hv : v ∈ allNs)
        (hunv : getK st.indexM v = none),
        unvisitedCount allNs st ≤ n + 1 → VisitPre es v st →
          VisitPost es v st (tjVisit es allNs hall v st hv hunv).1 := by
      intro v st hv hunv hcnt preV
      have hs : ∀ w ∈ succsOf es v, w ∈ allNs := fun w hw => hall v w hw
      have hpreN : NbrsPre es v (succsOf es v) (tjMark v st) := tjMark_pre preV
      have hcnt1 : unvisitedCount allNs (tjMark v st) ≤ n := by
        have hlt : unvisitedCount allNs (tjMark v st)
            < unvisitedCount allNs st :=
          unvisitedCount_lt_set hv hunv
        omega
      have hN := ihn.2 v (succsOf es v) (tjMark v st) hs hcnt1 hpreN
      by_cases hcond :
          getK ((tjNbrs es allNs hall v (succsOf es v) (tjMark v st) hs).1).lowlinkM v
            = getK ((tjNbrs es allNs hall v (succsOf es v) (tjMark v st) hs).1).indexM v
      · rw [tjVisit_eq_pop es allNs hall v st hv hunv hs hcond]
        exact tjVisit_post_pop preV hN hcond
      · rw [tjVisit_eq_nopop es allNs hall v st hv hunv hs hcond]
        exact tjVisit_post_nopop preV hN hcond
    exact ⟨hA, fun v ws st hws hcnt preN =>
      tjNbrs_all es allNs hall (n + 1) hA ws v st hws hcnt preN⟩

/-- The invariant holds of the initial Tarjan state. -/
theorem tinv_init (es : List Edge) : TInv es tjInit := by
  refine ⟨?_, ?_, ?_, ?_, ?_, ?_, ?_, ?_, ?_, ?_, ?_, ?_, ?_, ?_, ?_, ?_, ?_, ?_⟩
  · intro x hx; exact absurd hx (List.not_mem_nil x)
  · intro x hx; simp [tjVisited, tjInit, getK] at hx
  · intro x hx; exact absurd hx (List.not_mem_nil x)
  · exact List.nodup_nil
  · intro x; exact Iff.rfl
  · exact List.Pairwise.nil
  · intro x hx; simp [tjVisited, tjInit, getK] at hx
  · intro x; rfl
  · intro x y hx; simp [tjVisited, tjInit, getK] at hx
  · intro x hx; exact absurd hx (List.not_mem_nil x)
  · intro x hx; exact absurd hx (List.not_mem_nil x)
  · intro x hx; exact absurd hx (List.not_mem_nil x)
  · intro x hx; simp [tjAssigned, tjInit, getK] at hx
  · intro x y hx; simp [tjAssigned, tjInit, getK] at hx
  · intro x y hx; simp [tjAssigned, tjInit, getK] at hx
  · intro x i hx; exact Option.noConfusion hx
  · intro i mems hx; exact Option.noConfusion hx
  · intro i; simp [tjInit, getN]

/-- One driver iteration preserves the invariant and the empty stack,
and visits its node. -/
theorem tjStep_spec {es : List Edge} {st : TJ} {vh : { x // x ∈ nodesOf es }}
    (inv : TInv es st) (hstack : st.stack = []) :
    TInv es (tjStep es st vh) ∧ (tjStep es st vh).stack = [] ∧
      (∀ x, tjVisited st x → tjVisited (tjStep es st vh) x) ∧
      tjVisited (tjStep es st vh) vh.1 := by
  unfold tjStep
  by_cases h : getK st.indexM vh.1 = none
  · rw [dif_pos h]
    have hpre : VisitPre es vh.1 st :=
      ⟨inv, not_tjVisited_iff.mpr h, by
        rw [hstack]; intro x hx; exact absurd hx (List.not_mem_nil x)⟩
    have hpost := (tjMaster es (nodesOf es)
      (fun _ _ hw => succsOf_mem_nodesOf hw)
      (unvisitedCount (nodesOf es) st)).1 vh.1 st vh.2 h (Nat.le_refl _) hpre
    exact ⟨hpost.inv, visitPost_empty_stack hpost hstack,
      hpost.visited_mono, hpost.visited_v⟩
  · rw [dif_neg h]
    refine ⟨inv, hstack, fun _ hx => hx, ?_⟩
    unfold tjVisited
    cases hg : getK st.indexM vh.1 with
    | none => exact absurd hg h
    | some c => rfl

/-- The driver loop preserves the invariant and the empty stack, and
visits every listed node. -/
theorem tarjan_fold (es : List Edge) :
    ∀ (l : List { x // x ∈ nodesOf es }) (st : TJ),
      TInv es st → st.stack = [] →
      TInv es (l.foldl (tjStep es) st) ∧
        (l.foldl (tjStep es) st).stack = [] ∧
        (∀ x, tjVisited st x → tjVisited (l.foldl (tjStep es) st) x) ∧
        (∀ p ∈ l, tjVisited (l.foldl (tjStep es) st) p.1) := by
  intro l
  induction l with
  | nil =>
    intro st inv hstack
    exact ⟨inv, hstack, fun _ hx => hx, by simp⟩
  | cons vh l ih =>
    intro st inv hstack
    obtain ⟨i1, s1, m1, v1⟩ := @tjStep_spec es st vh inv hstack
    obtain ⟨i2, s2, m2, a2⟩ := ih (tjStep es st vh) i1 s1
    rw [List.foldl_cons]
    refine ⟨i2, s2, fun x hx => m2 x (m1 x hx), ?_⟩
    intro p hp
    rcases List.mem_cons.mp hp with h | h
    · rw [h]; exact m2 vh.1 v1
    · exact a2 p h

/-- The final Tarjan state: invariant, empty stack, every node
visited (hence assigned). -/
theorem tarjanSCC_spec (es : List Edge) :
    TInv es (tarjanSCC es) ∧ (tarjanSCC es).stack = [] ∧
      ∀ x ∈ nodesOf es, tjVisited (tarjanSCC es) x := by
  obtain ⟨i, s, _, a⟩ :=
    tarjan_fold es (nodesOf es).attach tjInit (tinv_init es) rfl
  refine ⟨i, s, ?_⟩
  intro x hx
  exact a ⟨x, hx⟩ (List.mem_attach _ _)

/-- Every node of `nodesOf` is assigned an SCC id by the finished run. -/
theorem tarjan_assigned {es : List Edge} {x : Str} (hx : x ∈ nodesOf es) :
    tjAssigned (tarjanSCC es) x := by
  obtain ⟨inv, hstack, hvis⟩ := tarjanSCC_spec es
  rcases inv.visited_cases x (hvis x hx) with h | h
  · rw [hstack] at h
    exact absurd h (List.not_mem_nil x)
  · exact h

/-- A node reachable from anywhere by a nonempty path is a graph node. -/
theorem reach_mem_nodesOf {es : List Edge} {u w : Str}
    (h : reachesRel es u w) (hne : w ≠ u) : w ∈ nodesOf es := by
  induction h with
  | refl => exact absurd rfl hne
  | tail hab hbc ih =>
    obtain ⟨e, he, hs, ht⟩ := hbc
    apply mem_dedupFS_of
    rw [List.mem_flatten]
    refine ⟨[e.source, e.target], by simpa using ⟨e, he, rfl, rfl⟩, ?_⟩
    rw [← ht]
    simp

/-- An edge's source is a graph node. -/
theorem edge_source_mem_nodesOf {es : List Edge} {e : Edge} (he : e ∈ es) :
    e.source ∈ nodesOf es := by
  apply mem_dedupFS_of
  rw [List.mem_flatten]
  exact ⟨[e.source, e.target], by simpa using ⟨e, he, rfl, rfl⟩, by simp⟩

/-- An edge's target is a graph node. -/
theorem edge_target_mem_nodesOf {es : List Edge} {e : Edge} (he : e ∈ es) :
    e.target ∈ nodesOf es := by
  apply mem_dedupFS_of
  rw [List.mem_flatten]
  exact ⟨[e.source, e.target], by simpa using ⟨e, he, rfl, rfl⟩, by simp⟩

theorem one_lt_length_of_two {l : List Str} {a b : Str}
    (ha : a ∈ l) (hb : b ∈ l) (hne : a ≠ b) : 1 < l.length := by
  match l with
  | [] => exact absurd ha (List.not_mem_nil a)
  | [x] =>
    rw [List.mem_singleton] at ha hb
    exact absurd (ha.trans hb.symm) hne
  | x :: y :: t =>
    simp only [List.length_cons]
    omega

theorem exists_ne_of_one_lt_length {l : List Str} {a : Str}
    (hnd : l.Nodup) (ha : a ∈ l) (hlen : 1 < l.length) :
    ∃ b ∈ l, b ≠ a := by
  match l with
  | [] => exact absurd ha (List.not_mem_nil a)
  | [x] => simp at hlen
  | x :: y :: t =>
    have hxy : x ≠ y := by
      have h := List.nodup_cons.mp hnd
      exact fun hh => h.1 (hh ▸ List.mem_cons_self y t)
    by_cases hxa : x = a
    · exact ⟨y, by simp, fun h => hxy (by rw [hxa, h])⟩
    · exact ⟨x, by simp, hxa⟩

/-- On the finished run, two graph nodes share an SCC id exactly when
they are mutually reachable. -/
theorem tarjan_sccId_iff {es : List Edge} {u w : Str}
    (hu : u ∈ nodesOf es) (hw : w ∈ nodesOf es) :
    getK (tarjanSCC es).sccIdM u = getK (tarjanSCC es).sccIdM w
      ↔ (reachesRel es u w ∧ reachesRel es w u) :=
  (tarjanSCC_spec es).1.asg_mutual u w (tarjan_assigned hu) (tarjan_assigned hw)

/-- On the finished run, the member list of `u`'s SCC has length greater
than 1 exactly when some other node is mutually reachable with `u`. -/
theorem tarjan_size_iff {es : List Edge} {u : Str} {i : Nat}
    (hu : u ∈ nodesOf es) (hi : getK (tarjanSCC es).sccIdM u = some i) :
    ∃ mems, getN (tarjanSCC es).sccNodes i = some mems ∧
      (1 < mems.length ↔
        ∃ w, w ≠ u ∧ reachesRel es u w ∧ reachesRel es w u) := by
  have inv := (tarjanSCC_spec es).1
  have hilt : i < (tarjanSCC es).sccCount := inv.asg_id_lt u i hi
  have hsome := (inv.scc_nodes_keys i).mpr hilt
  obtain ⟨mems, hmems⟩ := Option.isSome_iff_exists.mp hsome
  obtain ⟨hnd, hiff⟩ := inv.scc_nodes_spec i mems hmems
  have hua : tjAssigned (tarjanSCC es) u := by
    show (getK (tarjanSCC es).sccIdM u).isSome = true
    rw [hi]
    rfl
  refine ⟨mems, hmems, ?_, ?_⟩
  · intro hlen
    obtain ⟨w, hwmem, hwne⟩ :=
      exists_ne_of_one_lt_length hnd ((hiff u).mpr hi) hlen
    have hwid : getK (tarjanSCC es).sccIdM w = some i := (hiff w).mp hwmem
    have hwa : tjAssigned (tarjanSCC es) w := by
      show (getK (tarjanSCC es).sccIdM w).isSome = true
      rw [hwid]
      rfl
    have heq : getK (tarjanSCC es).sccIdM u = getK (tarjanSCC es).sccIdM w := by
      rw [hi, hwid]
    exact ⟨w, hwne, (inv.asg_mutual u w hua hwa).mp heq⟩
  · rintro ⟨w, hwne, h1, h2⟩
    have hwmem : w ∈ nodesOf es := reach_mem_nodesOf h1 hwne
    have hwa := tarjan_assigned hwmem
    have heq := (inv.asg_mutual u w hua hwa).mpr ⟨h1, h2⟩
    have hwid : getK (tarjanSCC es).sccIdM w = some i := by
      rw [← heq, hi]
    exact one_lt_length_of_two ((hiff u).mpr hi) ((hiff w).mpr hwid)
      (fun h => hwne h.symm)

/-- Membership in the edge-id fold of `findCyclicEdgeIds`. -/
theorem mem_foldl_cyclic (st : TJ) :
    ∀ (l : List Edge) (acc : List Str) (x : Str),
      (x ∈ l.foldl (fun ids e =>
        if cyclicTest st e = true then
          addIfAbsent ids (mkEdgeId e.source e.target)
        else ids) acc)
      ↔ x ∈ acc ∨ ∃ e ∈ l, cyclicTest st e = true ∧
          mkEdgeId e.source e.target = x := by
  intro l
  induction l with
  | nil => intro acc x; simp
  | cons e l ih =>
    intro acc x
    rw [List.foldl_cons]
    by_cases hc : cyclicTest st e = true
    · rw [if_pos hc, ih, mem_addIfAbsent]
      constructor
      · rintro ((h | h) | ⟨e', he', hc', hx'⟩)
        · exact Or.inl h
        · exact Or.inr ⟨e, List.mem_cons_self _ _, hc, h.symm⟩
        · exact Or.inr ⟨e', List.mem_cons_of_mem _ he', hc', hx'⟩
      · rintro (h | ⟨e', he', hc', hx'⟩)
        · exact Or.inl (Or.inl h)
        · rcases List.mem_cons.mp he' with h' | h'
          · subst h'
            exact Or.inl (Or.inr hx'.symm)
          · exact Or.inr ⟨e', h', hc', hx'⟩
    · rw [if_neg hc, ih]
      constructor
      · rintro (h | ⟨e', he', hc', hx'⟩)
        · exact Or.inl h
        · exact Or.inr ⟨e', List.mem_cons_of_mem _ he', hc', hx'⟩
      · rintro (h | ⟨e', he', hc', hx'⟩)
        · exact Or.inl h
        · rcases List.mem_cons.mp he' with h' | h'
          · subst h'
            exact absurd hc' hc
          · exact Or.inr ⟨e', h', hc', hx'⟩

/-- The per-edge test of `findCyclicEdgeIds` holds exactly when the
edge's target reaches back to its source. -/
theorem cyclicTest_iff {es : List Edge} {e : Edge} (he : e ∈ es) :
    cyclicTest (tarjanSCC es) e = true ↔ reachesRel es e.target e.source := by
  have hs : e.source ∈ nodesOf es := edge_source_mem_nodesOf he
  have ht : e.target ∈ nodesOf es := edge_target_mem_nodesOf he
  obtain ⟨i, hi⟩ := Option.isSome_iff_exists.mp (tarjan_assigned hs)
  have inv := (tarjanSCC_spec es).1
  have hstep : stepRel es e.source e.target := ⟨e, he, rfl, rfl⟩
  have hred : cyclicTest (tarjanSCC es) e =
      (decide (e.source = e.target) ||
        (decide (getK (tarjanSCC es).sccIdM e.target = some i) &&
          decide (1 < ((getN (tarjanSCC es).sccNodes i).getD []).length))) := by
    unfold cyclicTest
    rw [hi]
  rw [hred, Bool.or_eq_true, Bool.and_eq_true, decide_eq_true_eq,
    decide_eq_true_eq, decide_eq_true_eq]
  constructor
  · rintro (hself | ⟨hid, _⟩)
    · rw [← hself]
      exact Relation.ReflTransGen.refl
    · have heq : getK (tarjanSCC es).sccIdM e.source
          = getK (tarjanSCC es).sccIdM e.target := by
        rw [hi, hid]
      exact ((tarjan_sccId_iff hs ht).mp heq).2
  · intro h
    by_cases hself : e.source = e.target
    · exact Or.inl hself
    · right
      have hmut : reachesRel es e.source e.target ∧
          reachesRel es e.target e.source :=
        ⟨Relation.ReflTransGen.single hstep, h⟩
      have heq := (tarjan_sccId_iff hs ht).mpr hmut
      refine ⟨by rw [← heq, hi], ?_⟩
      obtain ⟨mems, hmems, hiffs⟩ := tarjan_size_iff hs hi
      rw [hmems, Option.getD_some]
      exact hiffs.mpr ⟨e.target, fun hh => hself hh.symm, hmut⟩

/-- Membership in `findCyclicEdgeIds`: exactly the ids of the edges
whose target reaches back to their source. -/
theorem mem_findCyclicEdgeIds {es : List Edge} {x : Str} :
    x ∈ findCyclicEdgeIds es ↔
      ∃ e ∈ es, reachesRel es e.target e.source ∧
        mkEdgeId e.source e.target = x := by
  rw [show findCyclicEdgeIds es = es.foldl (fun ids e =>
      if cyclicTest (tarjanSCC es) e = true then
        addIfAbsent ids (mkEdgeId e.source e.target)
      else ids) [] from rfl, mem_foldl_cyclic]
  simp only [List.not_mem_nil, false_or]
  constructor
  · rintro ⟨e, he, hc, hx⟩
    exact ⟨e, he, (cyclicTest_iff he).mp hc, hx⟩
  · rintro ⟨e, he, hr, hx⟩
    exact ⟨e, he, (cyclicTest_iff he).mpr hr, hx⟩

unseal tjVisit tjNbrs

/-- C3: `findCyclicEdgeIds` collects exactly the ids of the edges that
are self-loops or whose two endpoints lie in one strongly connected
component of size greater than 1 — equivalently, of the edges lying on
some directed cycle (the target reaches back to the source); in the
two-edge graph A->B, B->A both edges are cyclic, and a lone edge a->b
yields none. -/
theorem findCyclicEdgeIds_spec :
    (∀ (es : List Edge) (x : Str),
      x ∈ findCyclicEdgeIds es ↔
        ∃ e ∈ es,
          (e.source = e.target ∨
            ((reachesRel es e.source e.target ∧
                reachesRel es e.target e.source) ∧
              ∃ w, w ≠ e.source ∧ reachesRel es e.source w ∧
                reachesRel es w e.source)) ∧
          mkEdgeId e.source e.target = x) ∧
    (∀ (es : List Edge) (e : Edge), e ∈ es →
      ((e.source = e.target ∨
          ((reachesRel es e.source e.target ∧
              reachesRel es e.target e.source) ∧
            ∃ w, w ≠ e.source ∧ reachesRel es e.source w ∧
              reachesRel es w e.source))
        ↔ reachesRel es e.target e.source)) ∧
    findCyclicEdgeIds
        [⟨ofStr "A", ofStr "B", none⟩, ⟨ofStr "B", ofStr "A", none⟩]
      = [mkEdgeId (ofStr "A") (ofStr "B"), mkEdgeId (ofStr "B") (ofStr "A")] ∧
    findCyclicEdgeIds [⟨ofStr "a", ofStr "b", none⟩] = [] := by
  have hequiv : ∀ (es : List Edge) (e : Edge), e ∈ es →
      ((e.source = e.target ∨
          ((reachesRel es e.source e.target ∧
              reachesRel es e.target e.source) ∧
            ∃ w, w ≠ e.source ∧ reachesRel es e.source w ∧
              reachesRel es w e.source))
        ↔ reachesRel es e.target e.source) := by
    intro es e he
    constructor
    · rintro (hself | ⟨⟨_, h2⟩, _⟩)
      · rw [← hself]
        exact Relation.ReflTransGen.refl
      · exact h2
    · intro h
      by_cases hself : e.source = e.target
      · exact Or.inl hself
      · right
        have hst : reachesRel es e.source e.target :=
          Relation.ReflTransGen.single ⟨e, he, rfl, rfl⟩
        exact ⟨⟨hst, h⟩, e.target, fun hh => hself hh.symm, hst, h⟩
  refine ⟨?_, hequiv, by decide, by decide⟩
  intro es x
  rw [mem_findCyclicEdgeIds]
  constructor
  · rintro ⟨e, he, hr, hx⟩
    exact ⟨e, he, (hequiv es e he).mpr hr, hx⟩
  · rintro ⟨e, he, hc, hx⟩
    exact ⟨e, he, (hequiv es e he).mp hc, hx⟩

/-- Witness for C3: the edge A->B of the two-edge cycle has its id
collected. -/
theorem findCyclicEdgeIds_spec_witness :
    mkEdgeId (ofStr "A") (ofStr "B") ∈
      findCyclicEdgeIds
        [⟨ofStr "A", ofStr "B", none⟩, ⟨ofStr "B", ofStr "A", none⟩] := by
  have hAB : stepRel
      [⟨ofStr "A", ofStr "B", none⟩, ⟨ofStr "B", ofStr "A", none⟩]
      (ofStr "A") (ofStr "B") :=
    ⟨⟨ofStr "A", ofStr "B", none⟩, by decide, rfl, rfl⟩
  have hBA : stepRel
      [⟨ofStr "A", ofStr "B", none⟩, ⟨ofStr "B", ofStr "A", none⟩]
      (ofStr "B") (ofStr "A") :=
    ⟨⟨ofStr "B", ofStr "A", none⟩, by decide, rfl, rfl⟩
  exact (findCyclicEdgeIds_spec.1
      [⟨ofStr "A", ofStr "B", none⟩, ⟨ofStr "B", ofStr "A", none⟩]
      (mkEdgeId (ofStr "A") (ofStr "B"))).mpr
    ⟨⟨ofStr "A", ofStr "B", none⟩, by decide,
      Or.inr ⟨⟨Relation.ReflTransGen.single hAB,
          Relation.ReflTransGen.single hBA⟩,
        ofStr "B", by decide,
        Relation.ReflTransGen.single hAB,
        Relation.ReflTransGen.single hBA⟩,
      rfl⟩

/-! ## Simple-cycle verification: rotation lemmas -/

theorem strLtB_asymm {a b : Str} (h1 : strLtB a b = true)
    (h2 : strLtB b a = true) : False := by
  have h := strLtB_trans a b a h1 h2
  rw [strLtB_irrefl a] at h
  exact Bool.noConfusion h

theorem strLtB_not_lt {a b : Str} (h : ¬strLtB a b = true) :
    a = b ∨ strLtB b a = true := by
  by_cases hab : a = b
  · exact Or.inl hab
  · rcases strLtB_connex a b hab with h' | h'
    · exact absurd h' h
    · exact Or.inr h'

/-- One step of the canonicalization scan. -/
def minStep (path : List Str) (m i : Nat) : Nat :=
  if strLtB (path.getD i []) (path.getD m []) then i else m

theorem minIdxOf_eq_fold (path : List Str) :
    minIdxOf path = ((List.range path.length).drop 1).foldl (minStep path) 0 :=
  rfl

theorem minFold_spec (path : List Str) :
    ∀ (l : List Nat) (best : Nat),
      (l.foldl (minStep path) best = best ∨
        (l.foldl (minStep path) best ∈ l ∧
          strLtB (path.getD (l.foldl (minStep path) best) [])
            (path.getD best []) = true)) ∧
      ∀ j, (j = best ∨ j ∈ l) →
        strLtB (path.getD j []) (path.getD (l.foldl (minStep path) best) [])
          = false := by
  intro l
  induction l with
  | nil =>
    intro best
    refine ⟨Or.inl rfl, ?_⟩
    intro j hj
    rcases hj with h | h
    · rw [h]; exact strLtB_irrefl _
    · exact absurd h (List.not_mem_nil j)
  | cons i l ih =>
    intro best
    rw [List.foldl_cons]
    obtain ⟨ih1, ih2⟩ := ih (minStep path best i)
    constructor
    · by_cases hlt : strLtB (path.getD i []) (path.getD best []) = true
      · have hbi : minStep path best i = i := by
          unfold minStep; rw [if_pos hlt]
        rw [hbi] at ih1 ⊢
        rcases ih1 with h | ⟨hmem, hstrict⟩
        · refine Or.inr ⟨?_, ?_⟩
          · rw [h]; exact List.mem_cons_self _ _
          · rw [h]; exact hlt
        · exact Or.inr ⟨List.mem_cons_of_mem _ hmem,
            strLtB_trans _ _ _ hstrict hlt⟩
      · have hbi : minStep path best i = best := by
          unfold minStep; rw [if_neg hlt]
        rw [hbi] at ih1 ⊢
        rcases ih1 with h | ⟨hmem, hstrict⟩
        · exact Or.inl h
        · exact Or.inr ⟨List.mem_cons_of_mem _ hmem, hstrict⟩
    · intro j hj
      rcases hj with h | h
      · subst h
        by_cases hlt : strLtB (path.getD i []) (path.getD j []) = true
        · have hbi : minStep path j i = i := by
            unfold minStep; rw [if_pos hlt]
          have h1 := ih2 (minStep path j i) (Or.inl rfl)
          rw [hbi] at h1 ⊢
          by_contra hcon
          rw [Bool.not_eq_false] at hcon
          have h2 := strLtB_trans _ _ _ hlt hcon
          rw [h1] at h2
          exact Bool.noConfusion h2
        · have hbi : minStep path j i = j := by
            unfold minStep; rw [if_neg hlt]
          have h1 := ih2 (minStep path j i) (Or.inl rfl)
          rw [hbi] at h1 ⊢
          exact h1
      · rcases List.mem_cons.mp h with h | h
        · subst h
          by_cases hlt : strLtB (path.getD j []) (path.getD best []) = true
          · have hbi : minStep path best j = j := by
              unfold minStep; rw [if_pos hlt]
            have h1 := ih2 (minStep path best j) (Or.inl rfl)
            rw [hbi] at h1 ⊢
            exact h1
          · have hbi : minStep path best j = best := by
              unfold minStep; rw [if_neg hlt]
            have h1 := ih2 (minStep path best j) (Or.inl rfl)
            rw [hbi] at h1 ⊢
            by_contra hcon
            rw [Bool.not_eq_false] at hcon
            rcases strLtB_not_lt hlt with heq | hgt
            · rw [heq] at hcon
              rw [h1] at hcon
              exact Bool.noConfusion hcon
            · have h2 := strLtB_trans _ _ _ hgt hcon
              rw [h1] at h2
              exact Bool.noConfusion h2
        · exact ih2 j (Or.inr h)

theorem minFold_lt (path : List Str) :
    ∀ (l : List Nat) (best : Nat), best < path.length →
      (∀ i ∈ l, i < path.length) →
      l.foldl (minStep path) best < path.length := by
  intro l
  induction l with
  | nil => intro best hb _; exact hb
  | cons i l ih =>
    intro best hb hl
    rw [List.foldl_cons]
    refine ih (minStep path best i) ?_ fun x hx => hl x (List.mem_cons_of_mem _ hx)
    unfold minStep
    split
    · exact hl i (List.mem_cons_self _ _)
    · exact hb

theorem minIdxOf_lt_length {path : List Str} (h : path ≠ []) :
    minIdxOf path < path.length := by
  rw [minIdxOf_eq_fold]
  refine minFold_lt path _ 0 (List.length_pos.mpr h) ?_
  intro i hi
  exact List.mem_range.mp (List.mem_of_mem_drop hi)

theorem mem_drop_one_range {n j : Nat} (h1 : 1 ≤ j) (h2 : j < n) :
    j ∈ (List.range n).drop 1 := by
  match n, h2 with
  | n + 1, h2 =>
    rw [List.range_succ_eq_map]
    show j ∈ List.map Nat.succ (List.range n)
    rw [List.mem_map]
    exact ⟨j - 1, List.mem_range.mpr (by omega), by omega⟩

theorem minIdxOf_min {path : List Str} {j : Nat} (hj : j < path.length) :
    strLtB (path.getD j []) (path.getD (minIdxOf path) []) = false := by
  rw [minIdxOf_eq_fold]
  refine (minFold_spec path _ 0).2 j ?_
  by_cases h0 : j = 0
  · exact Or.inl h0
  · exact Or.inr (mem_drop_one_range (by omega) hj)

theorem minIdxOf_zero_or_strict {path : List Str} :
    minIdxOf path = 0 ∨
      strLtB (path.getD (minIdxOf path) []) (path.getD 0 []) = true := by
  rw [minIdxOf_eq_fold]
  rcases (minFold_spec path _ 0).1 with h | ⟨_, h⟩
  · exact Or.inl h
  · exact Or.inr h

theorem headD_append_left {α : Type} {l₁ : List α} (l₂ : List α) (d : α)
    (h : l₁ ≠ []) : (l₁ ++ l₂).headD d = l₁.headD d := by
  cases l₁ with
  | nil => exact absurd rfl h
  | cons a t => rfl

theorem head?_append_left {α : Type} {l₁ : List α} (l₂ : List α)
    (h : l₁ ≠ []) : (l₁ ++ l₂).head? = l₁.head? := by
  cases l₁ with
  | nil => exact absurd rfl h
  | cons a t => rfl

theorem rotateMin_perm (path : List Str) : (rotateMin path).Perm path := by
  unfold rotateMin
  have h1 : (path.drop (minIdxOf path) ++ path.take (minIdxOf path)).Perm
      (path.take (minIdxOf path) ++ path.drop (minIdxOf path)) :=
    List.perm_append_comm
  rw [List.take_append_drop] at h1
  exact h1

theorem rotateMin_ne_nil {path : List Str} (h : path ≠ []) :
    rotateMin path ≠ [] := by
  intro hcon
  have hlen := (rotateMin_perm path).length_eq
  rw [hcon] at hlen
  exact h (List.eq_nil_of_length_eq_zero hlen.symm)

theorem headD_rotateMin {path : List Str} (h : path ≠ []) :
    (rotateMin path).headD [] = path.getD (minIdxOf path) [] := by
  have hm := minIdxOf_lt_length h
  have hd : path.drop (minIdxOf path) ≠ [] := by
    rw [Ne, List.drop_eq_nil_iff]
    omega
  unfold rotateMin
  rw [headD_append_left _ _ hd, List.headD_eq_head?_getD, List.head?_drop,
    List.getD_eq_getElem?_getD]

/-- Every element of the rotated list other than its head is strictly
greater than the head. -/
theorem rotateMin_head_min {path : List Str} (h : path ≠ []) :
    ∀ x ∈ rotateMin path, x ≠ (rotateMin path).headD [] →
      strLtB ((rotateMin path).headD []) x = true := by
  intro x hx hne
  have hm := minIdxOf_lt_length h
  rw [headD_rotateMin h] at hne ⊢
  have hx' : x ∈ path := (rotateMin_perm path).mem_iff.mp hx
  obtain ⟨j, hj, hjx⟩ := List.mem_iff_getElem.mp hx'
  have hgdj : path.getD j [] = x := by
    rw [List.getD_eq_getElem?_getD, List.getElem?_eq_getElem hj]
    exact hjx
  have hmin := @minIdxOf_min path j hj
  have hnotlt : ¬strLtB (path.getD j []) (path.getD (minIdxOf path) []) = true := by
    rw [hmin]
    exact Bool.noConfusion
  rcases strLtB_not_lt hnotlt with heq | hgt
  · rw [hgdj] at heq
    exact absurd heq hne
  · rw [hgdj] at hgt
    exact hgt

theorem rotateMin_eq_self {c : List Str} (h : c ≠ [])
    (hmin : ∀ x ∈ c, x ≠ c.headD [] → strLtB (c.headD []) x = true) :
    rotateMin c = c := by
  have hm0 : minIdxOf c = 0 := by
    rcases @minIdxOf_zero_or_strict c with h0 | hstrict
    · exact h0
    · exfalso
      have hm := minIdxOf_lt_length h
      have h0 : c.getD 0 [] = c.headD [] := by
        cases c with
        | nil => exact absurd rfl h
        | cons a t => rfl
      rw [h0] at hstrict
      have hmem : c.getD (minIdxOf c) [] ∈ c := by
        rw [List.getD_eq_getElem?_getD, List.getElem?_eq_getElem hm]
        exact List.getElem_mem hm
      by_cases hne : c.getD (minIdxOf c) [] = c.headD []
      · rw [hne, strLtB_irrefl] at hstrict
        exact Bool.noConfusion hstrict
      · exact strLtB_asymm hstrict (hmin _ hmem hne)
  unfold rotateMin
  rw [hm0]
  simp

theorem rotateMin_idem {path : List Str} (h : path ≠ []) :
    rotateMin (rotateMin path) = rotateMin path :=
  rotateMin_eq_self (rotateMin_ne_nil h) (rotateMin_head_min h)

/-- Rotating to the canonical form preserves being a simple cycle. -/
theorem isSimpleCycle_rotateMin {es : List Edge} {p : List Str}
    (h : isSimpleCycle es p) : isSimpleCycle es (rotateMin p) := by
  obtain ⟨hne, hnd, hchain, hclose⟩ := h
  by_cases hm0 : minIdxOf p = 0
  · unfold rotateMin
    rw [hm0, List.drop_zero, List.take_zero, List.append_nil]
    exact ⟨hne, hnd, hchain, hclose⟩
  · have hmlt := minIdxOf_lt_length hne
    have hsplit : p.take (minIdxOf p) ++ p.drop (minIdxOf p) = p :=
      List.take_append_drop _ p
    have hchain2 : List.Chain' (stepRel es)
        (p.take (minIdxOf p) ++ p.drop (minIdxOf p)) := by
      rw [hsplit]
      exact hchain
    rw [List.chain'_append] at hchain2
    obtain ⟨cht, chd, hjunc⟩ := hchain2
    have htne : p.take (minIdxOf p) ≠ [] := by
      rw [Ne, List.take_eq_nil_iff]
      push_neg
      exact ⟨hm0, hne⟩
    have hdne : p.drop (minIdxOf p) ≠ [] := by
      rw [Ne, List.drop_eq_nil_iff]
      omega
    have hlastd : (p.drop (minIdxOf p)).getLast? = p.getLast? := by
      conv_rhs => rw [← hsplit]
      rw [List.getLast?_append_of_ne_nil _ hdne]
    have hheadt : (p.take (minIdxOf p)).head? = p.head? := by
      conv_rhs => rw [← hsplit]
      rw [head?_append_left _ htne]
    refine ⟨rotateMin_ne_nil hne, (rotateMin_perm p).nodup_iff.mpr hnd, ?_, ?_⟩
    · unfold rotateMin
      rw [List.chain'_append]
      refine ⟨chd, cht, ?_⟩
      intro x hx y hy
      rw [List.getLastD_eq_getLast?, List.headD_eq_head?_getD] at hclose
      rw [hlastd] at hx
      rw [hheadt] at hy
      cases hgl : p.getLast? with
      | none => exact absurd (List.getLast?_eq_none_iff.mp hgl) hne
      | some x' =>
        cases hhd : p.head? with
        | none => exact absurd (List.head?_eq_none_iff.mp hhd) hne
        | some y' =>
          rw [hgl] at hx hclose
          rw [hhd] at hy hclose
          have hxx : x = x' := by
            have := hx
            simp at this
            exact this.symm
          have hyy : y = y' := by
            have := hy
            simp at this
            exact this.symm
          rw [hxx, hyy]
          simpa using hclose
    · unfold rotateMin
      rw [List.getLastD_eq_getLast?, List.headD_eq_head?_getD,
        List.getLast?_append_of_ne_nil _ htne, head?_append_left _ hdne]
      cases htl : (p.take (minIdxOf p)).getLast? with
      | none => exact absurd (List.getLast?_eq_none_iff.mp htl) htne
      | some x =>
        cases hdh : (p.drop (minIdxOf p)).head? with
        | none => exact absurd (List.head?_eq_none_iff.mp hdh) hdne
        | some y =>
          have hx : x ∈ (p.take (minIdxOf p)).getLast? := by
            rw [htl]; rfl
          have hy : y ∈ (p.drop (minIdxOf p)).head? := by
            rw [hdh]; rfl
          simpa using hjunc x hx y hy

/-! ## Simple-cycle verification: sortedness of the final merge sort -/

theorem merge_pairwise_weak {α : Type} {le le' : α → α → Bool}
    (himp : ∀ a b, le a b = true → le' a b = true)
    (hflip : ∀ a b, le a b = false → le' b a = true)
    (htrans : ∀ a b c, le' a b = true → le' b c = true → le' a c = true) :
    ∀ (xs ys : List α),
      xs.Pairwise (fun a b => le' a b = true) →
      ys.Pairwise (fun a b => le' a b = true) →
      (List.merge xs ys le).Pairwise (fun a b => le' a b = true) := by
  intro xs
  induction xs with
  | nil =>
    intro ys _ hys
    simpa using hys
  | cons a xs ihx =>
    intro ys
    induction ys with
    | nil =>
      intro hxs _
      simpa using hxs
    | cons b ys ihy =>
      intro hxs hys
      obtain ⟨ha, hxs'⟩ := List.pairwise_cons.mp hxs
      obtain ⟨hb, hys'⟩ := List.pairwise_cons.mp hys
      by_cases hab : le a b = true
      · rw [List.cons_merge_cons, if_pos hab]
        refine List.pairwise_cons.mpr ⟨?_, ihx (b :: ys) hxs' hys⟩
        intro z hz
        rcases List.mem_merge.mp hz with h | h
        · exact ha z h
        · rcases List.mem_cons.mp h with h' | h'
          · rw [h']; exact himp a b hab
          · exact htrans a b z (himp a b hab) (hb z h')
      · have hab' : le a b = false := by
          cases h : le a b
          · rfl
          · exact absurd h hab
        rw [List.cons_merge_cons, if_neg hab]
        refine List.pairwise_cons.mpr ⟨?_, ihy hxs hys'⟩
        intro z hz
        rcases List.mem_merge.mp hz with h | h
        · rcases List.mem_cons.mp h with h' | h'
          · rw [h']; exact hflip a b hab'
          · exact htrans b a z (hflip a b hab') (ha z h')
        · exact hb z h

theorem mergeSort_pairwise_weak {α : Type} {le le' : α → α → Bool}
    (himp : ∀ a b, le a b = true → le' a b = true)
    (hflip : ∀ a b, le a b = false → le' b a = true)
    (htrans : ∀ a b c, le' a b = true → le' b c = true → le' a c = true) :
    ∀ l : List α, (List.mergeSort l le).Pairwise (fun a b => le' a b = true) := by
  have main : ∀ (n : Nat) (l : List α), l.length ≤ n →
      (List.mergeSort l le).Pairwise (fun a b => le' a b = true) := by
    intro n
    induction n with
    | zero =>
      intro l hl
      rw [List.eq_nil_of_length_eq_zero (Nat.le_zero.mp hl)]
      simp
    | succ n ih =>
      intro l hl
      match l with
      | [] => simp
      | [a] => simp
      | a :: b :: xs =>
        rw [List.mergeSort]
        refine merge_pairwise_weak himp hflip htrans _ _ (ih _ ?_) (ih _ ?_)
        · simp only [List.splitInTwo_fst, List.length_take]
          simp only [List.length_cons] at hl ⊢
          omega
        · simp only [List.splitInTwo_snd, List.length_drop]
          simp only [List.length_cons] at hl ⊢
          omega
  intro l
  exact main l.length l (Nat.le_refl _)

theorem cycleLeB_imp_W : ∀ a b, cycleLeB a b = true → cycleLeW a b = true := by
  intro a b h
  unfold cycleLeB at h
  unfold cycleLeW
  by_cases hlen : a.length = b.length
  · rw [if_pos hlen] at h ⊢
    rw [Bool.not_eq_true']
    cases hba : strLtB (joinComma b) (joinComma a)
    · rfl
    · exact (strLtB_asymm h hba).elim
  · rw [if_neg hlen] at h ⊢
    exact h

theorem cycleLeB_flip_W : ∀ a b, cycleLeB a b = false → cycleLeW b a = true := by
  intro a b h
  unfold cycleLeB at h
  unfold cycleLeW
  by_cases hlen : a.length = b.length
  · rw [if_pos hlen] at h
    rw [if_pos hlen.symm, Bool.not_eq_true']
    exact h
  · rw [if_neg hlen] at h
    rw [if_neg (fun hh : b.length = a.length => hlen hh.symm)]
    simp only [decide_eq_false_iff_not, Nat.not_lt] at h
    simp only [decide_eq_true_eq]
    omega

/-! ## Simple-cycle verification: walk unfolding and helper lemmas -/

theorem getLastD_append_singleton {α : Type} (l : List α) (a d : α) :
    (l ++ [a]).getLastD d = a := by
  rw [List.getLastD_eq_getLast?, List.getLast?_append_of_ne_nil _ (by simp)]
  rfl

theorem headD_mem {α : Type} {l : List α} (h : l ≠ []) (d : α) :
    l.headD d ∈ l := by
  cases l with
  | nil => exact absurd rfl h
  | cons a t => exact List.mem_cons_self _ _

theorem getLastD_mem {α : Type} {l : List α} (h : l ≠ []) (d : α) :
    l.getLastD d ∈ l := by
  rw [List.getLastD_eq_getLast?]
  cases hg : l.getLast? with
  | none => exact absurd (List.getLast?_eq_none_iff.mp hg) h
  | some a =>
    show a ∈ l
    exact List.mem_of_getLast?_eq_some hg

theorem cons_headD_tail {α : Type} {l : List α} (h : l ≠ []) (d : α) :
    l.headD d :: l.tail = l := by
  cases l with
  | nil => exact absurd rfl h
  | cons a t => rfl

theorem chain'_junction {α : Type} {R : α → α → Prop} {path : List α}
    {y : α} {l : List α} (h : path ≠ [])
    (hc : List.Chain' R (path ++ y :: l)) (d : α) :
    R (path.getLastD d) y := by
  rw [List.chain'_append] at hc
  refine hc.2.2 (path.getLastD d) ?_ y rfl
  rw [List.getLastD_eq_getLast?]
  cases hg : path.getLast? with
  | none => exact absurd (List.getLast?_eq_none_iff.mp hg) h
  | some a => rfl

theorem nodup_append_singleton {α : Type} {l : List α} {a : α} :
    (l ++ [a]).Nodup ↔ l.Nodup ∧ a ∉ l := by
  rw [List.nodup_append]
  constructor
  · rintro ⟨h1, _, h3⟩
    exact ⟨h1, fun hmem => h3 hmem (List.mem_singleton.mpr rfl)⟩
  · rintro ⟨h1, h2⟩
    refine ⟨h1, List.nodup_singleton a, ?_⟩
    intro x hx hy
    rw [List.mem_singleton] at hy
    subst hy
    exact h2 hx

theorem dfsC_eq (members : List Str) (sccAdj : Str → List Str)
    (hadj : ∀ u w, w ∈ sccAdj u → w ∈ members) (start current : Str)
    (path visited : List Str) (seen cycles : List (List Str))
    (hns : ∀ x ∈ sccAdj current, x ∈ members) :
    dfsC members sccAdj hadj start current path visited seen cycles =
      dfsNbrs members sccAdj hadj start (sccAdj current) hns
        path visited seen cycles := by
  rw [dfsC]

theorem dfsNbrs_nil (members : List Str) (sccAdj : Str → List Str)
    (hadj : ∀ u w, w ∈ sccAdj u → w ∈ members) (start : Str)
    (hns : ∀ x ∈ ([] : List Str), x ∈ members)
    (path visited : List Str) (seen cycles : List (List Str)) :
    dfsNbrs members sccAdj hadj start [] hns path visited seen cycles
      = (seen, cycles) := by
  rw [dfsNbrs]

theorem dfsNbrs_cons_close (members : List Str) (sccAdj : Str → List Str)
    (hadj : ∀ u w, w ∈ sccAdj u → w ∈ members) (start n : Str)
    (rest : List Str) (hns : ∀ x ∈ n :: rest, x ∈ members)
    (path visited : List Str) (seen cycles : List (List Str))
    (hrest : ∀ x ∈ rest, x ∈ members)
    (hc : n = start ∧ 1 < path.length) :
    dfsNbrs members sccAdj hadj start (n :: rest) hns path visited seen cycles
      = (if rotateMin path ∈ seen then
          dfsNbrs members sccAdj hadj start rest hrest path visited
            seen cycles
        else
          dfsNbrs members sccAdj hadj start rest hrest path visited
            (seen ++ [rotateMin path]) (cycles ++ [rotateMin path])) := by
  rw [dfsNbrs, if_pos hc]
  show dfsNbrs members sccAdj hadj start rest
      (fun x hx => hns x (List.mem_cons_of_mem n hx)) path visited
      (if rotateMin path ∈ seen then (seen, cycles)
        else (seen ++ [rotateMin path], cycles ++ [rotateMin path])).1
      (if rotateMin path ∈ seen then (seen, cycles)
        else (seen ++ [rotateMin path], cycles ++ [rotateMin path])).2 = _
  by_cases hmem : rotateMin path ∈ seen
  · simp only [if_pos hmem]
  · simp only [if_neg hmem]

theorem dfsNbrs_cons_skip (members : List Str) (sccAdj : Str → List Str)
    (hadj : ∀ u w, w ∈ sccAdj u → w ∈ members) (start n : Str)
    (rest : List Str) (hns : ∀ x ∈ n :: rest, x ∈ members)
    (path visited : List Str) (seen cycles : List (List Str))
    (hrest : ∀ x ∈ rest, x ∈ members)
    (hc : ¬(n = start ∧ 1 < path.length)) (hv : n ∈ visited) :
    dfsNbrs members sccAdj hadj start (n :: rest) hns path visited seen cycles
      = dfsNbrs members sccAdj hadj start rest hrest path visited
          seen cycles := by
  rw [dfsNbrs, if_neg hc, dif_pos hv]

theorem dfsNbrs_cons_visit (members : List Str) (sccAdj : Str → List Str)
    (hadj : ∀ u w, w ∈ sccAdj u → w ∈ members) (start n : Str)
    (rest : List Str) (hns : ∀ x ∈ n :: rest, x ∈ members)
    (path visited : List Str) (seen cycles : List (List Str))
    (hrest : ∀ x ∈ rest, x ∈ members)
    (hc : ¬(n = start ∧ 1 < path.length)) (hv : n ∉ visited) :
    dfsNbrs members sccAdj hadj start (n :: rest) hns path visited seen cycles
      = dfsNbrs members sccAdj hadj start rest hrest path visited
          (dfsC members sccAdj hadj start n (path ++ [n]) (n :: visited)
            seen cycles).1
          (dfsC members sccAdj hadj start n (path ++ [n]) (n :: visited)
            seen cycles).2 := by
  rw [dfsNbrs, if_neg hc, dif_neg hv]

/-- A walk satisfying the invariant with a closing edge back to `start`
is a simple cycle. -/
theorem isSimpleCycle_of_path {es : List Edge} {sccAdj : Str → List Str}
    {start : Str} {path visited : List Str}
    (hstep : ∀ u w, w ∈ sccAdj u → stepRel es u w)
    (pre : DfsPre sccAdj start path visited)
    (hclose : start ∈ sccAdj (path.getLastD [])) :
    isSimpleCycle es path := by
  refine ⟨pre.nonempty, pre.nodup, ?_, ?_⟩
  · exact pre.chain.imp fun a b h => hstep a b h
  · rw [pre.head]
    exact hstep _ _ hclose

theorem cycleLeW_trans : ∀ a b c, cycleLeW a b = true → cycleLeW b c = true →
    cycleLeW a c = true := by
  intro a b c h1 h2
  unfold cycleLeW at h1 h2 ⊢
  by_cases hab : a.length = b.length <;> by_cases hbc : b.length = c.length
  · rw [if_pos hab] at h1
    rw [if_pos hbc] at h2
    rw [if_pos (hab.trans hbc), Bool.not_eq_true']
    rw [Bool.not_eq_true'] at h1 h2
    cases hca : strLtB (joinComma c) (joinComma a)
    · rfl
    · exfalso
      rcases strLtB_not_lt (a := joinComma b) (b := joinComma a)
          (by rw [h1]; exact Bool.noConfusion) with heq | hgt
      · rw [← heq] at hca
        rcases strLtB_not_lt (a := joinComma c) (b := joinComma b)
            (by rw [h2]; exact Bool.noConfusion) with heq2 | hgt2
        · rw [heq2, strLtB_irrefl] at hca
          exact Bool.noConfusion hca
        · exact strLtB_asymm hca hgt2
      · rcases strLtB_not_lt (a := joinComma c) (b := joinComma b)
            (by rw [h2]; exact Bool.noConfusion) with heq2 | hgt2
        · rw [heq2] at hca
          exact strLtB_asymm hca hgt
        · exact strLtB_asymm hca (strLtB_trans _ _ _ hgt hgt2)
  · rw [if_pos hab] at h1
    rw [if_neg hbc] at h2
    rw [if_neg (fun hh : a.length = c.length => hbc (hab ▸ hh))]
    simp only [decide_eq_true_eq] at h2 ⊢
    omega
  · rw [if_neg hab] at h1
    rw [if_pos hbc] at h2
    rw [if_neg (fun hh : a.length = c.length => hab (hbc ▸ hh))]
    simp only [decide_eq_true_eq] at h1 ⊢
    omega
  · rw [if_neg hab] at h1
    rw [if_neg hbc] at h2
    simp only [decide_eq_true_eq] at h1 h2
    rw [if_neg (by omega : ¬a.length = c.length)]
    simp only [decide_eq_true_eq]
    omega

theorem not_mem_left_of_nodup_append {α : Type} {l₁ l₂ : List α} {a : α}
    (h : (l₁ ++ l₂).Nodup) (ha : a ∈ l₂) : a ∉ l₁ :=
  fun hmem => (List.disjoint_of_nodup_append h) hmem ha

theorem chain'_append_singleton {α : Type} {R : α → α → Prop} {l : List α}
    {n : α} {d : α} (h : l ≠ []) (hc : List.Chain' R l)
    (hn : R (l.getLastD d) n) : List.Chain' R (l ++ [n]) := by
  rw [List.chain'_append]
  refine ⟨hc, List.chain'_singleton n, ?_⟩
  intro x hx y hy
  rw [Option.mem_def] at hx hy
  rw [List.head?_cons, Option.some_inj] at hy
  subst hy
  have hx' : l.getLastD d = x := by
    rw [List.getLastD_eq_getLast?, hx]
    rfl
  rw [← hx']
  exact hn

theorem dfsPost_comp {es : List Edge} {a b : List (List Str)}
    {p r : List (List Str) × List (List Str)}
    (h1 : DfsPost es a b p) (h2 : DfsPost es p.1 p.2 r) :
    DfsPost es a b r := by
  constructor
  · exact fun k hk => h2.seen_mono k (h1.seen_mono k hk)
  · intro h
    exact h2.lock (h1.lock h)
  · intro h
    exact h2.nodup (h1.nodup h)
  · intro c hc
    rcases h2.sound c hc with hin | hgood
    · rcases h1.sound c hin with hin' | hgood'
      · exact Or.inl hin'
      · exact Or.inr hgood'
    · exact Or.inr hgood

/-- Simultaneous induction on the number of unvisited members: both
phases of the cycle walk preserve `DfsPost` (soundness and dedup of the
accumulators), and find the canonical form of every simple cycle that
extends the current path and starts with a still-pending neighbor. -/
theorem dfsMaster (es : List Edge) (members : List Str)
    (sccAdj : Str → List Str)
    (hadj : ∀ u w, w ∈ sccAdj u → w ∈ members)
    (hstep : ∀ u w, w ∈ sccAdj u → stepRel es u w) :
    ∀ N : Nat,
      (∀ (start : Str) (ns : List Str) (hns : ∀ x ∈ ns, x ∈ members)
          (path visited : List Str) (seen cycles : List (List Str)),
        members.countP (fun x => !decide (x ∈ visited)) ≤ N →
        DfsPre sccAdj start path visited →
        (∀ x ∈ ns, x ∈ sccAdj (path.getLastD [])) →
        DfsPost es seen cycles
          (dfsNbrs members sccAdj hadj start ns hns path visited
            seen cycles) ∧
        ∀ ext, (path ++ ext).Nodup →
          List.Chain' (fun a b => b ∈ sccAdj a) (path ++ ext) →
          1 < (path ++ ext).length →
          start ∈ sccAdj ((path ++ ext).getLastD []) →
          ext.headD start ∈ ns →
          rotateMin (path ++ ext) ∈
            (dfsNbrs members sccAdj hadj start ns hns path visited
              seen cycles).1) ∧
      (∀ (start current : Str) (path visited : List Str)
          (seen cycles : List (List Str)),
        members.countP (fun x => !decide (x ∈ visited)) ≤ N →
        DfsPre sccAdj start path visited →
        path.getLastD [] = current →
        DfsPost es seen cycles
          (dfsC members sccAdj hadj start current path visited
            seen cycles) ∧
        ∀ ext, (path ++ ext).Nodup →
          List.Chain' (fun a b => b ∈ sccAdj a) (path ++ ext) →
          1 < (path ++ ext).length →
          start ∈ sccAdj ((path ++ ext).getLastD []) →
          rotateMin (path ++ ext) ∈
            (dfsC members sccAdj hadj start current path visited
              seen cycles).1) := by
  intro N
  induction N using Nat.strong_induction_on with
  | _ N IH =>
  have hB : ∀ (start : Str) (ns : List Str) (hns : ∀ x ∈ ns, x ∈ members)
      (path visited : List Str) (seen cycles : List (List Str)),
      members.countP (fun x => !decide (x ∈ visited)) ≤ N →
      DfsPre sccAdj start path visited →
      (∀ x ∈ ns, x ∈ sccAdj (path.getLastD [])) →
      DfsPost es seen cycles
        (dfsNbrs members sccAdj hadj start ns hns path visited
          seen cycles) ∧
      ∀ ext, (path ++ ext).Nodup →
        List.Chain' (fun a b => b ∈ sccAdj a) (path ++ ext) →
        1 < (path ++ ext).length →
        start ∈ sccAdj ((path ++ ext).getLastD []) →
        ext.headD start ∈ ns →
        rotateMin (path ++ ext) ∈
          (dfsNbrs members sccAdj hadj start ns hns path visited
            seen cycles).1 := by
    intro start ns
    induction ns with
    | nil =>
      intro hns path visited seen cycles hcnt pre hsub
      rw [dfsNbrs_nil]
      refine ⟨⟨fun k hk => hk, fun h => h, fun h => h,
        fun c hc => Or.inl hc⟩, ?_⟩
      intro ext _ _ _ _ hmem
      exact absurd hmem (List.not_mem_nil _)
    | cons n rest ihrest =>
      intro hns path visited seen cycles hcnt pre hsub
      have hrest : ∀ x ∈ rest, x ∈ members :=
        fun x hx => hns x (List.mem_cons_of_mem n hx)
      have hsubrest : ∀ x ∈ rest, x ∈ sccAdj (path.getLastD []) :=
        fun x hx => hsub x (List.mem_cons_of_mem n hx)
      by_cases hc : n = start ∧ 1 < path.length
      · rw [dfsNbrs_cons_close members sccAdj hadj start n rest hns path
          visited seen cycles hrest hc]
        have hclose0 : start ∈ sccAdj (path.getLastD []) := by
          rw [← hc.1]
          exact hsub n (List.mem_cons_self n rest)
        by_cases hmem : rotateMin path ∈ seen
        · rw [if_pos hmem]
          obtain ⟨post, compl⟩ :=
            ihrest hrest path visited seen cycles hcnt pre hsubrest
          refine ⟨post, ?_⟩
          intro ext hnd hchain hlen hclose hhead
          rcases List.mem_cons.mp hhead with hh | hh
          · cases ext with
            | nil =>
              rw [List.append_nil]
              exact post.seen_mono _ hmem
            | cons m ext' =>
              exfalso
              rw [List.headD_cons] at hh
              have hmstart : m = start := hh.trans hc.1
              have hstartpath : start ∈ path :=
                pre.head ▸ headD_mem pre.nonempty []
              exact not_mem_left_of_nodup_append hnd
                (List.mem_cons_self m ext') (hmstart ▸ hstartpath)
          · exact compl ext hnd hchain hlen hclose hh
        · rw [if_neg hmem]
          obtain ⟨post, compl⟩ := ihrest hrest path visited
            (seen ++ [rotateMin path]) (cycles ++ [rotateMin path])
            hcnt pre hsubrest
          have hcyc : isSimpleCycle es path :=
            isSimpleCycle_of_path hstep pre hclose0
          refine ⟨?_, ?_⟩
          · constructor
            · intro k hk
              exact post.seen_mono k (List.mem_append_left _ hk)
            · intro h
              exact post.lock (by rw [h])
            · intro h
              exact post.nodup (nodup_append_singleton.mpr ⟨h, hmem⟩)
            · intro c hcm
              rcases post.sound c hcm with hin | hgood
              · rcases List.mem_append.mp hin with h1 | h1
                · exact Or.inl h1
                · rw [List.mem_singleton] at h1
                  subst h1
                  exact Or.inr ⟨isSimpleCycle_rotateMin hcyc,
                    rotateMin_idem pre.nonempty⟩
              · exact Or.inr hgood
          · intro ext hnd hchain hlen hclose hhead
            rcases List.mem_cons.mp hhead with hh | hh
            · cases ext with
              | nil =>
                rw [List.append_nil]
                exact post.seen_mono _
                  (List.mem_append_right _ (List.mem_singleton.mpr rfl))
              | cons m ext' =>
                exfalso
                rw [List.headD_cons] at hh
                have hmstart : m = start := hh.trans hc.1
                have hstartpath : start ∈ path :=
                  pre.head ▸ headD_mem pre.nonempty []
                exact not_mem_left_of_nodup_append hnd
                  (List.mem_cons_self m ext') (hmstart ▸ hstartpath)
            · exact compl ext hnd hchain hlen hclose hh
      · by_cases hv : n ∈ visited
        · rw [dfsNbrs_cons_skip members sccAdj hadj start n rest hns path
            visited seen cycles hrest hc hv]
          obtain ⟨post, compl⟩ :=
            ihrest hrest path visited seen cycles hcnt pre hsubrest
          refine ⟨post, ?_⟩
          intro ext hnd hchain hlen hclose hhead
          rcases List.mem_cons.mp hhead with hh | hh
          · cases ext with
            | nil =>
              exfalso
              rw [List.headD_nil] at hh
              rw [List.append_nil] at hlen
              exact hc ⟨hh.symm, hlen⟩
            | cons m ext' =>
              exfalso
              rw [List.headD_cons] at hh
              have hmvis : m ∈ visited := by
                rw [hh]
                exact hv
              have hmpath : m ∈ path := (pre.vis_iff m).mp hmvis
              exact not_mem_left_of_nodup_append hnd
                (List.mem_cons_self m ext') hmpath
          · exact compl ext hnd hchain hlen hclose hh
        · rw [dfsNbrs_cons_visit members sccAdj hadj start n rest hns path
            visited seen cycles hrest hc hv]
          have hnmem : n ∈ members := hns n (List.mem_cons_self n rest)
          have hcnt' : members.countP (fun x => !decide (x ∈ n :: visited))
              < N := lt_of_lt_of_le (unvisMem_lt hnmem hv) hcnt
          have hnadj : n ∈ sccAdj (path.getLastD []) :=
            hsub n (List.mem_cons_self n rest)
          have hnpath : n ∉ path := fun h => hv ((pre.vis_iff n).mpr h)
          have pre' : DfsPre sccAdj start (path ++ [n]) (n :: visited) := by
            constructor
            · simp
            · rw [headD_append_left _ _ pre.nonempty]
              exact pre.head
            · exact nodup_append_singleton.mpr ⟨pre.nodup, hnpath⟩
            · intro x
              rw [List.mem_cons, List.mem_append, List.mem_singleton,
                pre.vis_iff]
              tauto
            · exact chain'_append_singleton pre.nonempty pre.chain hnadj
          obtain ⟨postc, complc⟩ := (IH _ hcnt').2 start n (path ++ [n])
            (n :: visited) seen cycles (le_refl _) pre'
            (getLastD_append_singleton path n [])
          obtain ⟨postr, complr⟩ := ihrest hrest path visited
            (dfsC members sccAdj hadj start n (path ++ [n]) (n :: visited)
              seen cycles).1
            (dfsC members sccAdj hadj start n (path ++ [n]) (n :: visited)
              seen cycles).2
            hcnt pre hsubrest
          refine ⟨dfsPost_comp postc postr, ?_⟩
          intro ext hnd hchain hlen hclose hhead
          rcases List.mem_cons.mp hhead with hh | hh
          · cases ext with
            | nil =>
              exfalso
              rw [List.headD_nil] at hh
              rw [List.append_nil] at hlen
              exact hc ⟨hh.symm, hlen⟩
            | cons m ext' =>
              rw [List.headD_cons] at hh
              subst hh
              have hassoc : path ++ m :: ext' = (path ++ [m]) ++ ext' := by
                simp
              rw [hassoc] at hnd hchain hlen hclose ⊢
              exact postr.seen_mono _ (complc ext' hnd hchain hlen hclose)
          · exact complr ext hnd hchain hlen hclose hh
  refine ⟨hB, ?_⟩
  intro start current path visited seen cycles hcnt pre hcur
  rw [dfsC_eq members sccAdj hadj start current path visited seen cycles
    (fun x hx => hadj current x hx)]
  have hsub : ∀ x ∈ sccAdj current, x ∈ sccAdj (path.getLastD []) := by
    rw [hcur]
    exact fun x hx => hx
  obtain ⟨post, compl⟩ := hB start (sccAdj current)
    (fun x hx => hadj current x hx) path visited seen cycles hcnt pre hsub
  refine ⟨post, ?_⟩
  intro ext hnd hchain hlen hclose
  refine compl ext hnd hchain hlen hclose ?_
  cases ext with
  | nil =>
    rw [List.headD_nil]
    rw [List.append_nil] at hclose
    rw [hcur] at hclose
    exact hclose
  | cons m ext' =>
    rw [List.headD_cons]
    have := chain'_junction pre.nonempty hchain ([] : Str)
    rw [hcur] at this
    exact this

/-- Every node of a chain reaches the chain's last node. -/
theorem chain'_reach_last {α : Type} {R : α → α → Prop} (d : α) :
    ∀ (c : List α), List.Chain' R c → ∀ x ∈ c,
      Relation.ReflTransGen R x (c.getLastD d) := by
  intro c
  induction c with
  | nil =>
    intro _ x hx
    exact absurd hx (List.not_mem_nil x)
  | cons a t iht =>
    intro hch x hx
    cases t with
    | nil =>
      rw [List.mem_singleton] at hx
      subst hx
      exact Relation.ReflTransGen.refl
    | cons b t' =>
      have hlast : (a :: b :: t').getLastD d = (b :: t').getLastD d := by
        rw [List.getLastD_eq_getLast?, List.getLastD_eq_getLast?,
          List.getLast?_cons_cons]
      rw [hlast]
      rcases List.mem_cons.mp hx with hxa | hxbt
      · subst hxa
        exact Relation.ReflTransGen.head (List.chain'_cons.mp hch).1
          (iht hch.tail b (List.mem_cons_self b t'))
      · exact iht hch.tail x hxbt

/-- The head of a chain reaches every node of the chain. -/
theorem chain'_head_reaches {α : Type} {R : α → α → Prop} (d : α) :
    ∀ (c : List α), List.Chain' R c → ∀ x ∈ c,
      Relation.ReflTransGen R (c.headD d) x := by
  intro c
  induction c with
  | nil =>
    intro _ x hx
    exact absurd hx (List.not_mem_nil x)
  | cons a t iht =>
    intro hch x hx
    rw [List.headD_cons]
    rcases List.mem_cons.mp hx with hxa | hxt
    · subst hxa
      exact Relation.ReflTransGen.refl
    · cases t with
      | nil => exact absurd hxt (List.not_mem_nil x)
      | cons b t' =>
        have h2 : Relation.ReflTransGen R ((b :: t').headD d) x :=
          iht hch.tail x hxt
        rw [List.headD_cons] at h2
        exact Relation.ReflTransGen.head (List.chain'_cons.mp hch).1 h2

/-- All nodes of a simple cycle are mutually reachable. -/
theorem simpleCycle_mutual {es : List Edge} {c : List Str}
    (h : isSimpleCycle es c) :
    ∀ x ∈ c, ∀ y ∈ c, reachesRel es x y := by
  obtain ⟨hne, _, hchain, hcl⟩ := h
  intro x hx y hy
  have h1 : Relation.ReflTransGen (stepRel es) x (c.getLastD []) :=
    chain'_reach_last [] c hchain x hx
  have h2 : Relation.ReflTransGen (stepRel es) (c.headD []) y :=
    chain'_head_reaches [] c hchain y hy
  exact h1.trans (Relation.ReflTransGen.head hcl h2)

/-- Every node of a simple cycle is a graph node. -/
theorem simpleCycle_mem_nodesOf {es : List Edge} {c : List Str}
    (h : isSimpleCycle es c) : ∀ x ∈ c, x ∈ nodesOf es := by
  obtain ⟨hne, _, hchain, hcl⟩ := h
  intro x hx
  have h1 : Relation.ReflTransGen (stepRel es) x (c.getLastD []) :=
    chain'_reach_last [] c hchain x hx
  rcases Relation.ReflTransGen.cases_head h1 with heq | ⟨b, hstep, _⟩
  · obtain ⟨e, he, hs, _⟩ := hcl
    have hxe : x = e.source := heq.trans hs.symm
    rw [hxe]
    exact edge_source_mem_nodesOf he
  · obtain ⟨e, he, hs, _⟩ := hstep
    rw [← hs]
    exact edge_source_mem_nodesOf he

theorem getN_mem {α : Type} : ∀ {l : List (Nat × α)} {i : Nat} {v : α},
    getN l i = some v → (i, v) ∈ l := by
  intro l
  induction l with
  | nil =>
    intro i v h
    exact absurd h (by rw [getN]; exact Option.noConfusion)
  | cons kv rest ih =>
    intro i v h
    match kv with
    | (k, w) =>
      rw [getN] at h
      by_cases hk : k = i
      · rw [if_pos hk] at h
        rw [Option.some_inj] at h
        subst hk
        subst h
        exact List.mem_cons_self _ _
      · rw [if_neg hk] at h
        exact List.mem_cons_of_mem _ (ih h)

/-- A restricted-adjacency step is an edge step. -/
theorem sccAdjOf_step {es : List Edge} {members : List Str} {u w : Str}
    (h : w ∈ sccAdjOf es members u) : stepRel es u w := by
  unfold sccAdjOf at h
  split at h
  · exact mem_succsOf.mp (List.mem_filter.mp h).1
  · exact absurd h (List.not_mem_nil w)

/-- An edge chain inside a member set is a restricted-adjacency chain. -/
theorem chain_to_sccAdj {es : List Edge} {members : List Str} :
    ∀ c : List Str, (∀ x ∈ c, x ∈ members) → List.Chain' (stepRel es) c →
      List.Chain' (fun a b => b ∈ sccAdjOf es members a) c := by
  intro c
  induction c with
  | nil =>
    intro _ _
    exact List.chain'_nil
  | cons a t iht =>
    intro hmem hch
    cases t with
    | nil => exact List.chain'_singleton a
    | cons b t' =>
      rw [List.chain'_cons] at hch ⊢
      refine ⟨?_, iht (fun x hx => hmem x (List.mem_cons_of_mem a hx)) hch.2⟩
      unfold sccAdjOf
      rw [if_pos (hmem a (List.mem_cons_self a _))]
      rw [List.mem_filter]
      refine ⟨mem_succsOf.mpr hch.1, ?_⟩
      simp only [decide_eq_true_eq]
      exact hmem b (List.mem_cons_of_mem a (List.mem_cons_self b t'))

theorem rotateMin_singleton (s : Str) : rotateMin [s] = [s] := by
  have hr : List.range 1 = [0] := rfl
  simp [rotateMin, minIdxOf, hr]

theorem dfsPost_refl (es : List Edge)
    (p : List (List Str) × List (List Str)) : DfsPost es p.1 p.2 p :=
  ⟨fun _ hk => hk, fun h => h, fun h => h, fun _ hc => Or.inl hc⟩

/-- The fold of `dfs` calls over one SCC's start nodes preserves the
walk postcondition. -/
theorem sccStarts_fold (es : List Edge) (members : List Str) :
    ∀ (starts : List Str) (p : List (List Str) × List (List Str)),
      DfsPost es p.1 p.2
        (starts.foldl
          (fun p start => dfsC members (sccAdjOf es members)
            (fun _ _ hw => sccAdjOf_mem hw) start start
            [start] [start] p.1 p.2) p) := by
  intro starts
  induction starts with
  | nil =>
    intro p
    exact dfsPost_refl es p
  | cons s rest ih =>
    intro p
    rw [List.foldl_cons]
    refine dfsPost_comp ?_ (ih _)
    have pre : DfsPre (sccAdjOf es members) s [s] [s] :=
      ⟨List.cons_ne_nil s [], rfl, List.nodup_singleton s,
        fun _ => Iff.rfl, List.chain'_singleton s⟩
    exact ((dfsMaster es members (sccAdjOf es members)
      (fun _ _ hw => sccAdjOf_mem hw) (fun _ _ hw => sccAdjOf_step hw)
      (members.countP (fun x => !decide (x ∈ [s])))).2 s s [s] [s]
      p.1 p.2 (le_refl _) pre rfl).1

/-- If the canonical start of a canonical simple cycle inside the member
set is among the remaining start nodes, the fold of `dfs` calls records
the cycle. -/
theorem sccStarts_fold_complete (es : List Edge) (members : List Str)
    (c : List Str) (hc : isSimpleCycle es c) (hlen : 1 < c.length)
    (hmem : ∀ x ∈ c, x ∈ members) (hcanon : rotateMin c = c) :
    ∀ (starts : List Str), c.headD [] ∈ starts →
      ∀ p, c ∈ (starts.foldl
        (fun p start => dfsC members (sccAdjOf es members)
          (fun _ _ hw => sccAdjOf_mem hw) start start
          [start] [start] p.1 p.2) p).1 := by
  intro starts
  induction starts with
  | nil =>
    intro h
    exact absurd h (List.not_mem_nil _)
  | cons s rest ih =>
    intro hmemS p
    rw [List.foldl_cons]
    rcases List.mem_cons.mp hmemS with hh | hh
    · have hceq : [c.headD []] ++ c.tail = c := by
        rw [List.singleton_append]
        exact cons_headD_tail hc.1 []
      have pre : DfsPre (sccAdjOf es members) (c.headD [])
          [c.headD []] [c.headD []] :=
        ⟨List.cons_ne_nil _ [], rfl, List.nodup_singleton _,
          fun _ => Iff.rfl, List.chain'_singleton _⟩
      have hfound : c ∈ (dfsC members (sccAdjOf es members)
          (fun _ _ hw => sccAdjOf_mem hw) (c.headD []) (c.headD [])
          [c.headD []] [c.headD []] p.1 p.2).1 := by
        obtain ⟨_, compl⟩ := (dfsMaster es members (sccAdjOf es members)
          (fun _ _ hw => sccAdjOf_mem hw) (fun _ _ hw => sccAdjOf_step hw)
          (members.countP (fun x => !decide (x ∈ [c.headD []])))).2
          (c.headD []) (c.headD []) [c.headD []] [c.headD []] p.1 p.2
          (le_refl _) pre rfl
        have hres := compl c.tail (by rw [hceq]; exact hc.2.1)
          (by rw [hceq]; exact chain_to_sccAdj c hmem hc.2.2.1)
          (by rw [hceq]; exact hlen)
          (by
            rw [hceq]
            unfold sccAdjOf
            rw [if_pos (hmem _ (getLastD_mem hc.1 []))]
            rw [List.mem_filter]
            refine ⟨mem_succsOf.mpr hc.2.2.2, ?_⟩
            simp only [decide_eq_true_eq]
            exact hmem _ (headD_mem hc.1 []))
        rw [hceq, hcanon] at hres
        exact hres
      rw [← hh]
      exact (sccStarts_fold es members rest _).seen_mono c hfound
    · exact ih hh _

/-- The fold over SCC entries preserves the walk postcondition. -/
theorem sccEntries_fold_inv (es : List Edge) :
    ∀ (entries : List (Nat × List Str))
      (p : List (List Str) × List (List Str)),
      DfsPost es p.1 p.2 (entries.foldl (sccEntryStep es) p) := by
  intro entries
  induction entries with
  | nil =>
    intro p
    exact dfsPost_refl es p
  | cons ent rest ih =>
    intro p
    rw [List.foldl_cons]
    refine dfsPost_comp ?_ (ih _)
    unfold sccEntryStep
    by_cases h : ent.2.length ≤ 1
    · rw [if_pos h]
      exact dfsPost_refl es p
    · rw [if_neg h]
      exact sccStarts_fold es ent.2 ent.2 p

/-- The fold over SCC entries records every canonical multi-node simple
cycle whose nodes all lie in some listed component of size above one. -/
theorem sccEntries_fold_complete (es : List Edge) (c : List Str)
    (hc : isSimpleCycle es c) (hlen : 1 < c.length)
    (hcanon : rotateMin c = c) :
    ∀ (entries : List (Nat × List Str))
      (p : List (List Str) × List (List Str)) (i : Nat) (mems : List Str),
      (i, mems) ∈ entries → (∀ x ∈ c, x ∈ mems) → 1 < mems.length →
      c ∈ (entries.foldl (sccEntryStep es) p).1 := by
  intro entries
  induction entries with
  | nil =>
    intro p i mems h
    exact absurd h (List.not_mem_nil _)
  | cons ent rest ih =>
    intro p i mems hment hsubm hmlen
    rw [List.foldl_cons]
    rcases List.mem_cons.mp hment with hh | hh
    · have hfound : c ∈ (sccEntryStep es p ent).1 := by
        rw [← hh]
        simp only [sccEntryStep]
        rw [if_neg (by omega : ¬mems.length ≤ 1)]
        exact sccStarts_fold_complete es mems c hc hlen hsubm hcanon mems
          (hsubm _ (headD_mem hc.1 [])) p
      exact (sccEntries_fold_inv es rest _).seen_mono c hfound
    · exact ih _ i mems hh hsubm hmlen

/-- The self-loop pass: preserves the accumulator invariant, is
monotone, and records one singleton cycle per self-looping source. -/
theorem selfLoop_fold (es0 : List Edge) :
    ∀ (es : List Edge) (p : List (List Str) × List (List Str)),
      (∀ e ∈ es, e ∈ es0) →
      p.1 = p.2 → p.1.Nodup →
      (∀ c ∈ p.1, isSimpleCycle es0 c ∧ rotateMin c = c) →
      ((es.foldl selfLoopStep p).1 = (es.foldl selfLoopStep p).2 ∧
        (es.foldl selfLoopStep p).1.Nodup ∧
        ∀ c ∈ (es.foldl selfLoopStep p).1,
          isSimpleCycle es0 c ∧ rotateMin c = c) ∧
      (∀ k ∈ p.1, k ∈ (es.foldl selfLoopStep p).1) ∧
      (∀ e ∈ es, e.source = e.target →
        [e.source] ∈ (es.foldl selfLoopStep p).1) := by
  intro es
  induction es with
  | nil =>
    intro p hsub heq hnd hsnd
    refine ⟨⟨heq, hnd, hsnd⟩, fun k hk => hk, ?_⟩
    intro e he
    exact absurd he (List.not_mem_nil e)
  | cons e rest ih =>
    intro p hsub heq hnd hsnd
    have hsub' : ∀ x ∈ rest, x ∈ es0 :=
      fun x hx => hsub x (List.mem_cons_of_mem e hx)
    rw [List.foldl_cons]
    by_cases hsl : e.source = e.target
    · by_cases hin : [e.source] ∈ p.1
      · have hstepid : selfLoopStep p e = p := by
          unfold selfLoopStep
          rw [if_pos hsl, if_pos hin]
        rw [hstepid]
        obtain ⟨hinv, hmono, hcompl⟩ := ih p hsub' heq hnd hsnd
        refine ⟨hinv, hmono, ?_⟩
        intro e' he' hsl'
        rcases List.mem_cons.mp he' with hh | hh
        · rw [hh]
          exact hmono _ hin
        · exact hcompl e' hh hsl'
      · have hstepdef : selfLoopStep p e =
            (p.1 ++ [[e.source]], p.2 ++ [[e.source]]) := by
          unfold selfLoopStep
          rw [if_pos hsl, if_neg hin]
        rw [hstepdef]
        have hgood : isSimpleCycle es0 [e.source] ∧
            rotateMin [e.source] = [e.source] := by
          refine ⟨⟨List.cons_ne_nil _ _, List.nodup_singleton _,
            List.chain'_singleton _, ?_⟩, rotateMin_singleton e.source⟩
          have hL : ([e.source] : List Str).getLastD [] = e.source :=
            getLastD_append_singleton [] e.source []
          rw [hL, List.headD_cons]
          exact ⟨e, hsub e (List.mem_cons_self e rest), rfl, hsl.symm⟩
        have hsnd' : ∀ c ∈ p.1 ++ [[e.source]],
            isSimpleCycle es0 c ∧ rotateMin c = c := by
          intro c hcm
          rcases List.mem_append.mp hcm with h1 | h1
          · exact hsnd c h1
          · rw [List.mem_singleton] at h1
            rw [h1]
            exact hgood
        obtain ⟨hinv, hmono, hcompl⟩ :=
          ih (p.1 ++ [[e.source]], p.2 ++ [[e.source]]) hsub'
            (by show p.1 ++ _ = p.2 ++ _; rw [heq])
            (nodup_append_singleton.mpr ⟨hnd, hin⟩) hsnd'
        refine ⟨hinv, fun k hk => hmono k (List.mem_append_left _ hk), ?_⟩
        intro e' he' hsl'
        rcases List.mem_cons.mp he' with hh | hh
        · rw [hh]
          exact hmono _
            (List.mem_append_right _ (List.mem_singleton.mpr rfl))
        · exact hcompl e' hh hsl'
    · have hstepid : selfLoopStep p e = p := by
        unfold selfLoopStep
        rw [if_neg hsl]
      rw [hstepid]
      obtain ⟨hinv, hmono, hcompl⟩ := ih p hsub' heq hnd hsnd
      refine ⟨hinv, hmono, ?_⟩
      intro e' he' hsl'
      rcases List.mem_cons.mp he' with hh | hh
      · rw [hh] at hsl'
        exact absurd hsl' hsl
      · exact hcompl e' hh hsl'

/-- Full characterization of `findSimpleCycles`: membership is exactly
the canonical simple cycles, the output is duplicate-free, and it is
weakly sorted by the comparator order (length, then joined key). -/
theorem findSimpleCycles_chars (es : List Edge) :
    (∀ c, c ∈ findSimpleCycles es ↔
      (isSimpleCycle es c ∧ rotateMin c = c)) ∧
    (findSimpleCycles es).Nodup ∧
    (findSimpleCycles es).Pairwise (fun a b => cycleLeW a b = true) := by
  have hchar : findSimpleCycles es = List.mergeSort
      ((tarjanSCC es).sccNodes.foldl (sccEntryStep es)
        (es.foldl selfLoopStep ([], []))).2 cycleLeB := rfl
  obtain ⟨⟨heq0, hnd0, hsnd0⟩, _, hcompl0⟩ :=
    selfLoop_fold es es ([], []) (fun _ he => he) rfl List.nodup_nil
      (fun c hc => absurd hc (List.not_mem_nil c))
  have hpost1 := sccEntries_fold_inv es (tarjanSCC es).sccNodes
    (es.foldl selfLoopStep ([], []))
  have heq1 := hpost1.lock heq0
  have hnd1 := hpost1.nodup hnd0
  have hsnd1 : ∀ c ∈ ((tarjanSCC es).sccNodes.foldl (sccEntryStep es)
      (es.foldl selfLoopStep ([], []))).1,
      isSimpleCycle es c ∧ rotateMin c = c := by
    intro c hcm
    rcases hpost1.sound c hcm with h1 | h1
    · exact hsnd0 c h1
    · exact h1
  refine ⟨?_, ?_, ?_⟩
  · intro c
    rw [hchar, List.mem_mergeSort, ← heq1]
    constructor
    · exact hsnd1 c
    · rintro ⟨hcyc, hcanon⟩
      by_cases hlen : 1 < c.length
      · have hheadc : c.headD [] ∈ c := headD_mem hcyc.1 []
        have hheadnode : c.headD [] ∈ nodesOf es :=
          simpleCycle_mem_nodesOf hcyc _ hheadc
        obtain ⟨i, hi⟩ :=
          Option.isSome_iff_exists.mp (tarjan_assigned hheadnode)
        have inv := (tarjanSCC_spec es).1
        have hilt := inv.asg_id_lt _ i hi
        obtain ⟨mems, hmems⟩ :=
          Option.isSome_iff_exists.mp ((inv.scc_nodes_keys i).mpr hilt)
        obtain ⟨hmnd, hmspec⟩ := inv.scc_nodes_spec i mems hmems
        have hsubm : ∀ x ∈ c, x ∈ mems := by
          intro x hx
          have hxnode := simpleCycle_mem_nodesOf hcyc x hx
          have hxy := (tarjan_sccId_iff hxnode hheadnode).mpr
            ⟨simpleCycle_mutual hcyc x hx _ hheadc,
              simpleCycle_mutual hcyc _ hheadc x hx⟩
          exact (hmspec x).mpr (hxy.trans hi)
        have hmlen : 1 < mems.length := by
          obtain ⟨b, hb, hbne⟩ :=
            exists_ne_of_one_lt_length hcyc.2.1 hheadc hlen
          exact one_lt_length_of_two (hsubm b hb) (hsubm _ hheadc) hbne
        exact sccEntries_fold_complete es c hcyc hlen hcanon
          (tarjanSCC es).sccNodes (es.foldl selfLoopStep ([], []))
          i mems (getN_mem hmems) hsubm hmlen
      · match c, hcyc.1 with
        | s :: t, _ =>
          have ht : t = [] := by
            simp only [List.length_cons] at hlen
            have := List.eq_nil_of_length_eq_zero
              (by omega : t.length = 0)
            exact this
          subst ht
          have hL : ([s] : List Str).getLastD [] = s :=
            getLastD_append_singleton [] s []
          have hclose := hcyc.2.2.2
          rw [hL, List.headD_cons] at hclose
          obtain ⟨e, he, hs, htg⟩ := hclose
          have hres := hpost1.seen_mono _
            (hcompl0 e he (hs.trans htg.symm))
          rw [hs] at hres
          exact hres
  · rw [hchar]
    have hperm : (List.mergeSort
        ((tarjanSCC es).sccNodes.foldl (sccEntryStep es)
          (es.foldl selfLoopStep ([], []))).2 cycleLeB).Perm
        ((tarjanSCC es).sccNodes.foldl (sccEntryStep es)
          (es.foldl selfLoopStep ([], []))).2 :=
      List.mergeSort_perm _ _
    rw [hperm.nodup_iff, ← heq1]
    exact hnd1
  · rw [hchar]
    exact mergeSort_pairwise_weak cycleLeB_imp_W cycleLeB_flip_W
      cycleLeW_trans _

unseal dfsC dfsNbrs

/-- **C4 counterexample.** The final sort of `findSimpleCycles` orders
equal-length cycles by the comma-joined string `a.join(",")`, which is
not the lexicographic order on node sequences once a node name contains
a character below `','`: on the graph `a→x, x→a, a!→y, y→a!` the
returned list is `[[a!,y],[a,x]]`, although `[a,x]` precedes `[a!,y]`
in lexicographic node-sequence order. -/
theorem findSimpleCycles_sort_counterexample :
    findSimpleCycles
        [⟨ofStr "a", ofStr "x", none⟩, ⟨ofStr "x", ofStr "a", none⟩,
         ⟨ofStr "a!", ofStr "y", none⟩, ⟨ofStr "y", ofStr "a!", none⟩]
      = [[ofStr "a!", ofStr "y"], [ofStr "a", ofStr "x"]] ∧
    seqLexLtB [ofStr "a", ofStr "x"] [ofStr "a!", ofStr "y"] = true :=
  ⟨by decide, by decide⟩

/-- **C4 (amended).** For every edge list, `findSimpleCycles` returns
exactly the simple cycles of the directed graph, each exactly once:
a list is returned iff it is a nonempty duplicate-free node sequence
whose consecutive nodes (cyclically) are joined by edges and which is
rotated so its lexicographically smallest node comes first (self-loops
being the one-node case); the returned list is duplicate-free; and it
is sorted by cycle length and then by the comma-joined node string —
not by lexicographic node sequence, which the final sort key
`a.join(",")` does not implement.  On `A→B, B→A` the result is exactly
`[[A,B]]`. -/
theorem findSimpleCycles_amended :
    (∀ es c, c ∈ findSimpleCycles es ↔
      (isSimpleCycle es c ∧ rotateMin c = c)) ∧
    (∀ es, (findSimpleCycles es).Nodup) ∧
    (∀ es, (findSimpleCycles es).Pairwise
      (fun a b => cycleLeW a b = true)) ∧
    findSimpleCycles
        [⟨ofStr "A", ofStr "B", none⟩, ⟨ofStr "B", ofStr "A", none⟩]
      = [[ofStr "A", ofStr "B"]] :=
  ⟨fun es => (findSimpleCycles_chars es).1,
    fun es => (findSimpleCycles_chars es).2.1,
    fun es => (findSimpleCycles_chars es).2.2,
    by decide⟩

/-- **C4 witness.** The amended characterization applied at a concrete
input: on `A→B, B→A` the canonical cycle `[A,B]` is a member of the
returned list. -/
theorem findSimpleCycles_amended_witness :
    [ofStr "A", ofStr "B"] ∈ findSimpleCycles
        [⟨ofStr "A", ofStr "B", none⟩, ⟨ofStr "B", ofStr "A", none⟩] :=
  (findSimpleCycles_amended.1 _ [ofStr "A", ofStr "B"]).mpr
    ⟨⟨by decide, by decide,
      List.chain'_cons.mpr ⟨⟨⟨ofStr "A", ofStr "B", none⟩, by decide,
        by decide, by decide⟩, List.chain'_singleton _⟩,
      ⟨⟨ofStr "B", ofStr "A", none⟩, by decide, by decide, by decide⟩⟩,
      by decide⟩

end Fishtail
